import Mathlib

/-!
Verification of the jsjpeg baseline JPEG decoder core.

This file gives a shallow embedding, in Lean 4, of the entropy-decoding
pipeline of the jsjpeg repository (src/jsjpeg.js, src/reader.js,
src/huffarray.js, the HuffTree file and the idct file), and proves or
refutes the specification claims about it.

Modelling conventions:
- JavaScript numbers that hold small unsigned integers are modelled as Nat,
  signed quantities as Int.
- JavaScript arrays are modelled as Lean lists; an in-place update is
  modelled by returning the new contents of the buffer.
- A bit source (the DataViewReader used via nextBit) is modelled
  generically: a state type sigma together with a step function
  sigma -> Option (Nat x sigma) producing one bit (0 or 1) at a time.
  The concrete DataViewReader is modelled separately and instantiates it.
- Fallible operations (out-of-range DataView reads throw in JavaScript;
  a Huffman decode may return undefined) are modelled with Option.
-/

/-! ## Nibble helpers (src/jsjpeg.js getHighNibble / getLowNibble) -/

/-- Embedding of getHighNibble: the high 4 bits, JS computes byte >> 4. -/
def getHighNibble (byte : ℕ) : ℕ := byte / 16

/-- Embedding of getLowNibble: the low 4 bits, JS computes byte & 0x0F. -/
def getLowNibble (byte : ℕ) : ℕ := byte % 16

/-! ## EXTEND (src/jsjpeg.js, function extend, Figure F.12)

JS source:
  if (t === 0) return 0;
  let vt = 2 ** (t - 1);
  if (v < vt) { vt = (-1 << t) + 1; v += vt }
  return v;
In JavaScript (-1 << t) is -(2^t) for the lengths used (t <= 16). -/

/-- Embedding of extend. The raw bit value v is a Nat (it comes from
RECEIVE); the result is signed. -/
def extend (v t : ℕ) : ℤ :=
  if t = 0 then 0
  else if (v : ℤ) < 2 ^ (t - 1) then (v : ℤ) + (-(2 ^ t) + 1) else (v : ℤ)

/-! ## Generic bit sources

The decoder reads bits through reader.nextBit (or the global nextBit
wrapper). We model the reader state generically as sigma with a step
function producing one bit; a Huffman decoder is a function from the
state to an optional decoded value and new state. -/

/-- One-bit step function of a bit source: produces a bit (0 or 1) and the
next state, or none on failure (DataView read past the end throws). -/
def BitStep (σ : Type) := σ → Option (ℕ × σ)

/-- A Huffman decoder over a bit source: decodeHuffman's interface. -/
def HuffDec (σ : Type) := σ → Option (ℕ × σ)

/-- A plain list of bits as a bit source (used to state stream-level
properties of the decoding functions). -/
def listNext : BitStep (List ℕ) := fun s =>
  match s with
  | [] => none
  | b :: bs => some (b, bs)

/-! ## RECEIVE (src/jsjpeg.js, function receive, F.2.2.4)

JS source:
  let v = 0;
  for (let i = 0; i < ssss; i++) { v = (v << 1) + reader.nextBit(img); }
  return v;
-/

/-- Loop body of receive, accumulating the value v. -/
def receiveGo {σ : Type} (next : BitStep σ) : ℕ → ℕ → σ → Option (ℕ × σ)
  | 0, v, s => some (v, s)
  | i + 1, v, s =>
    match next s with
    | none => none
    | some (b, s1) => receiveGo next i (v * 2 + b) s1

/-- Embedding of receive: read ssss bits, MSB first. -/
def receive {σ : Type} (next : BitStep σ) (ssss : ℕ) (s : σ) : Option (ℕ × σ) :=
  receiveGo next ssss 0 s

/-! ## AC coefficient decoding (src/jsjpeg.js, decodeACCoeffs, F.2.2.2)

JS source (loop for k = 1; k < 64; k++):
  rs = acTable.decodeHuffman(reader, img);
  ssss = getLowNibble(rs); rrrr = getHighNibble(rs);
  if (ssss === 0) {
    if (rrrr === 0xF) { k += 15; continue; }          // ZRL
    else if (rrrr === 0) { break; }                   // EOB
    else { console.error(...); }                      // falls through to k++
  } else {
    k += rrrr;
    amp = receive(reader, img, ssss);
    sign = extend(amp, ssss);
    zigzagCoeff[k] = sign;
  }

A write past index 63 (possible only for corrupt streams, where k + rrrr
exceeds 63) grows the JS array past the 64-entry block; consumers read
only indices 0..63, and List.set ignores out-of-range indices, so the
observable 64-entry block is modelled faithfully. -/

/-- Loop of decodeACCoeffs, structurally recursive on a counter that
bounds the remaining iterations. Each iteration of the JS loop increases
k by at least one, so the loop runs at most 64 - k more times; the
counter is kept at least that large (see decodeACCoeffs below), which
makes the fuel-0 case unreachable with k < 64. -/
def decodeACGo {σ : Type} (next : BitStep σ) (acTable : HuffDec σ) :
    ℕ → List ℤ → ℕ → σ → Option (List ℤ × σ)
  | 0, zz, _, s => some (zz, s)
  | fuel + 1, zz, k, s =>
    if 64 ≤ k then some (zz, s)
    else
      match acTable s with
      | none => none
      | some (rs, s1) =>
        if getLowNibble rs = 0 then
          if getHighNibble rs = 15 then decodeACGo next acTable fuel zz (k + 16) s1
          else if getHighNibble rs = 0 then some (zz, s1)
          else decodeACGo next acTable fuel zz (k + 1) s1
        else
          match receive next (getLowNibble rs) s1 with
          | none => none
          | some (amp, s2) =>
            decodeACGo next acTable fuel
              (zz.set (k + getHighNibble rs) (extend amp (getLowNibble rs)))
              (k + getHighNibble rs + 1) s2

/-- Embedding of decodeACCoeffs. Returns the updated coefficient array and
the remaining bit-source state. -/
def decodeACCoeffs {σ : Type} (next : BitStep σ) (acTable : HuffDec σ)
    (zz : List ℤ) (k : ℕ) (s : σ) : Option (List ℤ × σ) :=
  decodeACGo next acTable (64 - k) zz k s

/-! ## DC coefficient decoding (src/jsjpeg.js, decodeDCCoeff, F.2.2.1)

JS source:
  let t = dcTable.decodeHuffman(reader, img);
  let diff = receive(reader, img, t);
  diff = extend(diff, t);
  let dcpred = scan.dcpred[id];
  return dcpred + diff;
-/

/-- Embedding of decodeDCCoeff: returns the absolute DC coefficient. The
DC predictor table scan.dcpred is modelled as a total map from component
id to a signed predictor. -/
def decodeDCCoeff {σ : Type} (next : BitStep σ) (dcTable : HuffDec σ)
    (pred : ℕ → ℤ) (id : ℕ) (s : σ) : Option (ℤ × σ) :=
  match dcTable s with
  | none => none
  | some (t, s1) =>
    match receive next t s1 with
    | none => none
    | some (dv, s2) => some (pred id + extend dv t, s2)

/-! ## Zig-zag table, reorder, dequantize, level shift (src/jsjpeg.js) -/

/-- The ZIGZAG constant from src/jsjpeg.js. -/
def ZIGZAG : List ℕ :=
  [0, 1, 5, 6, 14, 15, 27, 28,
   2, 4, 7, 13, 16, 26, 29, 42,
   3, 8, 12, 17, 25, 30, 41, 43,
   9, 11, 18, 24, 31, 40, 44, 53,
   10, 19, 23, 32, 39, 45, 52, 54,
   20, 22, 33, 38, 46, 51, 55, 60,
   21, 34, 37, 47, 50, 56, 59, 61,
   35, 36, 48, 49, 57, 58, 62, 63]

/-- DATA_UNIT_SIZE from src/jsjpeg.js. -/
def DATA_UNIT_SIZE : ℕ := 8

/-- Embedding of reorder (src/jsjpeg.js): returns a fresh array with
reordered[i] = coeff[ZIGZAG[i]]. -/
def reorder (coeff : List ℤ) : List ℤ :=
  (List.range coeff.length).map fun i => coeff.getD (ZIGZAG.getD i 0) 0

/-- Embedding of dequantize (src/jsjpeg.js). The JS function updates
zigzagCoeff in place (zigzagCoeff[i] = zigzagCoeff[i] * quantTable[i]);
the result here is the new contents of that buffer. -/
def dequantize (zigzagCoeff quantTable : List ℤ) : List ℤ :=
  (List.range zigzagCoeff.length).map fun i =>
    zigzagCoeff.getD i 0 * quantTable.getD i 0

/-- Embedding of levelShift (src/jsjpeg.js): adds 128 to every sample in
place; the result is the new contents of the block buffer. -/
def levelShift (block : List ℤ) : List ℤ := block.map (· + 128)

/-- State of the two arrays across a call to dequantize: the JS call
mutates the coefficient buffer and only reads the quantization table, so
after the call the buffers hold (dequantize c q, q). -/
def dequantizeCall (c q : List ℤ) : List ℤ × List ℤ := (dequantize c q, q)

/-- State of the input buffer across a call to reorder: the JS call only
reads coeff and writes a fresh array, so after the call the buffers hold
(reorder c, c). -/
def reorderCall (c : List ℤ) : List ℤ × List ℤ := (reorder c, c)

/-! ## The DataViewReader (src/reader.js and the unnamed reader file)

State: the byte buffer (view), the index of the last byte read (starts at
-1), the current bit register byte with its remaining bit count cnt, and
the multi-bit peek buffer with its valid bit count.

Modelling notes:
- view.getUint8 past the end throws in JavaScript; nextByte returns none
  in that case.
- The img structure is modelled by the two fields the reader touches: the
  DC predictor table (reset by the restart-marker branch of nextBit) and
  the frame row count (written by parseDNL).
- The peek buffer is a JS number used through 32-bit bitwise operators;
  it is kept as a Nat reduced mod 2^32. For the bit counts that occur
  (buffSize stays below 32 before the final extraction) the int32
  arithmetic shift plus mask of the source equals the Nat divide and mod
  used here, because the extracted bits lie strictly below bit 32. -/

/-- The part of the image struct the reader reads and writes. -/
structure Img where
  dcpred : ℕ → ℤ
  frameY : ℕ

/-- State of a DataViewReader. -/
structure Reader where
  view : List ℕ
  index : ℤ
  byte : ℕ
  cnt : ℕ
  buffer : ℕ
  buffSize : ℕ
deriving DecidableEq

/-- A freshly reset reader over a byte buffer (constructor + reset). -/
def freshReader (view : List ℕ) : Reader :=
  { view := view, index := -1, byte := 0, cnt := 0, buffer := 0, buffSize := 0 }

/-- Embedding of nextByte: return view.getUint8(++index), or none when
the read is out of range (getUint8 throws). -/
def nextByte (r : Reader) : Option (ℕ × Reader) :=
  let i := r.index + 1
  if 0 ≤ i ∧ i < (r.view.length : ℤ) then
    some (r.view.getD i.toNat 0, { r with index := i })
  else none

/-- Embedding of nextWord: two bytes big endian, index advanced by 2. -/
def nextWord (r : Reader) : Option (ℕ × Reader) :=
  let i := r.index + 1
  if 0 ≤ i ∧ i + 1 < (r.view.length : ℤ) then
    some (r.view.getD i.toNat 0 * 256 + r.view.getD (i.toNat + 1) 0,
      { r with index := i + 1 })
  else none

/-- Embedding of hasMoreBytes: index < byteLength - 1. -/
def hasMoreBytes (r : Reader) : Prop := r.index < (r.view.length : ℤ) - 1

instance (r : Reader) : Decidable (hasMoreBytes r) := by
  unfold hasMoreBytes
  infer_instance

/-- Embedding of align: discard buffered bits of both read paths. -/
def align (r : Reader) : Reader := { r with cnt := 0, buffSize := 0 }

/-- Embedding of parseDNL (src/jsjpeg.js): reads the segment length and
the new number of lines, updating img.frame.frameY. -/
def parseDNL (r : Reader) (img : Img) : Option (Reader × Img) :=
  match nextWord r with
  | none => none
  | some (_, r1) =>
    match nextWord r1 with
    | none => none
    | some (fy, r2) => some (r2, { img with frameY := fy })

/-- Embedding of nextBit (F.2.2.5). When the register is empty a byte is
loaded; a 0xFF byte has its follower inspected: 0x00 is dropped (byte
stuffing), DNL runs parseDNL, a restart marker byte-aligns, resets the
DC predictors and loads the next byte, and any other marker is logged
and decoding continues. Then the top register bit is returned. -/
def nextBit (img : Img) (r : Reader) : Option (ℕ × Reader × Img) :=
  let filled : Option (Reader × Img) :=
    if r.cnt = 0 then
      match nextByte r with
      | none => none
      | some (b, r1) =>
        let r2 := { r1 with byte := b, cnt := 8 }
        if b = 0xFF then
          match nextByte r2 with
          | none => none
          | some (b2, r3) =>
            if b2 ≠ 0 then
              if b2 = 0xDC then
                parseDNL r3 img
              else if 0xD0 ≤ b2 ∧ b2 ≤ 0xD7 then
                match nextByte { r3 with cnt := 1 } with
                | none => none
                | some (b3, r4) =>
                  some ({ r4 with byte := b3 }, { img with dcpred := fun _ => 0 })
              else some (r3, img)
            else some (r3, img)
        else some (r2, img)
    else some (r, img)
  match filled with
  | none => none
  | some (rf, imgf) =>
    some (rf.byte / 128, { rf with byte := rf.byte * 2 % 256, cnt := rf.cnt - 1 },
      imgf)

/-- One fill iteration of the peek loop (the unnamed reader file): at end
of buffer a 0xFF filler byte is pushed; otherwise the next byte is
pushed, and after a 0xFF the follower is inspected (0x00 dropped, DNL
parsed, restart markers pushed as filler with the index backed up two
bytes, EOI ignored, others logged). -/
def peekStep (img : Img) (r : Reader) : Option (Reader × Img) :=
  if ¬ hasMoreBytes r then
    some ({ r with
      buffer := (r.buffer * 256 + 0xFF) % 2 ^ 32
      buffSize := r.buffSize + 8 }, img)
  else
    match nextByte r with
    | none => none
    | some (b, r1) =>
      let r2 := { r1 with
        buffer := (r1.buffer * 256 + b) % 2 ^ 32
        buffSize := r1.buffSize + 8 }
      if b = 0xFF then
        match nextByte r2 with
        | none => none
        | some (b2, r3) =>
          if b2 ≠ 0 then
            if b2 = 0xDC then
              (parseDNL r3 img).map fun (r4, img4) => (r4, img4)
            else if 0xD0 ≤ b2 ∧ b2 ≤ 0xD7 then
              some ({ r3 with
                buffer := (r3.buffer * 256 + b) % 2 ^ 32
                buffSize := r3.buffSize + 8
                index := r3.index - 2 }, img)
            else some (r3, img)
          else some (r3, img)
      else some (r2, img)

/-- The fill loop of peek: run peekStep until buffSize >= numBits. Each
iteration grows buffSize by at least 8, so numBits + 1 iterations always
suffice; the counter only bounds that. -/
def peekFill (img : Img) (r : Reader) (numBits : ℕ) : ℕ → Option (Reader × Img)
  | 0 => if r.buffSize < numBits then none else some (r, img)
  | fuel + 1 =>
    if r.buffSize < numBits then
      match peekStep img r with
      | none => none
      | some (r1, img1) => peekFill img1 r1 numBits fuel
    else some (r, img)

/-- Embedding of peek: fill the buffer to numBits bits, then return the
top numBits of the valid bits (buffer >> (buffSize - numBits), masked). -/
def peek (img : Img) (r : Reader) (numBits : ℕ) : Option (ℕ × Reader × Img) :=
  match peekFill img r numBits (numBits + 1) with
  | none => none
  | some (r1, img1) =>
    some (r1.buffer / 2 ^ (r1.buffSize - numBits) % 2 ^ numBits, r1, img1)

/-- Repeated single-bit reads through nextBit. -/
def readBits (img : Img) (r : Reader) : ℕ → Option (List ℕ × Reader × Img)
  | 0 => some ([], r, img)
  | n + 1 =>
    match nextBit img r with
    | none => none
    | some (b, r1, img1) =>
      match readBits img1 r1 n with
      | none => none
      | some (bs, r2, img2) => some (b :: bs, r2, img2)

/-- The bits of a value, MSB first, at a given bit width. -/
def natBits : ℕ → ℕ → List ℕ
  | 0, _ => []
  | l + 1, c => (c / 2 ^ l) % 2 :: natBits l (c % 2 ^ l)

/-! ## Data unit decoding (src/jsjpeg.js, decodeDataUnit, F.2.1.2)

JS source:
  const zigzagCoeff = new Array(64).fill(0);
  zigzagCoeff[0] = decodeDCCoeff(reader, img, scan, id, dcTable);
  scan.dcpred[id] = zigzagCoeff[0];
  decodeACCoeffs(reader, img, zigzagCoeff, acTable);
  dequantize(zigzagCoeff, quantTable);
  reordered = reorder(zigzagCoeff);
  let block = idct(reordered);
  levelShift(block);
  return block;

The IDCT called here is the globally selected variant; the embedding
takes it as the idctImpl parameter so each variant can be plugged in. -/

/-- Coefficient phase of decodeDataUnit: DC decode, predictor update, AC
decode. Returns the zig-zag coefficient block, the updated predictor
table and the bit-source state. -/
def decodeDataUnitZZ {σ : Type} (next : BitStep σ) (dcTable acTable : HuffDec σ)
    (pred : ℕ → ℤ) (id : ℕ) (s : σ) : Option (List ℤ × (ℕ → ℤ) × σ) :=
  match decodeDCCoeff next dcTable pred id s with
  | none => none
  | some (dc, s1) =>
    let zz0 := (List.replicate 64 (0 : ℤ)).set 0 dc
    let pred1 := Function.update pred id dc
    match decodeACCoeffs next acTable zz0 1 s1 with
    | none => none
    | some (zz, s2) => some (zz, pred1, s2)

/-- Embedding of decodeDataUnit: coefficient decode, dequantize, reorder,
IDCT, level shift. -/
def decodeDataUnit {σ : Type} (idctImpl : List ℤ → List ℤ) (next : BitStep σ)
    (dcTable acTable : HuffDec σ) (pred : ℕ → ℤ) (id : ℕ)
    (quantTable : List ℤ) (s : σ) : Option (List ℤ × (ℕ → ℤ) × σ) :=
  match decodeDataUnitZZ next dcTable acTable pred id s with
  | none => none
  | some (zz, pred1, s2) =>
    some (levelShift (idctImpl (reorder (dequantize zz quantTable))), pred1, s2)

/-! ## Scan-level decoding (src/jsjpeg.js, decodeScan / decodeMCU)

The scan driver orders components by the scan selectors (resetting each
selected component's DC predictor to 0), then loops over the MCUs; at a
restart boundary it consumes the two marker bytes, resets all DC
predictors and byte-aligns the reader. Drawing, placement into the
component sample planes and colorspace conversion are external to the
core (spec section 1) and are not modelled; blocks are decoded and
dropped here. The Huffman decoder objects looked up in
img.huffmanTables are abstract decode functions over the scan state
Reader x Img (the state nextBit threads). -/

/-- A frame component (id, sampling factors, quantization table id). -/
structure FrameComp where
  componentID : ℕ
  hSampleFactor : ℕ
  vSampleFactor : ℕ
  quantTableID : ℕ
deriving DecidableEq

/-- A scan header component entry: selector Cs, DC table Td, AC table
Ta. -/
structure ScanComp where
  cs : ℕ
  td : ℕ
  ta : ℕ
deriving DecidableEq

/-- nextBit as a bit step over the scan state Reader x Img. -/
def nextBitRI : BitStep (Reader × Img) := fun s =>
  match nextBit s.2 s.1 with
  | none => none
  | some (b, r1, img1) => some (b, (r1, img1))

/-- The component-ordering loop at the top of decodeScan: for each scan
selector, the first matching frame component is appended and its DC
predictor entry is set to 0. The initial dcpred array contents are a
parameter (the JS array starts empty). -/
def selectComponents (scanComps : List ScanComp) (frameComps : List FrameComp)
    (pr0 : ℕ → ℤ) : List FrameComp × (ℕ → ℤ) :=
  scanComps.foldl (fun acc sel =>
    match frameComps.find? (fun fc => fc.componentID = sel.cs) with
    | none => acc
    | some fc => (acc.1 ++ [fc], Function.update acc.2 fc.componentID 0)) ([], pr0)

/-- The restart-interval check at the top of each MCU iteration: at a
boundary the two marker bytes are consumed (the JS logs but proceeds
whatever their values), all DC predictors are reset to 0 (dcpred.fill)
and the reader is byte-aligned. -/
def restartCheck (restartInterval mcuIndex : ℕ) (preds : ℕ → ℤ)
    (s : Reader × Img) : Option ((ℕ → ℤ) × (Reader × Img)) :=
  if 0 < restartInterval ∧ 0 < mcuIndex ∧ mcuIndex % restartInterval = 0 then
    match nextByte s.1 with
    | none => none
    | some (_, r1) =>
      match nextByte r1 with
      | none => none
      | some (_, r2) => some (fun _ => 0, (align r2, s.2))
  else some (preds, s)

/-- The per-component block loop of decodeMCU: h x v data units decoded
in sequence, threading the predictor table and the scan state. -/
def decodeBlocks {σ : Type} (idctImpl : List ℤ → List ℤ) (next : BitStep σ)
    (dcTable acTable : HuffDec σ) (quant : List ℤ) (id : ℕ) :
    ℕ → (ℕ → ℤ) → σ → Option ((ℕ → ℤ) × σ)
  | 0, preds, s => some (preds, s)
  | n + 1, preds, s =>
    match decodeDataUnit idctImpl next dcTable acTable preds id quant s with
    | none => none
    | some (_, preds1, s1) =>
      decodeBlocks idctImpl next dcTable acTable quant id n preds1 s1

/-- Embedding of decodeMCU: for each ordered component, look up its scan
entry (none models the JS crash on a missing selector), fetch its DC/AC
tables and quantization table, and decode its h x v data units. -/
def decodeMCU {σ : Type} (idctImpl : List ℤ → List ℤ) (next : BitStep σ)
    (huffTables : ℕ → ℕ → HuffDec σ) (quantTables : ℕ → List ℤ)
    (scanComps : List ScanComp) :
    List FrameComp → (ℕ → ℤ) → σ → Option ((ℕ → ℤ) × σ)
  | [], preds, s => some (preds, s)
  | comp :: rest, preds, s =>
    match scanComps.find? (fun sc => sc.cs = comp.componentID) with
    | none => none
    | some sc =>
      match decodeBlocks idctImpl next (huffTables 0 sc.td) (huffTables 1 sc.ta)
          (quantTables comp.quantTableID) comp.componentID
          (comp.vSampleFactor * comp.hSampleFactor) preds s with
      | none => none
      | some (preds1, s1) =>
        decodeMCU idctImpl next huffTables quantTables scanComps rest preds1 s1

/-- The MCU loop of decodeScan over the listed MCU indices: restart
check, then decodeMCU. -/
def scanMCUs (idctImpl : List ℤ → List ℤ) (huffTables : ℕ → ℕ → HuffDec (Reader × Img))
    (quantTables : ℕ → List ℤ) (scanComps : List ScanComp)
    (ordered : List FrameComp) (restartInterval : ℕ) :
    List ℕ → (ℕ → ℤ) → Reader × Img → Option ((ℕ → ℤ) × (Reader × Img))
  | [], preds, s => some (preds, s)
  | m :: rest, preds, s =>
    match restartCheck restartInterval m preds s with
    | none => none
    | some (preds1, s1) =>
      match decodeMCU idctImpl nextBitRI huffTables quantTables scanComps
          ordered preds1 s1 with
      | none => none
      | some (preds2, s2) =>
        scanMCUs idctImpl huffTables quantTables scanComps ordered
          restartInterval rest preds2 s2

/-- Embedding of the predictor-relevant core of decodeScan: order the
components (resetting their predictors), then run the MCU loop over all
vMCUS x hMCUs MCU indices. -/
def decodeScan (idctImpl : List ℤ → List ℤ)
    (huffTables : ℕ → ℕ → HuffDec (Reader × Img)) (quantTables : ℕ → List ℤ)
    (scanComps : List ScanComp) (frameComps : List FrameComp)
    (restartInterval vMCUS hMCUs : ℕ) (pr0 : ℕ → ℤ) (s : Reader × Img) :
    Option ((ℕ → ℤ) × (Reader × Img)) :=
  let init := selectComponents scanComps frameComps pr0
  scanMCUs idctImpl huffTables quantTables scanComps init.1 restartInterval
    (List.range (vMCUS * hMCUs)) init.2 s

/-! ## The IDCT variants (the idct file loaded by index.html)

The naive and cached variants use JavaScript doubles and Math.cos; they
are modelled over the reals (Math.round rounds half towards plus
infinity, which is Mathlib's round). The Chen-Wang variant is integer
only: << is multiplication by a power of two and >> (arithmetic shift)
is floor division, modelled by Int.fdiv; the int32 wrap-around of the JS
bitwise operators is not reached for the block values these claims
evaluate. -/

/-- The C function of the IDCT definition: 1/sqrt 2 at 0, else 1. -/
noncomputable def C (val : ℕ) : ℝ := if val = 0 then 1 / Real.sqrt 2 else 1

/-- Embedding of the naive idct: output p (at y = p / 8, x = p mod 8) is
the rounded quarter of the double cosine sum. -/
noncomputable def idct (coeffs : List ℤ) : List ℤ :=
  (List.range 64).map fun p =>
    round ((∑ v ∈ Finset.range DATA_UNIT_SIZE, ∑ u ∈ Finset.range DATA_UNIT_SIZE,
      C u * C v * (coeffs.getD (v * DATA_UNIT_SIZE + u) 0 : ℝ) *
        Real.cos ((((2 * (p % 8) + 1) * u : ℕ) : ℝ) * Real.pi / 16) *
        Real.cos ((((2 * (p / 8) + 1) * v : ℕ) : ℝ) * Real.pi / 16)) / 4)

/-- The precomputed cosine cache of the cached variant:
idctCache[i][j] = cos((2i+1) j pi / 16). -/
noncomputable def idctCache (i j : ℕ) : ℝ :=
  Real.cos ((((2 * i + 1) * j : ℕ) : ℝ) * Real.pi / 16)

/-- Embedding of idctCached: identical sum with the cached cosines. -/
noncomputable def idctCached (coeffs : List ℤ) : List ℤ :=
  (List.range 64).map fun p =>
    round ((∑ v ∈ Finset.range DATA_UNIT_SIZE, ∑ u ∈ Finset.range DATA_UNIT_SIZE,
      C u * C v * (coeffs.getD (v * DATA_UNIT_SIZE + u) 0 : ℝ) *
        idctCache (p % 8) u * idctCache (p / 8) v) / 4)

/-- Chen-Wang fixed point constant W1 = 2048 sqrt 2 cos(pi/16), rounded. -/
def W1 : ℤ := 2841

/-- Chen-Wang fixed point constant W2. -/
def W2 : ℤ := 2676

/-- Chen-Wang fixed point constant W3. -/
def W3 : ℤ := 2408

/-- Chen-Wang fixed point constant W5. -/
def W5 : ℤ := 1609

/-- Chen-Wang fixed point constant W6. -/
def W6 : ℤ := 1108

/-- Chen-Wang fixed point constant W7. -/
def W7 : ℤ := 565

/-- Arithmetic right shift of the JS >> operator: floor division. -/
def jsShr (a : ℤ) (n : ℕ) : ℤ := Int.fdiv a (2 ^ n)

/-- Embedding of clampIdct: clamp to the signed byte range. -/
def clampIdct (val : ℤ) : ℤ := if val > 127 then 127 else if val < -128 then -128 else val

/-- Embedding of idctrow: the 1-D row pass of the Chen-Wang IDCT, with
the all-zero-but-DC shortcut. The JS loop writing the row is unrolled
into the eight element writes it performs. -/
def idctrow (blk : List ℤ) (idx : ℕ) : List ℤ :=
  let x1 := blk.getD (4 + idx) 0 * 2048
  let x2 := blk.getD (6 + idx) 0
  let x3 := blk.getD (2 + idx) 0
  let x4 := blk.getD (1 + idx) 0
  let x5 := blk.getD (7 + idx) 0
  let x6 := blk.getD (5 + idx) 0
  let x7 := blk.getD (3 + idx) 0
  if x1 = 0 ∧ x2 = 0 ∧ x3 = 0 ∧ x4 = 0 ∧ x5 = 0 ∧ x6 = 0 ∧ x7 = 0 then
    let tmp := blk.getD (0 + idx) 0 * 8
    ((((((((blk.set (idx + 0) tmp).set (idx + 1) tmp).set (idx + 2) tmp).set
      (idx + 3) tmp).set (idx + 4) tmp).set (idx + 5) tmp).set
      (idx + 6) tmp).set (idx + 7) tmp)
  else
    let x0 := blk.getD (0 + idx) 0 * 2048 + 128
    let x8 := W7 * (x4 + x5)
    let x4 := x8 + (W1 - W7) * x4
    let x5 := x8 - (W1 + W7) * x5
    let x8 := W3 * (x6 + x7)
    let x6 := x8 - (W3 - W5) * x6
    let x7 := x8 - (W3 + W5) * x7
    let x8 := x0 + x1
    let x0 := x0 - x1
    let x1 := W6 * (x3 + x2)
    let x2 := x1 - (W2 + W6) * x2
    let x3 := x1 + (W2 - W6) * x3
    let x1 := x4 + x6
    let x4 := x4 - x6
    let x6 := x5 + x7
    let x5 := x5 - x7
    let x7 := x8 + x3
    let x8 := x8 - x3
    let x3 := x0 + x2
    let x0 := x0 - x2
    let x2 := jsShr (181 * (x4 + x5) + 128) 8
    let x4 := jsShr (181 * (x4 - x5) + 128) 8
    ((((((((blk.set (0 + idx) (jsShr (x7 + x1) 8)).set
      (1 + idx) (jsShr (x3 + x2) 8)).set
      (2 + idx) (jsShr (x0 + x4) 8)).set
      (3 + idx) (jsShr (x8 + x6) 8)).set
      (4 + idx) (jsShr (x8 - x6) 8)).set
      (5 + idx) (jsShr (x0 - x4) 8)).set
      (6 + idx) (jsShr (x3 - x2) 8)).set
      (7 + idx) (jsShr (x7 - x1) 8))

/-- Embedding of idctcol: the 1-D column pass, clamping every written
sample to [-128, 127]. The JS shortcut loop is unrolled likewise. -/
def idctcol (blk : List ℤ) (idx : ℕ) : List ℤ :=
  let x1 := blk.getD (idx + 8 * 4) 0 * 256
  let x2 := blk.getD (idx + 8 * 6) 0
  let x3 := blk.getD (idx + 8 * 2) 0
  let x4 := blk.getD (idx + 8 * 1) 0
  let x5 := blk.getD (idx + 8 * 7) 0
  let x6 := blk.getD (idx + 8 * 5) 0
  let x7 := blk.getD (idx + 8 * 3) 0
  if x1 = 0 ∧ x2 = 0 ∧ x3 = 0 ∧ x4 = 0 ∧ x5 = 0 ∧ x6 = 0 ∧ x7 = 0 then
    let tmp := clampIdct (jsShr (blk.getD (idx + 8 * 0) 0 + 32) 6)
    ((((((((blk.set (idx + 8 * 0) tmp).set (idx + 8 * 1) tmp).set
      (idx + 8 * 2) tmp).set (idx + 8 * 3) tmp).set (idx + 8 * 4) tmp).set
      (idx + 8 * 5) tmp).set (idx + 8 * 6) tmp).set (idx + 8 * 7) tmp)
  else
    let x0 := blk.getD (idx + 8 * 0) 0 * 256 + 8192
    let x8 := W7 * (x4 + x5) + 4
    let x4 := jsShr (x8 + (W1 - W7) * x4) 3
    let x5 := jsShr (x8 - (W1 + W7) * x5) 3
    let x8 := W3 * (x6 + x7) + 4
    let x6 := jsShr (x8 - (W3 - W5) * x6) 3
    let x7 := jsShr (x8 - (W3 + W5) * x7) 3
    let x8 := x0 + x1
    let x0 := x0 - x1
    let x1 := W6 * (x3 + x2) + 4
    let x2 := jsShr (x1 - (W2 + W6) * x2) 3
    let x3 := jsShr (x1 + (W2 - W6) * x3) 3
    let x1 := x4 + x6
    let x4 := x4 - x6
    let x6 := x5 + x7
    let x5 := x5 - x7
    let x7 := x8 + x3
    let x8 := x8 - x3
    let x3 := x0 + x2
    let x0 := x0 - x2
    let x2 := jsShr (181 * (x4 + x5) + 128) 8
    let x4 := jsShr (181 * (x4 - x5) + 128) 8
    ((((((((blk.set (idx + 8 * 0) (clampIdct (jsShr (x7 + x1) 14))).set
      (idx + 8 * 1) (clampIdct (jsShr (x3 + x2) 14))).set
      (idx + 8 * 2) (clampIdct (jsShr (x0 + x4) 14))).set
      (idx + 8 * 3) (clampIdct (jsShr (x8 + x6) 14))).set
      (idx + 8 * 4) (clampIdct (jsShr (x8 - x6) 14))).set
      (idx + 8 * 5) (clampIdct (jsShr (x0 - x4) 14))).set
      (idx + 8 * 6) (clampIdct (jsShr (x3 - x2) 14))).set
      (idx + 8 * 7) (clampIdct (jsShr (x7 - x1) 14)))

/-- Embedding of idctChenWang: row pass over rows 0, 8, ..., 56, then
column pass over columns 0..7, in place (the returned list is the final
contents of the block buffer). -/
def idctChenWang (coeffs : List ℤ) : List ℤ :=
  ((List.range 8).foldl (fun b col => idctcol b col)
    ((List.range 8).foldl (fun b row => idctrow b (row * 8)) coeffs))

/-! ## The all-zero-except-DC inputs and how every variant maps them -/

/-- The block that is all zero except for a DC value d at index 0. -/
def dcOnlyBlock (d : ℤ) : List ℤ := (List.replicate 64 0).set 0 d

/-! ## Claim C1: the two Huffman decoder implementations

The tree decoder (the HuffTree class): nodes hold an optional data value
and an optional pair of children (JS creates children strictly in
pairs). insertCode places a value at the given remaining depth by a
left-first traversal, exactly mirroring the JS: a data node refuses, at
depth zero the data is set, a childless node grows a fresh pair and
inserts into the left child, otherwise the left child is tried before
the right. decodeHuffman reads one bit, descends (left on 0, right on
1), and returns the data of the first data node reached; a missing
child or an exhausted bit source is the JS undefined, modelled none.

The array decoder (the HuffArray class): initDecoder lists the code
sizes (Fig. C.1) and generates the canonical codes (Fig. C.2);
decodeHuffman rebuilds mincode/maxcode/valptr from bits and huffcode on
every call and then runs the Annex F DECODE loop. The JS while loops of
Fig. C.2 advance either by consuming a size entry or by incrementing
si, so the embedding uses a step budget of length + 17; the JS decode
loop leaves i <= 16 because maxcode[17] is undefined (the comparison is
false and the subsequent huffval[NaN] lookup yields undefined), modelled
by a fuel of 16 that returns none when exhausted. -/

inductive HuffTree : Type where
  | node (data : Option ℕ) (children : Option (HuffTree × HuffTree))

/-- Embedding of HuffTree.insertCode, recursing on the remaining depth
codeLength - level. Returns the JS boolean and the updated tree. -/
def insertCode : HuffTree → ℕ → ℕ → Bool × HuffTree
  | .node (some w) ch, _, _ => (false, .node (some w) ch)
  | .node none ch, 0, v => (true, .node (some v) ch)
  | .node none none, d + 1, v =>
    let res := insertCode (.node none none) d v
    (res.1, .node none (some (res.2, .node none none)))
  | .node none (some (l, r)), d + 1, v =>
    let resl := insertCode l d v
    if resl.1 then (true, .node none (some (resl.2, r)))
    else
      let resr := insertCode r d v
      (resr.1, .node none (some (resl.2, resr.2)))

/-- Embedding of HuffTree.decodeHuffman over a bit source: read a bit,
descend, stop at the first data node. -/
def decodeTree {σ : Type} (next : BitStep σ) : HuffTree → σ → Option (ℕ × σ)
  | .node _ ch, s =>
    match next s with
    | none => none
    | some (b, s1) =>
      match ch with
      | none => none
      | some (l, r) =>
        if b = 0 then
          match l with
          | .node (some v) _ => some (v, s1)
          | .node none _ => decodeTree next l s1
        else if b = 1 then
          match r with
          | .node (some v) _ => some (v, s1)
          | .node none _ => decodeTree next r s1
        else none

/-- The insertion loop of parseHuffmanTable: each (codeLength, value)
pair in order. -/
def insertAll : HuffTree → List (ℕ × ℕ) → HuffTree
  | t, [] => t
  | t, (l, v) :: rest => insertAll (insertCode t l v).2 rest

/-- The HUFFSIZE generation (Fig. C.1) from position i0 for n more
lengths: bits i copies of each length i. -/
def huffsizeFrom (bits : ℕ → ℕ) : ℕ → ℕ → List ℕ
  | 0, _ => []
  | n + 1, i => List.replicate (bits i) i ++ huffsizeFrom bits n (i + 1)

/-- HUFFSIZE for lengths 1..16 (NUM_HUFFMAN_LENGTHS = 16). -/
def huffsizeList (bits : ℕ → ℕ) : List ℕ := huffsizeFrom bits 16 1

/-- The HUFFCODE generation loop (Fig. C.2): emit code while the size
matches si, else double the code and bump si. Each step either consumes
a size or bumps si, so the step budget below suffices. -/
def genCodesGo : ℕ → List ℕ → ℕ → ℕ → List ℕ
  | 0, _, _, _ => []
  | _ + 1, [], _, _ => []
  | fuel + 1, s :: rest, code, si =>
    if s = si then code :: genCodesGo fuel rest (code + 1) si
    else genCodesGo fuel (s :: rest) (code * 2) (si + 1)

/-- HUFFCODE: canonical codes for the table, si starting at the first
size as in the JS. -/
def huffcodeList (bits : ℕ → ℕ) : List ℕ :=
  genCodesGo ((huffsizeList bits).length + 17) (huffsizeList bits) 0
    ((huffsizeList bits).headD 0)

/-- The tree built by parseHuffmanTable: every value inserted at its
code length, in table order, into a fresh root. -/
def buildTree (bits : ℕ → ℕ) (huffval : List ℕ) : HuffTree :=
  insertAll (.node none none) ((huffsizeList bits).zip huffval)

/-- Partial sums of the bits histogram: sumBits bits i0 n is the number
of codes with lengths i0, i0+1, ..., i0+n-1. -/
def sumBits (bits : ℕ → ℕ) : ℕ → ℕ → ℕ
  | _, 0 => 0
  | i0, n + 1 => bits i0 + sumBits bits (i0 + 1) n

/-- The mincode/maxcode/valptr construction at the top of the array
decodeHuffman, processing n lengths from i0 with j codes consumed:
maxcode is -1 where bits i is 0, else the tables point into huffcode.
Entries never written keep the stated defaults; the decode loop below
never reads them. -/
def buildTabsGo (bits : ℕ → ℕ) (hc : List ℕ) :
    ℕ → ℕ → ℕ → (ℕ → ℤ) × (ℕ → ℕ) × (ℕ → ℕ)
  | 0, _, _ => (fun _ => -1, fun _ => 0, fun _ => 0)
  | n + 1, i, j =>
    if bits i = 0 then
      let rest := buildTabsGo bits hc n (i + 1) j
      (Function.update rest.1 i (-1), rest.2.1, rest.2.2)
    else
      let rest := buildTabsGo bits hc n (i + 1) (j + bits i)
      (Function.update rest.1 i ((hc.getD (j + bits i - 1) 0 : ℕ) : ℤ),
        Function.update rest.2.1 i (hc.getD j 0),
        Function.update rest.2.2 i j)

/-- The three DECODE tables (maxcode, mincode, valptr) for lengths
1..16. -/
def buildTabs (bits : ℕ → ℕ) (hc : List ℕ) :
    (ℕ → ℤ) × (ℕ → ℕ) × (ℕ → ℕ) :=
  buildTabsGo bits hc 16 1 0

/-- The DECODE loop of the array decodeHuffman: while code > maxcode[i]
shift in the next bit; on exit index huffval at valptr[i] + code -
mincode[i]. Fuel counts the lengths left before i passes 16, where the
JS comparison against the undefined maxcode[17] exits the loop and the
huffval lookup at a NaN index returns undefined (none). An out-of-range
final index is likewise a JS undefined element (none). -/
def decodeArrayGo {σ : Type} (next : BitStep σ) (maxc : ℕ → ℤ)
    (minc vp : ℕ → ℕ) (huffval : List ℕ) :
    ℕ → ℕ → ℕ → σ → Option (ℕ × σ)
  | 0, _, _, _ => none
  | fuel + 1, i, code, s =>
    if (code : ℤ) > maxc i then
      match next s with
      | none => none
      | some (b, s1) =>
        decodeArrayGo next maxc minc vp huffval fuel (i + 1) (code * 2 + b) s1
    else
      if 0 ≤ (vp i : ℤ) + (code : ℤ) - (minc i : ℤ) ∧
          (vp i : ℤ) + (code : ℤ) - (minc i : ℤ) < (huffval.length : ℤ) then
        some (huffval.getD ((vp i : ℤ) + (code : ℤ) - (minc i : ℤ)).toNat 0, s)
      else none

/-- Embedding of HuffArray.decodeHuffman: build the tables, read the
first bit, run the DECODE loop from i = 1. -/
def decodeArray {σ : Type} (next : BitStep σ) (bits : ℕ → ℕ)
    (hc huffval : List ℕ) (s : σ) : Option (ℕ × σ) :=
  match next s with
  | none => none
  | some (b, s1) =>
    decodeArrayGo next (buildTabs bits hc).1 (buildTabs bits hc).2.1
      (buildTabs bits hc).2.2 huffval 16 1 b s1

/-- Run a decoder n times, collecting the decoded values. -/
def decodeSeq {σ : Type} (dec : σ → Option (ℕ × σ)) : ℕ → σ → Option (List ℕ × σ)
  | 0, s => some ([], s)
  | n + 1, s =>
    match dec s with
    | none => none
    | some (v, s1) =>
      match decodeSeq dec n s1 with
      | none => none
      | some (vs, s2) => some (v :: vs, s2)

/-- The data stored at the end of a 0/1 path, none when the path leaves
the tree. -/
def pathData : HuffTree → List ℕ → Option ℕ
  | .node dat _, [] => dat
  | .node _ none, _ :: _ => none
  | .node _ (some (l, r)), b :: q =>
    if b = 0 then pathData l q else if b = 1 then pathData r q else none

/-- The numeric value of an MSB-first bit path. -/
def bitsVal : List ℕ → ℕ
  | [] => 0
  | b :: q => b * 2 ^ q.length + bitsVal q

/-- A subtree of scale S every one of whose 2^S leaf slots is taken:
either a data leaf, or an internal node with two full children. -/
def Full : ℕ → HuffTree → Prop
  | 0, t => ∃ v, t = .node (some v) none
  | S + 1, t => (∃ v, t = .node (some v) none) ∨
      ∃ l r, t = .node none (some (l, r)) ∧ Full S l ∧ Full S r

/-- The left-packed shape invariant: a subtree of scale S holding
exactly the first a of its 2^S leaf slots. Empty subtrees are fresh
nodes, full ones are Full, and a partial subtree splits into a full or
partial left child and a fresh or partial right child. -/
def TreeInv : ℕ → ℕ → HuffTree → Prop
  | 0, a, t => if a = 0 then t = .node none none else Full 0 t
  | S + 1, a, t =>
    if a = 0 then t = .node none none
    else if a = 2 ^ (S + 1) then Full (S + 1) t
    else ∃ l r, t = .node none (some (l, r)) ∧
      (if a ≤ 2 ^ S then TreeInv S a l ∧ r = .node none none
       else Full S l ∧ TreeInv S (a - 2 ^ S) r)

/-- No data anywhere in the tree. -/
def NoData : HuffTree → Prop
  | .node dat none => dat = none
  | .node dat (some (l, r)) => dat = none ∧ NoData l ∧ NoData r

/-- All data in the tree lies at depth at most n. -/
def DepthLE : ℕ → HuffTree → Prop
  | 0, .node _ ch => ch = none ∨ ∃ l r, ch = some (l, r) ∧ NoData l ∧ NoData r
  | n + 1, .node _ ch => ch = none ∨ ∃ l r, ch = some (l, r) ∧ DepthLE n l ∧ DepthLE n r

/-- The path/value pairs an entry list claims when its insertions start
at left-aligned position a: entry (l, v) takes the width 2^(16-l) slot
at a, then the rest continue after it. -/
def PlacedAt : List (ℕ × ℕ) → ℕ → List ℕ → ℕ → Prop
  | [], _, _, _ => False
  | (l, v) :: rest, a, q, u =>
    (q = natBits l (a / 2 ^ (16 - l)) ∧ u = v) ∨ PlacedAt rest (a + 2 ^ (16 - l)) q u

/-- Entry lengths are nondecreasing, at least lb, and at most 16. -/
def EntriesOK : ℕ → List (ℕ × ℕ) → Prop
  | _, [] => True
  | lb, (l, _) :: rest => lb ≤ l ∧ l ≤ 16 ∧ EntriesOK l rest

/-- Total left-aligned width of an entry list. -/
def weightSum : List (ℕ × ℕ) → ℕ
  | [] => 0
  | (l, _) :: rest => 2 ^ (16 - l) + weightSum rest

/-- Left-aligned position of code k: the widths of all earlier codes. -/
def codePos (sizes : List ℕ) (k : ℕ) : ℕ :=
  ((sizes.take k).map fun l => 2 ^ (16 - l)).sum

/-- All data in the tree sits strictly below left-aligned position a. -/
def DataBelow (t : HuffTree) (a : ℕ) : Prop :=
  ∀ q u, pathData t q = some u →
    bitsVal q * 2 ^ (16 - q.length) + 2 ^ (16 - q.length) ≤ a

/-- A well-formed Huffman table: one value per code, and every canonical
code fits in its length (the Annex C no-overflow condition). -/
def ValidTable (bits : ℕ → ℕ) (huffval : List ℕ) : Prop :=
  huffval.length = (huffsizeList bits).length ∧
  ∀ k, k < (huffsizeList bits).length →
    (huffcodeList bits).getD k 0 < 2 ^ ((huffsizeList bits).getD k 0)

instance validTable_decidable (bits : ℕ → ℕ) (huffval : List ℕ) :
    Decidable (ValidTable bits huffval) := by
  unfold ValidTable
  infer_instance

/-- The AC loop result does not depend on the iteration counter, as long
as the counter dominates the remaining iteration count 64 - k. -/
theorem decodeACGo_congr {σ : Type} (next : BitStep σ) (acTable : HuffDec σ) :
    ∀ (f1 f2 : ℕ) (zz : List ℤ) (k : ℕ) (s : σ), 64 - k ≤ f1 → 64 - k ≤ f2 →
      decodeACGo next acTable f1 zz k s = decodeACGo next acTable f2 zz k s := by
  intro f1
  induction f1 with
  | zero =>
    intro f2 zz k s h1 h2
    have hk : 64 ≤ k := by omega
    cases f2 with
    | zero => rfl
    | succ f2 => simp [decodeACGo, hk]
  | succ f1 ih =>
    intro f2 zz k s h1 h2
    cases f2 with
    | zero =>
      have hk : 64 ≤ k := by omega
      simp [decodeACGo, hk]
    | succ f2 =>
      by_cases hk : 64 ≤ k
      · simp [decodeACGo, hk]
      · simp only [decodeACGo, if_neg hk]
        match htab : acTable s with
        | none => rfl
        | some (rs, s1) =>
          simp only
          by_cases hs0 : getLowNibble rs = 0
          · by_cases hr15 : getHighNibble rs = 15
            · simp only [if_pos hs0, if_pos hr15]
              exact ih f2 zz (k + 16) s1 (by omega) (by omega)
            · by_cases hr0 : getHighNibble rs = 0
              · simp [hs0, hr15, hr0]
              · simp only [if_pos hs0, if_neg hr15, if_neg hr0]
                exact ih f2 zz (k + 1) s1 (by omega) (by omega)
          · simp only [if_neg hs0]
            match hrec : receive next (getLowNibble rs) s1 with
            | none => rfl
            | some (amp, s2) =>
              simp only
              exact ih f2 _ (k + getHighNibble rs + 1) s2 (by omega) (by omega)

/-- Reading a mapped range list below its length evaluates the map. -/
theorem getD_range_map (f : ℕ → ℤ) (n i : ℕ) (h : i < n) :
    ((List.range n).map f).getD i 0 = f i := by
  rw [List.getD_eq_getElem?_getD, List.getElem?_map, List.getElem?_range h]
  rfl

/-- The cached variant computes the same reals as the naive one (the
cache holds exactly the cosines the naive variant recomputes). -/
theorem idctCached_eq_idct (coeffs : List ℤ) : idctCached coeffs = idct coeffs := rfl

/-- Reading the DC-only block: d at 0, zero elsewhere (below 64). -/
theorem dcOnlyBlock_getD (d : ℤ) (i : ℕ) (hi : i < 64) :
    (dcOnlyBlock d).getD i 0 = if i = 0 then d else 0 := by
  by_cases h0 : i = 0
  · subst h0
    rw [dcOnlyBlock, List.getD_eq_getElem?_getD, List.getElem?_set_self (by simp)]
    rfl
  · rw [dcOnlyBlock, List.getD_eq_getElem?_getD, List.getElem?_set_ne
      (by omega), if_neg h0, List.getElem?_replicate, if_pos hi]
    rfl

/-- The double cosine sum of the naive IDCT on a DC-only block collapses
to the single u = v = 0 term, which is d / 2. -/
theorem idct_sum_dcOnly (d : ℤ) (x y : ℕ) :
    (∑ v ∈ Finset.range DATA_UNIT_SIZE, ∑ u ∈ Finset.range DATA_UNIT_SIZE,
      C u * C v * ((dcOnlyBlock d).getD (v * DATA_UNIT_SIZE + u) 0 : ℝ) *
        Real.cos ((((2 * x + 1) * u : ℕ) : ℝ) * Real.pi / 16) *
        Real.cos ((((2 * y + 1) * v : ℕ) : ℝ) * Real.pi / 16)) = (d : ℝ) / 2 := by
  have hz : ∀ v u : ℕ, v < 8 → u < 8 → v * DATA_UNIT_SIZE + u ≠ 0 →
      ((dcOnlyBlock d).getD (v * DATA_UNIT_SIZE + u) 0 : ℝ) = 0 := by
    intro v u hv hu hne
    rw [dcOnlyBlock_getD d _ (by simp only [DATA_UNIT_SIZE]; omega), if_neg hne]
    norm_num
  rw [Finset.sum_eq_single 0]
  · rw [Finset.sum_eq_single 0]
    · have hget : ((dcOnlyBlock d).getD (0 * DATA_UNIT_SIZE + 0) 0 : ℝ) = (d : ℝ) := by
        rw [dcOnlyBlock_getD d _ (by simp [DATA_UNIT_SIZE])]
        simp
      rw [hget]
      have hsqrt : Real.sqrt 2 * Real.sqrt 2 = 2 :=
        Real.mul_self_sqrt (by norm_num)
      have hs : Real.sqrt 2 ≠ 0 := by
        intro hc
        rw [hc] at hsqrt
        norm_num at hsqrt
      simp only [C, if_pos rfl, Nat.mul_zero, Nat.cast_zero, zero_mul,
        Real.cos_zero]
      field_simp
    · intro u hu hne
      rw [hz 0 u (by norm_num) (Finset.mem_range.mp hu)
        (by simp only [DATA_UNIT_SIZE]; omega)]
      ring
    · intro h0
      exact absurd (Finset.mem_range.mpr (by simp [DATA_UNIT_SIZE])) h0
  · intro v hv hne
    apply Finset.sum_eq_zero
    intro u hu
    rw [hz v u (Finset.mem_range.mp hv) (Finset.mem_range.mp hu)
      (by simp only [DATA_UNIT_SIZE]; omega)]
    ring
  · intro h0
    exact absurd (Finset.mem_range.mpr (by simp [DATA_UNIT_SIZE])) h0

/-- The naive IDCT on a DC-only block is uniformly round(d / 8). -/
theorem idct_dcOnly (d : ℤ) :
    idct (dcOnlyBlock d) = List.replicate 64 (round ((d : ℝ) / 8)) := by
  rw [idct, List.eq_replicate_iff]
  refine ⟨by simp, ?_⟩
  intro b hb
  rw [List.mem_map] at hb
  obtain ⟨p, hp, rfl⟩ := hb
  rw [idct_sum_dcOnly d (p % 8) (p / 8),
    show ((d : ℝ) / 2 / 4) = (d : ℝ) / 8 by ring]

/-! ## Claim C5: the DC-only edge cases for all three IDCT variants -/

/-- Rounded real division values used by the DC-only edge cases. -/
theorem round_dc_edge_values :
    round ((3 : ℝ) / 4) = 1 ∧ round (-((3 : ℝ) / 4)) = -1 := by
  constructor
  · rw [round_eq, show ((3 : ℝ) / 4 + 1 / 2) = 5 / 4 by norm_num]
    exact Int.floor_eq_iff.mpr (by norm_num)
  · rw [round_eq, show (-((3 : ℝ) / 4) + 1 / 2) = -(1 / 4) by norm_num]
    exact Int.floor_eq_iff.mpr (by norm_num)

/-- C5. On the 64-element input that is zero except coeff[0] = 6, every
IDCT variant (naive, cached, Chen-Wang) returns the uniform all-1 block;
with coeff[0] = -6 every variant returns the uniform all-(-1) block. -/
theorem c5_idct_dc_only_uniform :
    idct (dcOnlyBlock 6) = List.replicate 64 1 ∧
    idct (dcOnlyBlock (-6)) = List.replicate 64 (-1) ∧
    idctCached (dcOnlyBlock 6) = List.replicate 64 1 ∧
    idctCached (dcOnlyBlock (-6)) = List.replicate 64 (-1) ∧
    idctChenWang (dcOnlyBlock 6) = List.replicate 64 1 ∧
    idctChenWang (dcOnlyBlock (-6)) = List.replicate 64 (-1) := by
  obtain ⟨h6, hm6⟩ := round_dc_edge_values
  have h1 : idct (dcOnlyBlock 6) = List.replicate 64 1 := by
    rw [idct_dcOnly]
    norm_num [h6]
  have h2 : idct (dcOnlyBlock (-6)) = List.replicate 64 (-1) := by
    rw [idct_dcOnly]
    norm_num [hm6]
  refine ⟨h1, h2, ?_, ?_, by decide, by decide⟩
  · rw [idctCached_eq_idct]
    exact h1
  · rw [idctCached_eq_idct]
    exact h2

/-! ## Claim C6: sample range of decoded data units

levelShift adds 128 with no clamping, and the float IDCT variants do not
clamp their output, so decodeDataUnit (which in the loaded page calls
the naive float idct) can produce samples far outside 0..255 for large
coefficient/table values. Only the Chen-Wang column pass clamps every
sample to [-128, 127], which level-shifts into 0..255. -/

/-- The clamp helper stays within the signed byte range. -/
theorem clampIdct_bounds (v : ℤ) : -128 ≤ clampIdct v ∧ clampIdct v ≤ 127 := by
  unfold clampIdct
  split
  · omega
  · split <;> omega

/-- The row pass preserves the block length. -/
theorem idctrow_length (blk : List ℤ) (idx : ℕ) :
    (idctrow blk idx).length = blk.length := by
  simp only [idctrow]
  split <;> simp [List.length_set]

/-- The column pass preserves the block length. -/
theorem idctcol_length (blk : List ℤ) (idx : ℕ) :
    (idctcol blk idx).length = blk.length := by
  simp only [idctcol]
  split <;> simp [List.length_set]

/-- Every sample the column pass writes into its own column is clamped
to [-128, 127] (both the shortcut and the full butterfly write through
clampIdct). -/
theorem idctcol_bounds (blk : List ℤ) (idx : ℕ) (hlen : blk.length = 64)
    (hidx : idx < 8) (j : ℕ) (hj : j < 64) (hmod : j % 8 = idx) :
    -128 ≤ (idctcol blk idx).getD j 0 ∧ (idctcol blk idx).getD j 0 ≤ 127 := by
  have h8 : j = idx + 8 * (j / 8) := by omega
  have hq : j / 8 < 8 := by omega
  generalize hjq : j / 8 = q at h8 hq
  subst h8
  simp only [idctcol]
  split
  · rw [List.getD_eq_getElem?_getD]
    interval_cases q <;>
      (repeat rw [List.getElem?_set_ne (by omega)]) <;>
      rw [List.getElem?_set_self (by simp only [List.length_set, hlen]; omega)] <;>
      exact clampIdct_bounds _
  · rw [List.getD_eq_getElem?_getD]
    interval_cases q <;>
      (repeat rw [List.getElem?_set_ne (by omega)]) <;>
      rw [List.getElem?_set_self (by simp only [List.length_set, hlen]; omega)] <;>
      exact clampIdct_bounds _

/-- The column pass leaves every position outside its own column
unchanged. -/
theorem idctcol_getD_other (blk : List ℤ) (idx : ℕ) (hidx : idx < 8)
    (j : ℕ) (hmod : j % 8 ≠ idx) :
    (idctcol blk idx).getD j 0 = blk.getD j 0 := by
  simp only [idctcol]
  split <;>
    (simp only [List.getD_eq_getElem?_getD]
     repeat rw [List.getElem?_set_ne (by omega)])

/-- Level shifting reads as a pointwise +128 below the block length. -/
theorem levelShift_getD (block : List ℤ) (j : ℕ) (hj : j < block.length) :
    (levelShift block).getD j 0 = block.getD j 0 + 128 := by
  rw [levelShift, List.getD_eq_getElem?_getD, List.getElem?_map,
    List.getElem?_eq_getElem hj, List.getD_eq_getElem?_getD,
    List.getElem?_eq_getElem hj]
  rfl

/-- C6 amended: with the Chen-Wang IDCT (the only clamping variant)
substituted for the IDCT stage, every one of the 64 samples of the
level-shifted block is in the unsigned byte range 0..255, for every
64-element input block. -/
theorem c6_amended_chenwang_levelshift_in_byte_range (blk : List ℤ)
    (hlen : blk.length = 64) (j : ℕ) (hj : j < 64) :
    0 ≤ (levelShift (idctChenWang blk)).getD j 0 ∧
      (levelShift (idctChenWang blk)).getD j 0 ≤ 255 := by
  have hrange : List.range 8 = [0, 1, 2, 3, 4, 5, 6, 7] := rfl
  have hcwlen : (idctChenWang blk).length = 64 := by
    simp only [idctChenWang, hrange, List.foldl_cons, List.foldl_nil,
      idctcol_length, idctrow_length]
    exact hlen
  have hbounds : -128 ≤ (idctChenWang blk).getD j 0 ∧
      (idctChenWang blk).getD j 0 ≤ 127 := by
    simp only [idctChenWang, hrange, List.foldl_cons, List.foldl_nil]
    set R := idctrow (idctrow (idctrow (idctrow (idctrow (idctrow (idctrow
        (idctrow blk (0 * 8)) (1 * 8)) (2 * 8)) (3 * 8)) (4 * 8)) (5 * 8))
        (6 * 8)) (7 * 8) with hRdef
    have hR : R.length = 64 := by
      rw [hRdef]
      simp only [idctrow_length]
      exact hlen
    have hlen1 : (idctcol R 0).length = 64 := by rw [idctcol_length]; exact hR
    have hlen2 : (idctcol (idctcol R 0) 1).length = 64 := by
      rw [idctcol_length]; exact hlen1
    have hlen3 : (idctcol (idctcol (idctcol R 0) 1) 2).length = 64 := by
      rw [idctcol_length]; exact hlen2
    have hlen4 : (idctcol (idctcol (idctcol (idctcol R 0) 1) 2) 3).length = 64 := by
      rw [idctcol_length]; exact hlen3
    have hlen5 : (idctcol (idctcol (idctcol (idctcol (idctcol R 0) 1) 2) 3)
        4).length = 64 := by rw [idctcol_length]; exact hlen4
    have hlen6 : (idctcol (idctcol (idctcol (idctcol (idctcol (idctcol R 0) 1)
        2) 3) 4) 5).length = 64 := by rw [idctcol_length]; exact hlen5
    have hlen7 : (idctcol (idctcol (idctcol (idctcol (idctcol (idctcol (idctcol
        R 0) 1) 2) 3) 4) 5) 6).length = 64 := by rw [idctcol_length]; exact hlen6
    have hmod : j % 8 < 8 := by omega
    interval_cases hjm : (j % 8)
    · repeat rw [idctcol_getD_other _ _ (by omega) _ (by omega)]
      exact idctcol_bounds _ _ hR (by omega) j hj (by omega)
    · repeat rw [idctcol_getD_other _ _ (by omega) _ (by omega)]
      exact idctcol_bounds _ _ hlen1 (by omega) j hj (by omega)
    · repeat rw [idctcol_getD_other _ _ (by omega) _ (by omega)]
      exact idctcol_bounds _ _ hlen2 (by omega) j hj (by omega)
    · repeat rw [idctcol_getD_other _ _ (by omega) _ (by omega)]
      exact idctcol_bounds _ _ hlen3 (by omega) j hj (by omega)
    · repeat rw [idctcol_getD_other _ _ (by omega) _ (by omega)]
      exact idctcol_bounds _ _ hlen4 (by omega) j hj (by omega)
    · repeat rw [idctcol_getD_other _ _ (by omega) _ (by omega)]
      exact idctcol_bounds _ _ hlen5 (by omega) j hj (by omega)
    · repeat rw [idctcol_getD_other _ _ (by omega) _ (by omega)]
      exact idctcol_bounds _ _ hlen6 (by omega) j hj (by omega)
    · exact idctcol_bounds _ _ hlen7 (by omega) j hj (by omega)
  rw [levelShift_getD _ _ (by rw [hcwlen]; exact hj)]
  omega

/-- Witness for C6 amended at the all-zero block and sample 0. -/
theorem c6_amended_chenwang_levelshift_in_byte_range_witness :
    (List.replicate 64 (0 : ℤ)).length = 64 ∧ (0 : ℕ) < 64 ∧
    (0 ≤ (levelShift (idctChenWang (List.replicate 64 (0 : ℤ)))).getD 0 0 ∧
      (levelShift (idctChenWang (List.replicate 64 (0 : ℤ)))).getD 0 0 ≤ 255) := by
  exact ⟨by decide, by decide,
    c6_amended_chenwang_levelshift_in_byte_range _ (by decide) 0 (by decide)⟩

/-- Helper for the C6 counterexample: the rounded value of 521985 / 8. -/
theorem round_big_dc : round ((521985 : ℝ) / 8) = 65248 := by
  rw [round_eq, show ((521985 : ℝ) / 8 + 1 / 2) = 521989 / 8 by norm_num]
  exact Int.floor_eq_iff.mpr (by norm_num)

/-- Counterexample to C6 as stated: with the naive float idct that
decodeDataUnit calls in the loaded page, a data unit decoded from a
legal-looking input (DC category 11, magnitude bits all ones, EOB, all
quantization entries 255) yields the uniform sample 65376, far outside
0..255. -/
theorem c6_sample_out_of_range_counterexample :
    (decodeDataUnit idct listNext (fun s => some (11, s)) (fun s => some (0, s))
        (fun _ => 0) 1 (List.replicate 64 255) (List.replicate 11 1)).map
      (fun r => r.1) = some (List.replicate 64 65376) ∧
    ¬ ((65376 : ℤ) ≤ 255) := by
  have hdc : decodeDCCoeff listNext (fun s => some (11, s)) (fun _ => 0) 1
      (List.replicate 11 1) = some (2047, []) := by decide
  have hac : decodeACCoeffs listNext (fun s => some (0, s))
      ((List.replicate 64 (0 : ℤ)).set 0 2047) 1 [] =
      some ((List.replicate 64 (0 : ℤ)).set 0 2047, []) := by decide
  have hre : reorder (dequantize ((List.replicate 64 (0 : ℤ)).set 0 2047)
      (List.replicate 64 255)) = dcOnlyBlock 521985 := by decide
  have hlev : levelShift (List.replicate 64 (65248 : ℤ)) =
      List.replicate 64 65376 := by decide
  refine ⟨?_, by norm_num⟩
  simp only [decodeDataUnit, decodeDataUnitZZ, hdc, hac, hre, Option.map_some]
  rw [idct_dcOnly]
  norm_num [round_big_dc, hlev]

/-! ## Claim C9: dequantize and reorder

The spec calls both pure and stateless, leaving their inputs unchanged.
reorder indeed writes only a fresh array; but dequantize is an in-place
update of the coefficient buffer (the JS comment above it even says
In-place), so the coefficient array passed to dequantize is modified:
after the call it holds the pointwise products. The quantization table is
only read, never written. -/

/-- Counterexample to C9 as stated: the coefficient buffer after a call
to dequantize (first component of dequantizeCall) differs from the buffer
passed in, on a 64-element input. -/
theorem c9_dequantize_mutates_counterexample :
    (dequantizeCall (List.replicate 64 (1 : ℤ)) (List.replicate 64 (2 : ℤ))).1 ≠
      List.replicate 64 (1 : ℤ) := by
  decide

/-- C9 amended: reorder is pure (the input buffer is unchanged and the
fresh result has reordered[i] = coeff[ZIGZAG[i]]); dequantize never
writes the quantization table and its result is the pointwise product
determined by its arguments, but it updates the coefficient buffer in
place (the buffer afterwards holds the products, not its old contents). -/
theorem c9_amended_reorder_pure_dequantize_in_place (c q : List ℤ) :
    (reorderCall c).2 = c ∧
    (∀ i, i < c.length →
      (reorderCall c).1.getD i 0 = c.getD (ZIGZAG.getD i 0) 0) ∧
    (dequantizeCall c q).2 = q ∧
    (∀ i, i < c.length →
      (dequantizeCall c q).1.getD i 0 = c.getD i 0 * q.getD i 0) := by
  refine ⟨rfl, fun i hi => ?_, rfl, fun i hi => ?_⟩
  · exact getD_range_map _ _ _ hi
  · exact getD_range_map _ _ _ hi

/-- Witness for C9 amended at the worked example row: coefficients
-26, -3 and table 16, 11 give products -416, -33. -/
theorem c9_amended_reorder_pure_dequantize_in_place_witness :
    (dequantizeCall [-26, -3] [16, 11]).2 = [16, 11] ∧
    (dequantizeCall [-26, -3] [16, 11]).1.getD 0 0 = -416 ∧
    (dequantizeCall [-26, -3] [16, 11]).1.getD 1 0 = -33 := by
  have h := c9_amended_reorder_pure_dequantize_in_place [-26, -3] [16, 11]
  refine ⟨h.2.2.1, ?_, ?_⟩
  · rw [h.2.2.2 0 (by decide)]; decide
  · rw [h.2.2.2 1 (by decide)]; decide

/-! ## Claim C3: DC predictor lifecycle -/

/-- The AC loop never changes a position below the current index k: every
write lands at k + RRRR >= k and the index only increases. -/
theorem decodeACGo_preserves_below {σ : Type} (next : BitStep σ)
    (acTable : HuffDec σ) :
    ∀ (fuel : ℕ) (zz : List ℤ) (k : ℕ) (s : σ) (out : List ℤ) (s1 : σ),
      decodeACGo next acTable fuel zz k s = some (out, s1) →
      ∀ j, j < k → out.getD j 0 = zz.getD j 0 := by
  intro fuel
  induction fuel with
  | zero =>
    intro zz k s out s1 h j hj
    obtain ⟨rfl, rfl⟩ : zz = out ∧ s = s1 := by
      simpa [decodeACGo, eq_comm] using h
    rfl
  | succ fuel ih =>
    intro zz k s out s1 h j hj
    rw [decodeACGo] at h
    by_cases h64 : 64 ≤ k
    · rw [if_pos h64] at h
      obtain ⟨rfl, rfl⟩ : zz = out ∧ s = s1 := by
        simpa [eq_comm] using h
      rfl
    · rw [if_neg h64] at h
      match htab : acTable s with
      | none => rw [htab] at h; exact absurd h (by simp)
      | some (rs, srest) =>
        rw [htab] at h
        simp only at h
        by_cases hs0 : getLowNibble rs = 0
        · rw [if_pos hs0] at h
          by_cases hr15 : getHighNibble rs = 15
          · rw [if_pos hr15] at h
            exact ih zz (k + 16) srest out s1 h j (by omega)
          · rw [if_neg hr15] at h
            by_cases hr0 : getHighNibble rs = 0
            · rw [if_pos hr0] at h
              obtain ⟨rfl, rfl⟩ : zz = out ∧ srest = s1 := by
                simpa [eq_comm] using h
              rfl
            · rw [if_neg hr0] at h
              exact ih zz (k + 1) srest out s1 h j (by omega)
        · rw [if_neg hs0] at h
          match hrec : receive next (getLowNibble rs) srest with
          | none => rw [hrec] at h; exact absurd h (by simp)
          | some (amp, s2) =>
            rw [hrec] at h
            simp only at h
            have hpr := ih _ (k + getHighNibble rs + 1) s2 out s1 h j (by omega)
            rw [hpr, List.getD_eq_getElem?_getD,
              List.getElem?_set_ne (by omega), List.getD_eq_getElem?_getD]


/-- The component-selection fold keeps every selected component's
predictor at 0: updates only ever write 0. Helper for C3. -/
theorem selectComponents_go_zero (scanComps : List ScanComp)
    (frameComps : List FrameComp) :
    ∀ (acc : List FrameComp × (ℕ → ℤ)),
      (∀ fc ∈ acc.1, acc.2 fc.componentID = 0) →
      ∀ fc ∈ (scanComps.foldl (fun acc sel =>
        match frameComps.find? (fun fc => fc.componentID = sel.cs) with
        | none => acc
        | some fc => (acc.1 ++ [fc], Function.update acc.2 fc.componentID 0))
          acc).1,
        (scanComps.foldl (fun acc sel =>
          match frameComps.find? (fun fc => fc.componentID = sel.cs) with
          | none => acc
          | some fc => (acc.1 ++ [fc], Function.update acc.2 fc.componentID 0))
            acc).2 fc.componentID = 0 := by
  induction scanComps with
  | nil => intro acc hacc fc hfc; exact hacc fc hfc
  | cons sel rest ih =>
    intro acc hacc fc hfc
    simp only [List.foldl_cons]
    apply ih
    intro fc0 hfc0
    match hfind : frameComps.find? (fun fc => fc.componentID = sel.cs) with
    | none =>
      rw [hfind]
      exact hacc fc0 (by rw [hfind] at hfc0; exact hfc0)
    | some fcm =>
      rw [hfind]
      rw [hfind] at hfc0
      simp only [List.mem_append, List.mem_singleton] at hfc0
      rcases hfc0 with hmem | rfl
      · simp only
        by_cases hid : fc0.componentID = fcm.componentID
        · rw [hid, Function.update_same]
        · rw [Function.update_noteq hid]
          exact hacc fc0 hmem
      · simp only [Function.update_same]
    · simp only [List.foldl_cons] at hfc
      exact hfc

/-- C3. The DC predictor lifecycle of a decode pass:
(a) after the component-selection loop at the start of decodeScan, every
selected component's predictor is 0;
(b) the MCU loop runs the restart check before each MCU, and at a
restart-interval boundary the check hands decodeMCU an all-zero
predictor table and a byte-aligned reader;
(c) after decoding one data unit, the component's predictor equals the
old predictor plus the EXTEND'ed DC difference, and it is exactly the
absolute DC value stored at zig-zag position 0 of the block. -/
theorem c3_dc_predictor_lifecycle :
    (∀ (scanComps : List ScanComp) (frameComps : List FrameComp) (pr0 : ℕ → ℤ),
      ∀ fc ∈ (selectComponents scanComps frameComps pr0).1,
        (selectComponents scanComps frameComps pr0).2 fc.componentID = 0) ∧
    (∀ (idctImpl : List ℤ → List ℤ) (huffTables : ℕ → ℕ → HuffDec (Reader × Img))
      (quantTables : ℕ → List ℤ) (scanComps : List ScanComp)
      (ordered : List FrameComp) (ri m : ℕ) (rest : List ℕ) (preds : ℕ → ℤ)
      (s : Reader × Img),
      scanMCUs idctImpl huffTables quantTables scanComps ordered ri (m :: rest)
          preds s =
        (match restartCheck ri m preds s with
        | none => none
        | some (preds1, s1) =>
          match decodeMCU idctImpl nextBitRI huffTables quantTables scanComps
              ordered preds1 s1 with
          | none => none
          | some (preds2, s2) =>
            scanMCUs idctImpl huffTables quantTables scanComps ordered ri rest
              preds2 s2)) ∧
    (∀ (ri m : ℕ) (preds preds1 : ℕ → ℤ) (s s1 : Reader × Img),
      0 < ri → 0 < m → m % ri = 0 →
      restartCheck ri m preds s = some (preds1, s1) →
      preds1 = (fun _ => 0) ∧ s1.1.cnt = 0 ∧ s1.1.buffSize = 0) ∧
    (∀ (σ : Type) (next : BitStep σ) (dcTable acTable : HuffDec σ)
      (pred : ℕ → ℤ) (id : ℕ) (s : σ) (t : ℕ) (s1 : σ) (dv : ℕ) (s2 : σ)
      (zz : List ℤ) (pred1 : ℕ → ℤ) (s3 : σ),
      dcTable s = some (t, s1) → receive next t s1 = some (dv, s2) →
      decodeDataUnitZZ next dcTable acTable pred id s = some (zz, pred1, s3) →
      pred1 id = pred id + extend dv t ∧ zz.getD 0 0 = pred1 id) := by
  refine ⟨?_, ?_, ?_, ?_⟩
  · intro scanComps frameComps pr0 fc hfc
    exact selectComponents_go_zero scanComps frameComps ([], pr0)
      (by intro fc0 hfc0; exact absurd hfc0 (List.not_mem_nil fc0)) fc hfc
  · intro idctImpl huffTables quantTables scanComps ordered ri m rest preds s
    rfl
  · intro ri m preds preds1 s s1 hri hm hmod h
    rw [restartCheck, if_pos ⟨hri, hm, hmod⟩] at h
    match h1 : nextByte s.1 with
    | none => rw [h1] at h; exact absurd h (by simp)
    | some (b1, r1) =>
      rw [h1] at h
      simp only at h
      match h2 : nextByte r1 with
      | none => rw [h2] at h; exact absurd h (by simp)
      | some (b2, r2) =>
        rw [h2] at h
        simp only [Option.some_inj, Prod.mk.injEq] at h
        obtain ⟨hp, hs⟩ := h
        refine ⟨hp.symm, ?_, ?_⟩
        · rw [← hs]; rfl
        · rw [← hs]; rfl
  · intro σ next dcTable acTable pred id s t s1 dv s2 zz pred1 s3 hdc hrec h
    rw [decodeDataUnitZZ, decodeDCCoeff, hdc] at h
    simp only at h
    rw [hrec] at h
    simp only at h
    match hac : decodeACCoeffs next acTable
        ((List.replicate 64 (0 : ℤ)).set 0 (pred id + extend dv t)) 1 s2 with
    | none => rw [hac] at h; exact absurd h (by simp)
    | some (zz1, s4) =>
      rw [hac] at h
      simp only [Option.some_inj] at h
      obtain ⟨rfl, rfl, rfl⟩ : zz1 = zz ∧ Function.update pred id
          (pred id + extend dv t) = pred1 ∧ s4 = s3 := by
        simpa [eq_comm] using h
      refine ⟨Function.update_same .., ?_⟩
      have hpres := decodeACGo_preserves_below next acTable (64 - 1)
        ((List.replicate 64 (0 : ℤ)).set 0 (pred id + extend dv t)) 1 s2 zz1 s4
        hac 0 (by omega)
      rw [hpres, Function.update_same]
      rw [List.getD_eq_getElem?_getD, List.getElem?_set_self (by simp)]
      rfl

/-- Witness for C3 at concrete inputs: a selected component gets its
predictor reset to 0; a restart boundary (MCU 4 of interval 2) over the
two-byte buffer [7, 7] hands back all-zero predictors and a byte-aligned
reader; and a data unit decoded with DC category 2 and raw difference
bits 11 updates predictor 7 to 7 + EXTEND(3, 2) = 10 and stores 10 at
zig-zag position 0. -/
theorem c3_dc_predictor_lifecycle_witness :
    ((⟨1, 1, 1, 0⟩ : FrameComp) ∈
        (selectComponents [⟨1, 0, 0⟩] [⟨1, 1, 1, 0⟩] (fun _ => 5)).1 ∧
      (selectComponents [⟨1, 0, 0⟩] [⟨1, 1, 1, 0⟩] (fun _ => 5)).2
        (⟨1, 1, 1, 0⟩ : FrameComp).componentID = 0) ∧
    ((0 : ℕ) < 2 ∧ (0 : ℕ) < 4 ∧ 4 % 2 = 0 ∧
      restartCheck 2 4 (fun _ => 5) (freshReader [7, 7], ⟨fun _ => 0, 0⟩) =
        some (fun _ => 0, (align { freshReader [7, 7] with index := 1 },
          (⟨fun _ => 0, 0⟩ : Img))) ∧
      (align { freshReader [7, 7] with index := 1 },
        (⟨fun _ => 0, 0⟩ : Img)).1.cnt = 0 ∧
      (align { freshReader [7, 7] with index := 1 },
        (⟨fun _ => 0, 0⟩ : Img)).1.buffSize = 0) ∧
    ((fun (s : List ℕ) => some ((2 : ℕ), s)) [1, 1] = some (2, [1, 1]) ∧
      receive listNext 2 [1, 1] = some (3, []) ∧
      decodeDataUnitZZ listNext (fun s => some (2, s)) (fun s => some (0, s))
          (fun _ => 7) 1 [1, 1] =
        some ((List.replicate 64 (0 : ℤ)).set 0 10,
          Function.update (fun _ => 7) 1 10, []) ∧
      Function.update (fun _ => (7 : ℤ)) 1 10 1 =
        (fun _ => (7 : ℤ)) 1 + extend 3 2 ∧
      ((List.replicate 64 (0 : ℤ)).set 0 10).getD 0 0 =
        Function.update (fun _ => (7 : ℤ)) 1 10 1) :=
  ⟨⟨by decide,
    c3_dc_predictor_lifecycle.1 [⟨1, 0, 0⟩] [⟨1, 1, 1, 0⟩] (fun _ => 5)
      ⟨1, 1, 1, 0⟩ (by decide)⟩,
   ⟨by decide, by decide, by decide, rfl,
    (c3_dc_predictor_lifecycle.2.2.1 2 4 (fun _ => 5) (fun _ => 0)
      (freshReader [7, 7], ⟨fun _ => 0, 0⟩)
      (align { freshReader [7, 7] with index := 1 }, ⟨fun _ => 0, 0⟩)
      (by decide) (by decide) (by decide) rfl).2⟩,
   ⟨rfl, by decide, rfl,
    c3_dc_predictor_lifecycle.2.2.2 (List ℕ) listNext
      (fun s => some (2, s)) (fun s => some (0, s)) (fun _ => 7) 1 [1, 1]
      2 [1, 1] 3 [] ((List.replicate 64 (0 : ℤ)).set 0 10)
      (Function.update (fun _ => 7) 1 10) [] rfl (by decide) rfl⟩⟩

/-! ## Claim C7: byte destuffing in the bit reader -/

/-- Reading one byte in bounds: value and index advance. -/
theorem nextByte_eq (r : Reader) (h0 : 0 ≤ r.index + 1)
    (hlt : r.index + 1 < (r.view.length : ℤ)) :
    nextByte r = some (r.view.getD (r.index + 1).toNat 0,
      { r with index := r.index + 1 }) := by
  simp only [nextByte]
  rw [if_pos ⟨h0, hlt⟩]

/-- One unfolding step of readBits. -/
theorem readBits_succ (img : Img) (r : Reader) (n : ℕ) :
    readBits img r (n + 1) =
      match nextBit img r with
      | none => none
      | some (b, r1, img1) =>
        match readBits img1 r1 n with
        | none => none
        | some (bs, r2, img2) => some (b :: bs, r2, img2) := rfl

/-- Reading m + n bits is reading m bits then n bits. -/
theorem readBits_add (m n : ℕ) : ∀ (img : Img) (r : Reader),
    readBits img r (m + n) =
      match readBits img r m with
      | none => none
      | some (bs1, r1, img1) =>
        match readBits img1 r1 n with
        | none => none
        | some (bs2, r2, img2) => some (bs1 ++ bs2, r2, img2) := by
  induction m with
  | zero =>
    intro img r
    rw [Nat.zero_add]
    simp only [readBits]
    match h : readBits img r n with
    | none => rfl
    | some (bs, r2, img2) => simp
  | succ m ih =>
    intro img r
    rw [show m + 1 + n = (m + n) + 1 by omega]
    rw [readBits, readBits]
    match hnb : nextBit img r with
    | none => rfl
    | some (b, r1, img1) =>
      simp only
      rw [ih img1 r1]
      match h1 : readBits img1 r1 m with
      | none => rfl
      | some (bs1, r2, img2) =>
        simp only
        match h2 : readBits img2 r2 n with
        | none => rfl
        | some (bs2, r3, img3) => simp

/-- Draining the bit register: with c buffered bits holding the top bits
of a value B (register = B shifted to the top of the byte), the next c
reads return the bits of B and empty the register. -/
theorem readBits_reg (c : ℕ) : c ≤ 8 → ∀ (img : Img) (r : Reader) (B : ℕ),
    B < 2 ^ c → r.cnt = c → r.byte = B * 2 ^ (8 - c) →
    readBits img r c = some (natBits c B, { r with cnt := 0, byte := 0 }, img) := by
  induction c with
  | zero =>
    intro _ img r B hB hcnt hbyte
    have hB0 : B = 0 := by omega
    subst hB0
    simp only [readBits, natBits]
    have hb0 : r.byte = 0 := by simpa using hbyte
    cases r
    simp_all
  | succ c ih =>
    intro hc img r B hB hcnt hbyte
    have hc7 : c ≤ 7 := by omega
    have h8c : 8 - (c + 1) = 7 - c := by omega
    rw [h8c] at hbyte
    have hnb : nextBit img r = some (r.byte / 128,
        { r with byte := r.byte * 2 % 256, cnt := r.cnt - 1 }, img) := by
      rw [nextBit]
      simp [hcnt]
    rw [readBits, hnb]
    simp only
    have e1 : (2 : ℕ) ^ 7 = 2 ^ (7 - c) * 2 ^ c := by
      rw [← pow_add]
      congr 1
      omega
    have hbit : r.byte / 128 = B / 2 ^ c := by
      rw [hbyte, show (128 : ℕ) = 2 ^ 7 from rfl, e1,
        show B * 2 ^ (7 - c) = 2 ^ (7 - c) * B by ring,
        Nat.mul_div_mul_left _ _ (by positivity)]
    have e2 : (2 : ℕ) ^ c * 2 ^ (8 - c) = 256 := by
      rw [← pow_add, show c + (8 - c) = 8 by omega]
      rfl
    have hbyte2 : r.byte * 2 % 256 = B % 2 ^ c * 2 ^ (8 - c) := by
      have hp1 : 0 < (2 : ℕ) ^ c := Nat.two_pow_pos c
      have hp2 : 0 < (2 : ℕ) ^ (8 - c) := Nat.two_pow_pos (8 - c)
      have hmlt : B % 2 ^ c < 2 ^ c := Nat.mod_lt _ hp1
      have hm : B % 2 ^ c * 2 ^ (8 - c) < 256 := by
        calc B % 2 ^ c * 2 ^ (8 - c) < 2 ^ c * 2 ^ (8 - c) :=
              (Nat.mul_lt_mul_right hp2).mpr hmlt
          _ = 256 := e2
      have hdm := Nat.div_add_mod B (2 ^ c)
      have e3 : r.byte * 2 = B * 2 ^ (8 - c) := by
        rw [hbyte, mul_assoc, ← pow_succ, show 7 - c + 1 = 8 - c by omega]
      calc r.byte * 2 % 256 = B * 2 ^ (8 - c) % 256 := by rw [e3]
        _ = (2 ^ c * (B / 2 ^ c) + B % 2 ^ c) * 2 ^ (8 - c) % 256 := by rw [hdm]
        _ = (B % 2 ^ c * 2 ^ (8 - c) + B / 2 ^ c * 256) % 256 := by
              rw [show (2 ^ c * (B / 2 ^ c) + B % 2 ^ c) * 2 ^ (8 - c) =
                B % 2 ^ c * 2 ^ (8 - c) + B / 2 ^ c * (2 ^ c * 2 ^ (8 - c)) by ring,
                e2]
        _ = B % 2 ^ c * 2 ^ (8 - c) % 256 := by rw [Nat.add_mul_mod_self_right]
        _ = B % 2 ^ c * 2 ^ (8 - c) := Nat.mod_eq_of_lt hm
    have ihres := ih (by omega) img
      { r with byte := r.byte * 2 % 256, cnt := r.cnt - 1 }
      (B % 2 ^ c) (Nat.mod_lt _ (Nat.two_pow_pos c)) (by simp [hcnt])
      (by simpa using hbyte2)
    rw [ihres]
    simp only [natBits]
    have hbits : B / 2 ^ c % 2 = B / 2 ^ c := by
      have hBlt : B < 2 ^ c * 2 := by
        calc B < 2 ^ (c + 1) := hB
          _ = 2 ^ c * 2 := by rw [pow_succ]
      have hdiv : B / 2 ^ c < 2 :=
        (Nat.div_lt_iff_lt_mul (Nat.two_pow_pos c)).mpr (by rw [mul_comm]; exact hBlt)
      exact Nat.mod_eq_of_lt hdiv
    rw [hbit, hbits]

/-- C7. At a byte-aligned reader position where the next bytes are 0xFF,
0x00, b (with b not itself 0xFF), the next sixteen nextBit reads return
exactly the bits of 0xFF followed by the bits of b: the stuffed 0x00
byte is consumed internally and never appears in any returned bit, and
the image struct is untouched. -/
theorem c7_destuffing (img : Img) (r : Reader) (b : ℕ)
    (h0 : 0 ≤ r.index + 1) (h3 : r.index + 3 < (r.view.length : ℤ))
    (hv1 : r.view.getD (r.index + 1).toNat 0 = 255)
    (hv2 : r.view.getD (r.index + 2).toNat 0 = 0)
    (hv3 : r.view.getD (r.index + 3).toNat 0 = b)
    (hcnt : r.cnt = 0) (hb : b < 256) (hbff : b ≠ 255) :
    ∃ r2, readBits img r 16 = some (natBits 8 255 ++ natBits 8 b, r2, img) := by
  have hnb1 : nextByte r = some (255, { r with index := r.index + 1 }) := by
    rw [nextByte_eq r h0 (by omega), hv1]
  have hnb2 : nextByte { r with index := r.index + 1, byte := 255, cnt := 8 } =
      some (0, { r with index := r.index + 2, byte := 255, cnt := 8 }) := by
    rw [nextByte_eq _ (by simp; omega) (by simp; omega)]
    simp only
    rw [show r.index + 1 + 1 = r.index + 2 by ring, hv2]
  have hnbit1 : nextBit img r =
      some (1, { r with index := r.index + 2, byte := 254, cnt := 7 }, img) := by
    rw [nextBit, hcnt]
    simp only [reduceIte, hnb1]
    norm_num [hnb2]
  have h8a : readBits img r 8 = some (natBits 8 255,
      { r with index := r.index + 2, byte := 0, cnt := 0 }, img) := by
    have hreg1 := readBits_reg 7 (by omega) img
      { r with index := r.index + 2, byte := 254, cnt := 7 } 127 (by norm_num) rfl
      (by norm_num)
    have e := readBits_succ img r 7
    norm_num at e
    rw [e, hnbit1]
    simp only
    rw [hreg1]
    have hnb255 : natBits 8 255 = 1 :: natBits 7 127 := by decide
    rw [hnb255]
  have hnbit2 : nextBit img { r with index := r.index + 2, byte := 0, cnt := 0 } =
      some (b / 2 ^ 7 % 2,
        { r with index := r.index + 3, byte := b % 128 * 2, cnt := 7 }, img) := by
    have hnb3 : nextByte { r with index := r.index + 2, byte := 0, cnt := 0 } =
        some (b, { r with index := r.index + 3, byte := 0, cnt := 0 }) := by
      rw [nextByte_eq _ (by simp; omega) (by simp; omega)]
      simp only
      rw [show r.index + 2 + 1 = r.index + 3 by ring, hv3]
    rw [nextBit]
    simp only [reduceIte, hnb3]
    rw [if_neg hbff]
    simp only
    have hb1 : b / 128 = b / 2 ^ 7 % 2 := by omega
    have hb2 : b * 2 % 256 = b % 128 * 2 := by omega
    rw [hb1, hb2]
  have h8b : readBits img { r with index := r.index + 2, byte := 0, cnt := 0 } 8 =
      some (natBits 8 b, { r with index := r.index + 3, byte := 0, cnt := 0 },
        img) := by
    have hreg2 := readBits_reg 7 (by omega) img
      { r with index := r.index + 3, byte := b % 128 * 2, cnt := 7 } (b % 128)
      (by omega) rfl (by norm_num)
    have e := readBits_succ img { r with index := r.index + 2, byte := 0, cnt := 0 } 7
    norm_num at e
    rw [e, hnbit2]
    simp only
    rw [hreg2]
    rfl
  refine ⟨{ r with index := r.index + 3, byte := 0, cnt := 0 }, ?_⟩
  have e16 := readBits_add 8 8 img r
  norm_num at e16
  rw [e16, h8a]
  simp only
  rw [h8b]

/-- Witness for C7 over the concrete buffer 0xFF, 0x00, 0xAB. -/
theorem c7_destuffing_witness :
    (readBits ⟨fun _ => 0, 0⟩ (freshReader [0xFF, 0x00, 0xAB]) 16).map
      (fun x => x.1) = some (natBits 8 255 ++ natBits 8 0xAB) := by
  obtain ⟨r2, h⟩ := c7_destuffing ⟨fun _ => 0, 0⟩ (freshReader [0xFF, 0x00, 0xAB])
    0xAB (by decide) (by decide) (by decide) (by decide) (by decide) rfl
    (by decide) (by decide)
  rw [h]
  rfl

/-! ## Claim C8: reads at end of buffer

nextBit reads the next byte unconditionally, so past the end of the
buffer it fails (getUint8 throws a RangeError in JavaScript). Only the
peek path of the multi-bit reader synthesizes missing bytes as 0xFF,
making every bit obtained through peek read as 1. -/

/-- Counterexample to C8 as stated: with the buffer exhausted (here an
empty buffer), a bit requested through nextBit is not returned at all,
let alone with value 1: the read fails. -/
theorem c8_nextbit_fails_counterexample :
    nextBit ⟨fun _ => 0, 0⟩ (freshReader []) = none ∧
    ∀ r2 img2, nextBit ⟨fun _ => 0, 0⟩ (freshReader []) ≠ some (1, r2, img2) := by
  constructor
  · rfl
  · intro r2 img2 h
    have h2 : (none : Option (ℕ × Reader × Img)) = some (1, r2, img2) := h
    exact Option.noConfusion h2

/-- Extracting n top bits from a value whose low s bits are all ones
yields all ones. -/
theorem ones_extract (a s n : ℕ) (h : a % 2 ^ s = 2 ^ s - 1) (hn : n ≤ s) :
    a / 2 ^ (s - n) % 2 ^ n = 2 ^ n - 1 := by
  have hsn : (2 : ℕ) ^ s = 2 ^ (s - n) * 2 ^ n := by
    rw [← pow_add]
    congr 1
    omega
  have hp : 0 < (2 : ℕ) ^ (s - n) := Nat.two_pow_pos _
  have hpn : 0 < (2 : ℕ) ^ n := Nat.two_pow_pos _
  have hdm := Nat.div_add_mod a (2 ^ s)
  have hrepr : a = 2 ^ (s - n) * (2 ^ n * (a / 2 ^ s) + (2 ^ n - 1)) +
      (2 ^ (s - n) - 1) := by
    calc a = 2 ^ s * (a / 2 ^ s) + a % 2 ^ s := hdm.symm
      _ = 2 ^ s * (a / 2 ^ s) + (2 ^ s - 1) := by rw [h]
      _ = 2 ^ (s - n) * (2 ^ n * (a / 2 ^ s) + (2 ^ n - 1)) + (2 ^ (s - n) - 1) := by
            rw [hsn]
            have e1 : 2 ^ (s - n) * 2 ^ n - 1 =
                2 ^ (s - n) * (2 ^ n - 1) + (2 ^ (s - n) - 1) := by
              obtain ⟨p, hpe⟩ : ∃ p, (2 : ℕ) ^ (s - n) = p + 1 := ⟨2 ^ (s - n) - 1, by omega⟩
              obtain ⟨q, hqe⟩ : ∃ q, (2 : ℕ) ^ n = q + 1 := ⟨2 ^ n - 1, by omega⟩
              rw [hpe, hqe]
              have e2 : (p + 1) * (q + 1) = (p + 1) * q + p + 1 := by ring
              simp only [Nat.add_sub_cancel]
              omega
            rw [e1]
            ring
  rw [hrepr, Nat.mul_add_div hp,
    Nat.div_eq_of_lt (show 2 ^ (s - n) - 1 < 2 ^ (s - n) by omega),
    Nat.add_zero, Nat.mul_add_mod]
  exact Nat.mod_eq_of_lt (by omega)

/-- The peek fill loop at end of buffer: filler 0xFF bytes keep all valid
buffer bits equal to 1. The fuel only needs to dominate the number of
iterations. -/
theorem peekFill_ones : ∀ (fuel : ℕ) (img : Img) (r : Reader) (n : ℕ),
    ¬ hasMoreBytes r → r.buffer % 2 ^ r.buffSize = 2 ^ r.buffSize - 1 →
    n ≤ 24 → n ≤ r.buffSize + 8 * fuel →
    ∃ r2, peekFill img r n fuel = some (r2, img) ∧ n ≤ r2.buffSize ∧
      r2.buffer % 2 ^ r2.buffSize = 2 ^ r2.buffSize - 1 := by
  intro fuel
  induction fuel with
  | zero =>
    intro img r n hmore hones hn24 hfuel
    refine ⟨r, ?_, by omega, hones⟩
    rw [peekFill, if_neg (by omega)]
  | succ fuel ih =>
    intro img r n hmore hones hn24 hfuel
    by_cases hlt : r.buffSize < n
    · have hstep : peekStep img r = some ({ r with
          buffer := (r.buffer * 256 + 0xFF) % 2 ^ 32
          buffSize := r.buffSize + 8 }, img) := by
        rw [peekStep, if_pos hmore]
      have hle32 : r.buffSize + 8 ≤ 32 := by omega
      have hones2 : (r.buffer * 256 + 0xFF) % 2 ^ 32 % 2 ^ (r.buffSize + 8) =
          2 ^ (r.buffSize + 8) - 1 := by
        have hdvd : (2 : ℕ) ^ (r.buffSize + 8) ∣ 2 ^ 32 :=
          pow_dvd_pow 2 hle32
        rw [Nat.mod_mod_of_dvd _ hdvd]
        have hdm := Nat.div_add_mod r.buffer (2 ^ r.buffSize)
        have hp : 0 < (2 : ℕ) ^ r.buffSize := Nat.two_pow_pos _
        have e1 : r.buffer * 256 + 0xFF =
            2 ^ (r.buffSize + 8) * (r.buffer / 2 ^ r.buffSize) +
              (2 ^ (r.buffSize + 8) - 1) := by
          calc r.buffer * 256 + 0xFF
              = (2 ^ r.buffSize * (r.buffer / 2 ^ r.buffSize) +
                r.buffer % 2 ^ r.buffSize) * 256 + 0xFF := by rw [hdm]
            _ = (2 ^ r.buffSize * (r.buffer / 2 ^ r.buffSize) +
                (2 ^ r.buffSize - 1)) * 256 + 0xFF := by rw [hones]
            _ = 2 ^ (r.buffSize + 8) * (r.buffer / 2 ^ r.buffSize) +
                ((2 ^ r.buffSize - 1) * 256 + 0xFF) := by
                  rw [pow_add]
                  ring
            _ = 2 ^ (r.buffSize + 8) * (r.buffer / 2 ^ r.buffSize) +
                (2 ^ (r.buffSize + 8) - 1) := by
                  congr 1
                  rw [pow_add]
                  have := Nat.two_pow_pos r.buffSize
                  norm_num
                  omega
        rw [e1, Nat.mul_add_mod]
        exact Nat.mod_eq_of_lt (by have := Nat.two_pow_pos (r.buffSize + 8); omega)
      rw [peekFill, if_pos hlt, hstep]
      simp only
      exact ih img _ n hmore hones2 hn24 (by simp only; omega)
    · refine ⟨r, ?_, by omega, hones⟩
      rw [peekFill, if_neg hlt]

/-- C8 amended: with the byte buffer exhausted and the peek buffer empty,
a peek of any 1..24 bits succeeds and returns all ones (2^n - 1): bits
requested through the peek reader are synthesized as 1s. (nextBit reads,
by contrast, fail past the end, see the counterexample.) -/
theorem c8_amended_peek_synthesizes_ones (img : Img) (r : Reader) (n : ℕ)
    (hmore : ¬ hasMoreBytes r) (hbs : r.buffSize = 0) (hn1 : 0 < n)
    (hn : n ≤ 24) :
    ∃ r2, peek img r n = some (2 ^ n - 1, r2, img) := by
  obtain ⟨r2, hfill, hge, hones⟩ := peekFill_ones (n + 1) img r n hmore
    (by rw [hbs]; omega) hn (by omega)
  refine ⟨r2, ?_⟩
  rw [peek, hfill]
  simp only
  rw [ones_extract _ _ _ hones hge]

/-- Witness for C8 amended: an empty buffer and an 8-bit peek. -/
theorem c8_amended_peek_synthesizes_ones_witness :
    (peek ⟨fun _ => 0, 0⟩ (freshReader []) 8).map (fun x => x.1) = some 255 := by
  obtain ⟨r2, h⟩ := c8_amended_peek_synthesizes_ones ⟨fun _ => 0, 0⟩
    (freshReader []) 8 (by decide) rfl (by decide) (by decide)
  rw [h]
  rfl

/-! ## Claim C4: the EXTEND function -/

/-- C4. For every 0 <= t <= 11 and 0 <= v < 2^t, extend returns 0 when
t = 0, returns v + (-1 << t) + 1 = v - 2^t + 1 when v < 2^(t-1), and
returns v unchanged otherwise; and the Annex F worked values
extend 0b0 1 = -1, extend 0b1 1 = 1, extend 0b00101 5 = -26,
extend 0b11111111111 11 = 2047 all hold. -/
theorem c4_extend_matches_annexF (t v : ℕ) (ht : t ≤ 11) (hv : v < 2 ^ t) :
    (t = 0 → extend v t = 0) ∧
    (t ≠ 0 → (v : ℤ) < 2 ^ (t - 1) → extend v t = (v : ℤ) - 2 ^ t + 1) ∧
    (t ≠ 0 → 2 ^ (t - 1) ≤ (v : ℤ) → extend v t = (v : ℤ)) ∧
    extend 0 1 = -1 ∧ extend 1 1 = 1 ∧ extend 5 5 = -26 ∧
    extend 2047 11 = 2047 := by
  refine ⟨fun h0 => by simp [extend, h0], fun h0 hlt => ?_, fun h0 hge => ?_,
    by decide, by decide, by decide, by decide⟩
  · simp only [extend, if_neg h0, if_pos hlt]
    ring
  · simp [extend, h0, not_lt.mpr hge]

/-- Witness for C4 at t = 5, v = 5. -/
theorem c4_extend_matches_annexF_witness :
    (5 : ℕ) ≤ 11 ∧ (5 : ℕ) < 2 ^ 5 ∧ extend 5 5 = -26 := by
  refine ⟨by decide, by decide, ?_⟩
  have h := c4_extend_matches_annexF 5 5 (by decide) (by decide)
  exact h.2.2.2.2.2.1

/-! ## Claim C10: extend is nonzero for t >= 1; AC writes are nonzero -/

/-- When t >= 1, extend never returns 0, whatever v is (both branches
land strictly on one side of 0). Helper for C10. -/
theorem extend_ne_zero (v t : ℕ) (ht : 1 ≤ t) : extend v t ≠ 0 := by
  have h0 : t ≠ 0 := by omega
  have hsplit : (2 : ℤ) ^ t = 2 ^ (t - 1) * 2 := by
    rw [← pow_succ]
    congr 1
    omega
  have hpos : (0 : ℤ) < 2 ^ (t - 1) := by positivity
  by_cases hlt : (v : ℤ) < 2 ^ (t - 1)
  · simp only [extend, if_neg h0, if_pos hlt]
    omega
  · push_neg at hlt
    simp only [extend, if_neg h0, if_neg (not_lt.mpr hlt)]
    omega

/-- Every position the AC run-length loop changes holds a value of the
form extend amp ssss with ssss >= 1. Helper for C10. -/
theorem decodeACGo_changed_ne_zero {σ : Type} (next : BitStep σ)
    (acTable : HuffDec σ) :
    ∀ (fuel : ℕ) (zz : List ℤ) (k : ℕ) (s : σ) (out : List ℤ) (s1 : σ),
      decodeACGo next acTable fuel zz k s = some (out, s1) →
      ∀ j, out.getD j 0 = zz.getD j 0 ∨ out.getD j 0 ≠ 0 := by
  intro fuel
  induction fuel with
  | zero =>
    intro zz k s out s1 h j
    left
    obtain ⟨rfl, rfl⟩ : zz = out ∧ s = s1 := by
      simpa [decodeACGo, eq_comm] using h
    rfl
  | succ fuel ih =>
    intro zz k s out s1 h j
    rw [decodeACGo] at h
    by_cases h64 : 64 ≤ k
    · rw [if_pos h64] at h
      left
      obtain ⟨rfl, rfl⟩ : zz = out ∧ s = s1 := by
        simpa [eq_comm] using h
      rfl
    · rw [if_neg h64] at h
      match htab : acTable s with
      | none => rw [htab] at h; exact absurd h (by simp)
      | some (rs, srest) =>
        rw [htab] at h
        simp only at h
        by_cases hs0 : getLowNibble rs = 0
        · rw [if_pos hs0] at h
          by_cases hr15 : getHighNibble rs = 15
          · rw [if_pos hr15] at h
            exact ih zz (k + 16) srest out s1 h j
          · rw [if_neg hr15] at h
            by_cases hr0 : getHighNibble rs = 0
            · rw [if_pos hr0] at h
              left
              obtain ⟨rfl, rfl⟩ : zz = out ∧ srest = s1 := by
                simpa [eq_comm] using h
              rfl
            · rw [if_neg hr0] at h
              exact ih zz (k + 1) srest out s1 h j
        · rw [if_neg hs0] at h
          match hrec : receive next (getLowNibble rs) srest with
          | none => rw [hrec] at h; exact absurd h (by simp)
          | some (amp, s2) =>
            rw [hrec] at h
            simp only at h
            have hz := ih _ (k + getHighNibble rs + 1) s2 out s1 h j
            rcases hz with hz | hz
            · rw [hz]
              by_cases hj : j = k + getHighNibble rs
              · subst hj
                by_cases hjl : k + getHighNibble rs < zz.length
                · right
                  rw [List.getD_eq_getElem?_getD, List.getElem?_set_self (by omega)]
                  simpa using extend_ne_zero amp (getLowNibble rs) (by omega)
                · left
                  rw [List.getD_eq_getElem?_getD, List.getElem?_set,
                    if_pos rfl, List.getD_eq_getElem?_getD]
                  have hle : zz.length ≤ k + getHighNibble rs := by omega
                  simp [if_neg hjl, List.getElem?_eq_none hle]
              · left
                rw [List.getD_eq_getElem?_getD, List.getElem?_set_ne (by omega),
                  List.getD_eq_getElem?_getD]
            · right; exact hz

/-! ## Claim C2: the AC run-length cases -/

/-- C2. One iteration of the AC coefficient loop at position 1 <= k <= 63,
when the AC table decodes the symbol rs: with SSSS = 0 and RRRR = 15
(ZRL) the loop continues at k + 16 and the final result leaves positions
k..k+15 unchanged (zero if they were zero); with SSSS = 0 and RRRR = 0
(EOB) the loop stops, returning the array unchanged (all remaining
positions still zero); otherwise the loop stores
extend (receive SSSS) SSSS at position k + RRRR and continues at
k + RRRR + 1. -/
theorem c2_ac_cases {σ : Type} (next : BitStep σ) (acTable : HuffDec σ)
    (zz : List ℤ) (k : ℕ) (s : σ) (rs : ℕ) (s1 : σ)
    (hk1 : 1 ≤ k) (hk : k < 64) (htab : acTable s = some (rs, s1)) :
    (getLowNibble rs = 0 → getHighNibble rs = 15 →
      decodeACCoeffs next acTable zz k s = decodeACCoeffs next acTable zz (k + 16) s1 ∧
      ∀ out s2, decodeACCoeffs next acTable zz k s = some (out, s2) →
        ∀ j, k ≤ j → j < k + 16 → out.getD j 0 = zz.getD j 0) ∧
    (getLowNibble rs = 0 → getHighNibble rs = 0 →
      decodeACCoeffs next acTable zz k s = some (zz, s1)) ∧
    (getLowNibble rs ≠ 0 →
      ∀ amp s2, receive next (getLowNibble rs) s1 = some (amp, s2) →
        decodeACCoeffs next acTable zz k s =
          decodeACCoeffs next acTable
            (zz.set (k + getHighNibble rs) (extend amp (getLowNibble rs)))
            (k + getHighNibble rs + 1) s2 ∧
        (k + getHighNibble rs < 64 → zz.length = 64 →
          (zz.set (k + getHighNibble rs)
              (extend amp (getLowNibble rs))).getD (k + getHighNibble rs) 0 =
            extend amp (getLowNibble rs))) := by
  have h64 : ¬ 64 ≤ k := by omega
  obtain ⟨f, hf⟩ : ∃ f, 64 - k = f + 1 := ⟨64 - k - 1, by omega⟩
  have hstep : ∀ (zz0 : List ℤ),
      decodeACCoeffs next acTable zz0 k s =
        (if getLowNibble rs = 0 then
          if getHighNibble rs = 15 then decodeACGo next acTable f zz0 (k + 16) s1
          else if getHighNibble rs = 0 then some (zz0, s1)
          else decodeACGo next acTable f zz0 (k + 1) s1
        else
          match receive next (getLowNibble rs) s1 with
          | none => none
          | some (amp, s2) =>
            decodeACGo next acTable f
              (zz0.set (k + getHighNibble rs) (extend amp (getLowNibble rs)))
              (k + getHighNibble rs + 1) s2) := by
    intro zz0
    rw [decodeACCoeffs, hf, decodeACGo, if_neg h64, htab]
  refine ⟨fun hs0 hr15 => ⟨?_, ?_⟩, fun hs0 hr0 => ?_, fun hs0 amp s2 hrec => ⟨?_, ?_⟩⟩
  · rw [hstep, if_pos hs0, if_pos hr15, decodeACCoeffs]
    exact decodeACGo_congr next acTable f (64 - (k + 16)) zz (k + 16) s1
      (by omega) (by omega)
  · intro out s2 hout j hjk hjk16
    rw [hstep, if_pos hs0, if_pos hr15] at hout
    exact decodeACGo_preserves_below next acTable f zz (k + 16) s1 out s2 hout j
      (by omega)
  · rw [hstep, if_pos hs0, if_neg (by rw [hr0]; omega), if_pos hr0]
  · rw [hstep, if_neg hs0, hrec, decodeACCoeffs]
    exact decodeACGo_congr next acTable f (64 - (k + getHighNibble rs + 1)) _
      (k + getHighNibble rs + 1) s2 (by omega) (by omega)
  · intro hkr hlen
    rw [List.getD_eq_getElem?_getD, List.getElem?_set_self (by omega)]
    rfl

/-- Witness for C2, covering the ZRL case concretely: at k = 1 with the
AC table always decoding 0xF0 over an empty bit list the loop skips 16
positions, and with a table decoding 0x00 it stops at once. -/
theorem c2_ac_cases_witness :
    decodeACCoeffs listNext (fun s => some (0xF0, s))
        (List.replicate 64 (0 : ℤ)) 1 ([] : List ℕ) =
      decodeACCoeffs listNext (fun s => some (0xF0, s))
        (List.replicate 64 (0 : ℤ)) 17 ([] : List ℕ) := by
  have h := c2_ac_cases listNext (fun s => some (0xF0, s))
    (List.replicate 64 (0 : ℤ)) 1 ([] : List ℕ) 0xF0 []
    (by decide) (by decide) rfl
  exact (h.1 (by decide) (by decide)).1

/-- C10. For 1 <= t <= 16 and 0 <= v < 2^t, extend v t is nonzero with
absolute value between 2^(t-1) and 2^t - 1; consequently any position
changed by the AC run-length decoder (which calls extend only with
ssss >= 1) holds a nonzero coefficient. -/
theorem c10_extend_nonzero_ac_nonzero :
    (∀ t v : ℕ, 1 ≤ t → t ≤ 16 → v < 2 ^ t →
      extend v t ≠ 0 ∧
      (2 : ℤ) ^ (t - 1) ≤ |extend v t| ∧ |extend v t| ≤ 2 ^ t - 1) ∧
    (∀ (σ : Type) (next : BitStep σ) (acTable : HuffDec σ)
      (zz : List ℤ) (k : ℕ) (s : σ) (out : List ℤ) (s1 : σ),
      decodeACCoeffs next acTable zz k s = some (out, s1) →
      ∀ j, out.getD j 0 ≠ zz.getD j 0 → out.getD j 0 ≠ 0) := by
  constructor
  · intro t v ht1 ht16 hv
    refine ⟨extend_ne_zero v t ht1, ?_, ?_⟩
    · have h0 : t ≠ 0 := by omega
      by_cases hlt : (v : ℤ) < 2 ^ (t - 1)
      · simp only [extend, if_neg h0, if_pos hlt]
        have hsplit : (2 : ℤ) ^ t = 2 ^ (t - 1) * 2 := by
          rw [← pow_succ]
          congr 1
          omega
        rw [abs_of_nonpos (by omega)]
        omega
      · push_neg at hlt
        simp only [extend, if_neg h0, if_neg (not_lt.mpr hlt)]
        rw [abs_of_nonneg (by positivity)]
        exact hlt
    · have h0 : t ≠ 0 := by omega
      have hvz : (v : ℤ) < 2 ^ t := by exact_mod_cast hv
      have hpos : (0 : ℤ) < 2 ^ t := by positivity
      by_cases hlt : (v : ℤ) < 2 ^ (t - 1)
      · simp only [extend, if_neg h0, if_pos hlt]
        rw [abs_of_nonpos (by omega)]
        omega
      · push_neg at hlt
        simp only [extend, if_neg h0, if_neg (not_lt.mpr hlt)]
        rw [abs_of_nonneg (by positivity)]
        omega
  · intro σ next acTable zz k s out s1 h j hne
    rcases decodeACGo_changed_ne_zero next acTable (64 - k) zz k s out s1 h j with hc | hc
    · exact absurd hc hne
    · exact hc

/-- Witness for C10: bounds at t = 3, v = 1 (extend 1 3 = -6), and an AC
decode over a concrete stream that changes position 2 to a nonzero
coefficient. -/
theorem c10_extend_nonzero_ac_nonzero_witness :
    (extend 1 3 ≠ 0 ∧ (2 : ℤ) ^ 2 ≤ |extend 1 3| ∧ |extend 1 3| ≤ 2 ^ 3 - 1) ∧
    (decodeACCoeffs listNext (fun s => some (0x11, s))
        (List.replicate 64 0) 62 [1] = some ((List.replicate 64 0).set 63 1, []) ∧
      ((List.replicate 64 (0 : ℤ)).set 63 1).getD 63 0 ≠ 0) := by
  have h1 := (c10_extend_nonzero_ac_nonzero.1) 3 1 (by decide) (by decide) (by decide)
  have heq : decodeACCoeffs listNext (fun s => some (0x11, s))
      (List.replicate 64 (0 : ℤ)) 62 [1] =
      some ((List.replicate 64 (0 : ℤ)).set 63 1, []) := by decide
  have h2 := (c10_extend_nonzero_ac_nonzero.2) (List ℕ) listNext
    (fun s => some (0x11, s)) (List.replicate 64 0) 62 [1]
    ((List.replicate 64 0).set 63 1) [] heq 63 (by decide)
  exact ⟨h1, heq, h2⟩

/-- natBits produces exactly l bits. -/
theorem natBits_length (l : ℕ) : ∀ c, (natBits l c).length = l := by
  induction l with
  | zero => intro c; rfl
  | succ l ih => intro c; simp only [natBits, List.length_cons, ih]

/-- The numeric value of the bit string of c is c, when c fits. -/
theorem bitsVal_natBits (l : ℕ) : ∀ c, c < 2 ^ l → bitsVal (natBits l c) = c := by
  induction l with
  | zero => intro c hc; interval_cases c; rfl
  | succ l ih =>
    intro c hc
    simp only [natBits, bitsVal, natBits_length]
    rw [ih (c % 2 ^ l) (Nat.mod_lt _ (Nat.two_pow_pos l))]
    have h1 : c / 2 ^ l < 2 :=
      (Nat.div_lt_iff_lt_mul (Nat.two_pow_pos l)).mpr (by rw [← pow_succ']; exact hc)
    rw [Nat.mod_eq_of_lt h1]
    exact Nat.div_add_mod' c (2 ^ l)

/-- Bit strings of equal length and equal value fitting that length are
strings of equal numbers. -/
theorem natBits_inj (l c c' : ℕ) (hc : c < 2 ^ l) (hc' : c' < 2 ^ l)
    (h : natBits l c = natBits l c') : c = c' := by
  rw [← bitsVal_natBits l c hc, ← bitsVal_natBits l c' hc', h]

/-- natBits only sees c modulo 2^l. -/
theorem natBits_mod (l : ℕ) : ∀ c, natBits l (c % 2 ^ l) = natBits l c := by
  induction l with
  | zero => intro c; rfl
  | succ l ih =>
    intro c
    simp only [natBits]
    congr 1
    · rw [pow_succ, Nat.mod_mul_right_div_self]
      omega
    · rw [Nat.mod_mod_of_dvd c (by rw [pow_succ]; exact Dvd.intro 2 rfl)]

/-- Splitting one bit off the length-(i+1) ancestor of an l-bit code:
its head is bit l of c and its tail is the i-bit ancestor of the low
l bits. -/
theorem natBits_ancestor (i l c : ℕ) (h : i ≤ l) :
    natBits (i + 1) (c / 2 ^ (l - i)) =
      (c / 2 ^ l) % 2 :: natBits i ((c % 2 ^ l) / 2 ^ (l - i)) := by
  simp only [natBits]
  congr 1
  · rw [Nat.div_div_eq_div_mul, ← pow_add]
    congr 3
    omega
  · have hsplit : 2 ^ l = 2 ^ (l - i) * 2 ^ i := by rw [← pow_add]; congr 1; omega
    rw [hsplit, Nat.mod_mul_right_div_self]

/-- The empty node holds no data on any path. -/
theorem pathData_fresh (q : List ℕ) : pathData (.node none none) q = none := by
  cases q <;> rfl

/-- A full subtree is not data free. -/
theorem Full_not_noData (S : ℕ) : ∀ t, Full S t → NoData t → False := by
  induction S with
  | zero =>
    intro t hf hn
    obtain ⟨v, rfl⟩ := hf
    simp only [NoData] at hn
    exact Option.some_ne_none v hn
  | succ S ih =>
    intro t hf hn
    rcases hf with ⟨v, rfl⟩ | ⟨l, r, rfl, hfl, _⟩
    · simp only [NoData] at hn
      exact Option.some_ne_none v hn
    · simp only [NoData] at hn
      exact ih l hfl hn.2.1

/-- A data-free tree satisfies every depth bound. -/
theorem DepthLE_of_noData (n : ℕ) : ∀ t, NoData t → DepthLE n t := by
  induction n with
  | zero =>
    intro t hn
    match t with
    | .node dat none => exact Or.inl rfl
    | .node dat (some (l, r)) =>
      simp only [NoData] at hn
      exact Or.inr ⟨l, r, rfl, hn.2.1, hn.2.2⟩
  | succ n ih =>
    intro t hn
    match t with
    | .node dat none => exact Or.inl rfl
    | .node dat (some (l, r)) =>
      simp only [NoData] at hn
      exact Or.inr ⟨l, r, rfl, ih l hn.2.1, ih r hn.2.2⟩

/-- Depth bounds are monotone. -/
theorem DepthLE_mono (m : ℕ) : ∀ n t, m ≤ n → DepthLE m t → DepthLE n t := by
  induction m with
  | zero =>
    intro n t _ h
    match t with
    | .node dat ch =>
      have h' : ch = none ∨ ∃ l r, ch = some (l, r) ∧ NoData l ∧ NoData r := h
      rcases h' with rfl | ⟨l, r, rfl, hl, hr⟩
      · cases n <;> exact Or.inl rfl
      · cases n with
        | zero => exact Or.inr ⟨l, r, rfl, hl, hr⟩
        | succ n =>
          exact Or.inr ⟨l, r, rfl, DepthLE_of_noData n l hl, DepthLE_of_noData n r hr⟩
  | succ m ih =>
    intro n t hmn h
    match n, hmn with
    | n + 1, hmn =>
      match t with
      | .node dat ch =>
        have h' : ch = none ∨ ∃ l r, ch = some (l, r) ∧ DepthLE m l ∧ DepthLE m r := h
        rcases h' with rfl | ⟨l, r, rfl, hl, hr⟩
        · exact Or.inl rfl
        · exact Or.inr ⟨l, r, rfl, ih n l (by omega) hl, ih n r (by omega) hr⟩

/-- The fresh node satisfies every depth bound. -/
theorem DepthLE_fresh (n : ℕ) : DepthLE n (.node none none) := by
  cases n <;> exact Or.inl rfl

/-- The fresh node is the empty left-packed tree at every scale. -/
theorem TreeInv_zero (S : ℕ) : TreeInv S 0 (.node none none) := by
  cases S <;> simp [TreeInv]

/-- At occupancy 2^S the invariant is exactly fullness. -/
theorem TreeInv_full_iff (S : ℕ) (t : HuffTree) :
    TreeInv S (2 ^ S) t ↔ Full S t := by
  cases S with
  | zero => simp [TreeInv]
  | succ S => simp [TreeInv, (Nat.two_pow_pos (S + 1)).ne']

/-- Inserting into a full subtree whose data respects the depth bound
fails and leaves the tree unchanged, as in the JS (a data node refuses,
and both children of a full internal node refuse). -/
theorem full_insert_fails (S : ℕ) : ∀ d t v, Full S t → DepthLE d t →
    insertCode t d v = (false, t) := by
  induction S with
  | zero =>
    intro d t v hf _
    obtain ⟨w, rfl⟩ := hf
    cases d <;> rfl
  | succ S ih =>
    intro d t v hf hd
    rcases hf with ⟨w, rfl⟩ | ⟨l, r, rfl, hfl, hfr⟩
    · cases d <;> rfl
    · cases d with
      | zero =>
        have h' : (some (l, r) : Option (HuffTree × HuffTree)) = none ∨
            ∃ l' r', (some (l, r) : Option (HuffTree × HuffTree)) = some (l', r') ∧
              NoData l' ∧ NoData r' := hd
        rcases h' with h' | ⟨l', r', he, hnl, hnr⟩
        · exact absurd h' (by simp)
        · obtain ⟨rfl, rfl⟩ : l = l' ∧ r = r' := by
            simp only [Option.some_inj, Prod.mk.injEq] at he
            exact ⟨he.1, he.2⟩
          exact absurd hnl (fun hn => Full_not_noData S _ hfl hn)
      | succ d =>
        have h' : (some (l, r) : Option (HuffTree × HuffTree)) = none ∨
            ∃ l' r', (some (l, r) : Option (HuffTree × HuffTree)) = some (l', r') ∧
              DepthLE d l' ∧ DepthLE d r' := hd
        rcases h' with h' | ⟨l', r', he, hdl, hdr⟩
        · exact absurd h' (by simp)
        · obtain ⟨rfl, rfl⟩ : l = l' ∧ r = r' := by
            simp only [Option.some_inj, Prod.mk.injEq] at he
            exact ⟨he.1, he.2⟩
          simp only [insertCode]
          rw [ih d _ v hfl hdl, ih d _ v hfr hdr]
          rfl

/-- A data leaf is full at every scale. -/
theorem Full_leaf (S v : ℕ) : Full S (.node (some v) none) := by
  cases S with
  | zero => exact ⟨v, rfl⟩
  | succ S => exact Or.inl ⟨v, rfl⟩

/-- Empty occupancy pins the tree to the fresh node. -/
theorem TreeInv_zero_eq (S : ℕ) (t : HuffTree) (h : TreeInv S 0 t) :
    t = .node none none := by
  cases S with
  | zero => simpa [TreeInv] using h
  | succ S => simpa [TreeInv] using h

/-- Destructor for the partial case of the shape invariant. -/
theorem TreeInv_destruct (S' a : ℕ) (t : HuffTree) (h : TreeInv (S' + 1) a t)
    (ha0 : a ≠ 0) (ha2 : a ≠ 2 ^ (S' + 1)) :
    ∃ l r, t = .node none (some (l, r)) ∧
      ((a ≤ 2 ^ S' ∧ TreeInv S' a l ∧ r = .node none none) ∨
        (2 ^ S' < a ∧ Full S' l ∧ TreeInv S' (a - 2 ^ S') r)) := by
  simp only [TreeInv, if_neg ha0, if_neg ha2] at h
  obtain ⟨l, r, he, hb⟩ := h
  by_cases hle : a ≤ 2 ^ S'
  · rw [if_pos hle] at hb
    exact ⟨l, r, he, Or.inl ⟨hle, hb⟩⟩
  · rw [if_neg hle] at hb
    exact ⟨l, r, he, Or.inr ⟨by omega, hb⟩⟩

/-- Constructor for the invariant when the growth stays in the left
half. -/
theorem TreeInv_construct_left (S' a : ℕ) (l r : HuffTree) (ha0 : a ≠ 0)
    (hle : a ≤ 2 ^ S') (hl : TreeInv S' a l) (hr : r = .node none none) :
    TreeInv (S' + 1) a (.node none (some (l, r))) := by
  have h1 : (0 : ℕ) < 2 ^ S' := Nat.two_pow_pos S'
  have h2 : 2 ^ (S' + 1) = 2 ^ S' * 2 := pow_succ 2 S'
  simp only [TreeInv, if_neg ha0, if_neg (by omega : a ≠ 2 ^ (S' + 1))]
  exact ⟨l, r, rfl, by rw [if_pos hle]; exact ⟨hl, hr⟩⟩

/-- Constructor for the invariant when the growth reaches the right
half. -/
theorem TreeInv_construct_right (S' a : ℕ) (l r : HuffTree)
    (hgt : 2 ^ S' < a) (ha : a ≤ 2 ^ (S' + 1)) (hl : Full S' l)
    (hr : TreeInv S' (a - 2 ^ S') r) :
    TreeInv (S' + 1) a (.node none (some (l, r))) := by
  have h2 : 2 ^ (S' + 1) = 2 ^ S' * 2 := pow_succ 2 S'
  by_cases ha2 : a = 2 ^ (S' + 1)
  · subst ha2
    refine (TreeInv_full_iff (S' + 1) _).mpr (Or.inr ⟨l, r, rfl, hl, ?_⟩)
    have hr2 : 2 ^ (S' + 1) - 2 ^ S' = 2 ^ S' := by omega
    rw [hr2] at hr
    exact (TreeInv_full_iff S' r).mp hr
  · simp only [TreeInv, if_neg (by omega : a ≠ 0), if_neg ha2]
    exact ⟨l, r, rfl, by rw [if_neg (by omega : ¬ a ≤ 2 ^ S')]; exact ⟨hl, hr⟩⟩

/-- The depth bound of an internal node gives the bounds of its
children. -/
theorem DepthLE_children (d : ℕ) (dat : Option ℕ) (l r : HuffTree)
    (h : DepthLE (d + 1) (.node dat (some (l, r)))) : DepthLE d l ∧ DepthLE d r := by
  have h' : (some (l, r) : Option (HuffTree × HuffTree)) = none ∨
      ∃ l' r', (some (l, r) : Option (HuffTree × HuffTree)) = some (l', r') ∧
        DepthLE d l' ∧ DepthLE d r' := h
  rcases h' with h' | ⟨l', r', he, h1, h2⟩
  · exact absurd h' (by simp)
  · obtain ⟨rfl, rfl⟩ : l = l' ∧ r = r' := by
      simp only [Option.some_inj, Prod.mk.injEq] at he
      exact ⟨he.1, he.2⟩
    exact ⟨h1, h2⟩

/-- Depth bounds assemble at an internal node. -/
theorem DepthLE_node (d : ℕ) (dat : Option ℕ) (l r : HuffTree)
    (hl : DepthLE d l) (hr : DepthLE d r) :
    DepthLE (d + 1) (.node dat (some (l, r))) :=
  Or.inr ⟨l, r, rfl, hl, hr⟩

/-- Following a 0 goes left. -/
theorem pathData_cons_zero (dat : Option ℕ) (l r : HuffTree) (q : List ℕ) :
    pathData (.node dat (some (l, r))) (0 :: q) = pathData l q := rfl

/-- Following a 1 goes right. -/
theorem pathData_cons_one (dat : Option ℕ) (l r : HuffTree) (q : List ℕ) :
    pathData (.node dat (some (l, r))) (1 :: q) = pathData r q := by
  simp [pathData]

/-- A non-bit head leaves the tree. -/
theorem pathData_cons_bad (dat : Option ℕ) (l r : HuffTree) (b : ℕ) (q : List ℕ)
    (hb0 : b ≠ 0) (hb1 : b ≠ 1) :
    pathData (.node dat (some (l, r))) (b :: q) = none := by
  simp [pathData, hb0, hb1]

/-- The bits of a number below 2^d, read at length d+1, start with 0. -/
theorem natBits_succ_lt (d m : ℕ) (hm : m < 2 ^ d) :
    natBits (d + 1) m = 0 :: natBits d m := by
  simp only [natBits]
  congr 1
  · rw [Nat.div_eq_of_lt hm]
  · rw [Nat.mod_eq_of_lt hm]

/-- The bits of a number in the upper half, read at length d+1, start
with 1. -/
theorem natBits_succ_ge (d m : ℕ) (h1 : 2 ^ d ≤ m) (h2 : m < 2 ^ (d + 1)) :
    natBits (d + 1) m = 1 :: natBits d (m - 2 ^ d) := by
  have hd2 : 2 ^ (d + 1) = 2 ^ d * 2 := pow_succ 2 d
  simp only [natBits]
  congr 1
  · have hq : m / 2 ^ d = 1 :=
      Nat.div_eq_of_lt_le (by omega) (by omega)
    rw [hq]
  · have : m % 2 ^ d = m - 2 ^ d := by
      have := Nat.two_pow_pos d
      rw [Nat.mod_eq_sub_mod h1, Nat.mod_eq_of_lt (by omega)]
    rw [this]

/-- One insertion into a left-packed tree: when the occupancy a is a
multiple of the code width 2^(S-d) and one more width fits in the
2^S slots, the JS insertion succeeds, yields the left-packed tree of
occupancy a + 2^(S-d), keeps the depth bound, stores the value at the
bit path of slot a / 2^(S-d), and changes no other path. -/
theorem insertCode_spec (d : ℕ) : ∀ S a t v, TreeInv S a t → DepthLE d t →
    d ≤ S → 2 ^ (S - d) ∣ a → a + 2 ^ (S - d) ≤ 2 ^ S →
    (insertCode t d v).1 = true ∧
    TreeInv S (a + 2 ^ (S - d)) (insertCode t d v).2 ∧
    DepthLE d (insertCode t d v).2 ∧
    pathData (insertCode t d v).2 (natBits d (a / 2 ^ (S - d))) = some v ∧
    ∀ q, q ≠ natBits d (a / 2 ^ (S - d)) →
      pathData (insertCode t d v).2 q = pathData t q := by
  induction d with
  | zero =>
    intro S a t v hinv hdep hdS hdvd hroom
    simp only [Nat.sub_zero] at hdvd hroom ⊢
    have hw : (0 : ℕ) < 2 ^ S := Nat.two_pow_pos _
    have ha : a = 0 := by omega
    subst ha
    have ht : t = .node none none := TreeInv_zero_eq S t hinv
    subst ht
    refine ⟨rfl, ?_, Or.inl rfl, rfl, ?_⟩
    · simpa using (TreeInv_full_iff S _).mpr (Full_leaf S v)
    · intro q hq
      rcases q with _ | ⟨b, q'⟩
      · exact absurd rfl hq
      · rfl
  | succ d ih =>
    intro S a t v hinv hdep hdS hdvd hroom
    obtain ⟨S', rfl⟩ : ∃ S', S = S' + 1 := ⟨S - 1, by omega⟩
    rw [show S' + 1 - (d + 1) = S' - d from by omega] at hdvd hroom ⊢
    obtain ⟨m, rfl⟩ := hdvd
    have hw : (0 : ℕ) < 2 ^ (S' - d) := Nat.two_pow_pos _
    have hdS' : d ≤ S' := by omega
    have hSd : 2 ^ S' = 2 ^ (S' - d) * 2 ^ d := by rw [← pow_add]; congr 1; omega
    have hS1 : 2 ^ (S' + 1) = 2 ^ S' * 2 := pow_succ 2 S'
    rw [Nat.mul_div_cancel_left m hw]
    have hd2 : (0 : ℕ) < 2 ^ d := Nat.two_pow_pos d
    have ham : m < 2 ^ (d + 1) := by
      have h1 : 2 ^ (S' + 1) = 2 ^ (S' - d) * 2 ^ (d + 1) := by
        rw [← pow_add]; congr 1; omega
      have hroom' := hroom
      rw [h1] at hroom'
      have h2 : 2 ^ (S' - d) * (m + 1) ≤ 2 ^ (S' - d) * 2 ^ (d + 1) := by
        rw [Nat.mul_add, Nat.mul_one]; exact hroom'
      have := Nat.le_of_mul_le_mul_left h2 hw
      omega
    by_cases hm0 : m = 0
    · subst hm0
      simp only [Nat.mul_zero, Nat.zero_add] at hinv ⊢
      have ht : t = .node none none := TreeInv_zero_eq _ t hinv
      subst ht
      have hih := ih S' 0 (.node none none) v (TreeInv_zero S') (DepthLE_fresh d)
        hdS' (dvd_zero _)
        (by rw [hSd]; have := Nat.le_mul_of_pos_right (2 ^ (S' - d)) hd2; omega)
      simp only [Nat.zero_div, Nat.zero_add] at hih
      have hres : insertCode (HuffTree.node none none) (d + 1) v =
          ((insertCode (.node none none) d v).1,
            .node none (some ((insertCode (.node none none) d v).2,
              .node none none))) := rfl
      have hres1 : (insertCode (HuffTree.node none none) (d + 1) v).1 = true := by
        rw [hres]; exact hih.1
      have hres2 : (insertCode (HuffTree.node none none) (d + 1) v).2 =
          .node none (some ((insertCode (.node none none) d v).2,
            .node none none)) := by
        rw [hres]
      refine ⟨hres1, ?_, ?_, ?_, ?_⟩
      · rw [hres2]
        exact TreeInv_construct_left S' _ _ _ hw.ne'
          (by rw [hSd]; have := Nat.le_mul_of_pos_right (2 ^ (S' - d)) hd2; omega)
          hih.2.1 rfl
      · rw [hres2]
        exact DepthLE_node d none _ _ hih.2.2.1 (DepthLE_fresh d)
      · rw [hres2, natBits_succ_lt d 0 hd2, pathData_cons_zero]
        exact hih.2.2.2.1
      · intro q hq
        rw [natBits_succ_lt d 0 hd2] at hq
        rw [hres2]
        rcases q with _ | ⟨b, q'⟩
        · rfl
        · by_cases hb0 : b = 0
          · subst hb0
            rw [pathData_cons_zero,
              hih.2.2.2.2 q' (fun he => hq (by rw [he])),
              pathData_fresh, pathData_fresh]
          · by_cases hb1 : b = 1
            · subst hb1
              rw [pathData_cons_one, pathData_fresh, pathData_fresh]
            · rw [pathData_cons_bad _ _ _ _ _ hb0 hb1, pathData_fresh]
    · have ha0 : 2 ^ (S' - d) * m ≠ 0 := Nat.mul_ne_zero hw.ne' hm0
      have ha2 : 2 ^ (S' - d) * m ≠ 2 ^ (S' + 1) := by omega
      obtain ⟨l, r, rfl, hcases⟩ := TreeInv_destruct S' _ t hinv ha0 ha2
      obtain ⟨hdl, hdr⟩ := DepthLE_children d none l r hdep
      rcases hcases with ⟨hle, hInvl, rfl⟩ | ⟨hgt, hFull, hInvr⟩
      · by_cases hfit : 2 ^ (S' - d) * m + 2 ^ (S' - d) ≤ 2 ^ S'
        · -- still fits in the left half: insert into the left child
          have hih := ih S' (2 ^ (S' - d) * m) l v hInvl hdl hdS' ⟨m, rfl⟩ hfit
          rw [Nat.mul_div_cancel_left m hw] at hih
          have hmd : m < 2 ^ d := by
            have hfit' := hfit
            rw [hSd] at hfit'
            have h2 : 2 ^ (S' - d) * (m + 1) ≤ 2 ^ (S' - d) * 2 ^ d := by
              rw [Nat.mul_add, Nat.mul_one]; exact hfit'
            have := Nat.le_of_mul_le_mul_left h2 hw
            omega
          have hunf : insertCode (HuffTree.node none (some (l, .node none none)))
              (d + 1) v =
              (if (insertCode l d v).1 = true then
                (true, .node none (some ((insertCode l d v).2, .node none none)))
              else ((insertCode (.node none none) d v).1,
                .node none (some ((insertCode l d v).2,
                  (insertCode (.node none none) d v).2)))) := rfl
          have hres2 : (insertCode (HuffTree.node none (some (l, .node none none)))
              (d + 1) v).2 =
              .node none (some ((insertCode l d v).2, .node none none)) := by
            rw [hunf, if_pos hih.1]
          have hres1 : (insertCode (HuffTree.node none (some (l, .node none none)))
              (d + 1) v).1 = true := by
            rw [hunf, if_pos hih.1]
          refine ⟨hres1, ?_, ?_, ?_, ?_⟩
          · rw [hres2]
            exact TreeInv_construct_left S' _ _ _ (by omega) hfit hih.2.1 rfl
          · rw [hres2]
            exact DepthLE_node d none _ _ hih.2.2.1 (DepthLE_fresh d)
          · rw [hres2, natBits_succ_lt d m hmd, pathData_cons_zero]
            exact hih.2.2.2.1
          · intro q hq
            rw [natBits_succ_lt d m hmd] at hq
            rw [hres2]
            rcases q with _ | ⟨b, q'⟩
            · rfl
            · by_cases hb0 : b = 0
              · subst hb0
                rw [pathData_cons_zero, pathData_cons_zero]
                exact hih.2.2.2.2 q' (fun he => hq (by rw [he]))
              · by_cases hb1 : b = 1
                · subst hb1
                  rw [pathData_cons_one, pathData_cons_one]
                · rw [pathData_cons_bad _ _ _ _ _ hb0 hb1,
                    pathData_cons_bad _ _ _ _ _ hb0 hb1]
        · -- left half exactly full: the left insert fails, go right
          have hmge : 2 ^ d ≤ m := by
            by_contra hc
            push_neg at hc
            exact hfit (by
              rw [hSd]
              have h2 : 2 ^ (S' - d) * (m + 1) ≤ 2 ^ (S' - d) * 2 ^ d :=
                Nat.mul_le_mul_left _ (by omega)
              rw [Nat.mul_add, Nat.mul_one] at h2
              exact h2)
          have hmle : m ≤ 2 ^ d := by
            have hle' := hle
            rw [hSd] at hle'
            exact Nat.le_of_mul_le_mul_left hle' hw
          have hmeq : m = 2 ^ d := by omega
          subst hmeq
          have haeq : 2 ^ (S' - d) * 2 ^ d = 2 ^ S' := hSd.symm
          have hFl : Full S' l := (TreeInv_full_iff S' l).mp (by rw [← haeq]; exact hInvl)
          have hfail := full_insert_fails S' d l v hFl hdl
          have hih := ih S' 0 (.node none none) v (TreeInv_zero S') (DepthLE_fresh d)
            hdS' (dvd_zero _)
            (by rw [hSd]; have := Nat.le_mul_of_pos_right (2 ^ (S' - d)) hd2; omega)
          simp only [Nat.zero_div, Nat.zero_add] at hih
          have hunf : insertCode (HuffTree.node none (some (l, .node none none)))
              (d + 1) v =
              (if (insertCode l d v).1 = true then
                (true, .node none (some ((insertCode l d v).2, .node none none)))
              else ((insertCode (.node none none) d v).1,
                .node none (some ((insertCode l d v).2,
                  (insertCode (.node none none) d v).2)))) := rfl
          have hres2 : (insertCode (HuffTree.node none (some (l, .node none none)))
              (d + 1) v).2 =
              .node none (some (l, (insertCode (.node none none) d v).2)) := by
            rw [hunf, hfail]
            simp
          have hres1 : (insertCode (HuffTree.node none (some (l, .node none none)))
              (d + 1) v).1 = true := by
            rw [hunf, hfail]
            simpa using hih.1
          refine ⟨hres1, ?_, ?_, ?_, ?_⟩
          · rw [hres2]
            refine TreeInv_construct_right S' _ _ _ (by rw [hSd]; omega)
              hroom hFl ?_
            have he : 2 ^ (S' - d) * 2 ^ d + 2 ^ (S' - d) - 2 ^ S' =
                2 ^ (S' - d) := by omega
            rw [he]
            exact hih.2.1
          · rw [hres2]
            exact DepthLE_node d none _ _ hdl hih.2.2.1
          · rw [hres2, natBits_succ_ge d (2 ^ d) le_rfl (by rw [pow_succ]; omega),
              Nat.sub_self, pathData_cons_one]
            exact hih.2.2.2.1
          · intro q hq
            rw [natBits_succ_ge d (2 ^ d) le_rfl (by rw [pow_succ]; omega),
              Nat.sub_self] at hq
            rw [hres2]
            rcases q with _ | ⟨b, q'⟩
            · rfl
            · by_cases hb0 : b = 0
              · subst hb0
                rw [pathData_cons_zero, pathData_cons_zero]
              · by_cases hb1 : b = 1
                · subst hb1
                  rw [pathData_cons_one, pathData_cons_one,
                    hih.2.2.2.2 q' (fun he => hq (by rw [he])), pathData_fresh]
                · rw [pathData_cons_bad _ _ _ _ _ hb0 hb1,
                    pathData_cons_bad _ _ _ _ _ hb0 hb1]
      · -- the left subtree is full and part of the right is taken
        have hmgt : 2 ^ d < m := by
          have hgt' := hgt
          rw [hSd] at hgt'
          exact Nat.lt_of_mul_lt_mul_left hgt'
        have hfail := full_insert_fails S' d l v hFull hdl
        obtain ⟨k, hk⟩ : ∃ k, m = 2 ^ d + k := ⟨m - 2 ^ d, by omega⟩
        subst hk
        have hsub : 2 ^ (S' - d) * (2 ^ d + k) - 2 ^ S' = 2 ^ (S' - d) * k := by
          rw [Nat.mul_add, hSd]
          omega
        have hdvdr : 2 ^ (S' - d) ∣ 2 ^ (S' - d) * (2 ^ d + k) - 2 ^ S' := by
          rw [hsub]; exact ⟨k, rfl⟩
        have hroomr : (2 ^ (S' - d) * (2 ^ d + k) - 2 ^ S') + 2 ^ (S' - d) ≤
            2 ^ S' := by
          rw [hsub]
          have h3 : 2 ^ (S' - d) * (2 ^ d + k) + 2 ^ (S' - d) ≤ 2 ^ (S' + 1) := hroom
          rw [Nat.mul_add] at h3
          omega
        have hih := ih S' _ r v hInvr hdr hdS' hdvdr hroomr
        have hq2 : (2 ^ (S' - d) * (2 ^ d + k) - 2 ^ S') / 2 ^ (S' - d) = k := by
          rw [hsub, Nat.mul_div_cancel_left k hw]
        rw [hq2] at hih
        have hunf : insertCode (HuffTree.node none (some (l, r))) (d + 1) v =
            (if (insertCode l d v).1 = true then
              (true, .node none (some ((insertCode l d v).2, r)))
            else ((insertCode r d v).1,
              .node none (some ((insertCode l d v).2, (insertCode r d v).2)))) := rfl
        have hres2 : (insertCode (HuffTree.node none (some (l, r))) (d + 1) v).2 =
            .node none (some (l, (insertCode r d v).2)) := by
          rw [hunf, hfail]
          simp
        have hres1 : (insertCode (HuffTree.node none (some (l, r))) (d + 1) v).1 =
            true := by
          rw [hunf, hfail]
          simpa using hih.1
        have hbits : natBits (d + 1) (2 ^ d + k) = 1 :: natBits d k := by
          have h1 : 2 ^ d + k - 2 ^ d = k := by omega
          rw [natBits_succ_ge d _ (by omega) ham, h1]
        refine ⟨hres1, ?_, ?_, ?_, ?_⟩
        · rw [hres2]
          refine TreeInv_construct_right S' _ _ _ (by omega) hroom hFull ?_
          have he : 2 ^ (S' - d) * (2 ^ d + k) + 2 ^ (S' - d) - 2 ^ S' =
              (2 ^ (S' - d) * (2 ^ d + k) - 2 ^ S') + 2 ^ (S' - d) := by
            rw [hSd] at hgt ⊢
            omega
          rw [he]
          exact hih.2.1
        · rw [hres2]
          exact DepthLE_node d none _ _ hdl hih.2.2.1
        · rw [hres2, hbits, pathData_cons_one]
          exact hih.2.2.2.1
        · intro q hq
          rw [hbits] at hq
          rw [hres2]
          rcases q with _ | ⟨b, q'⟩
          · rfl
          · by_cases hb0 : b = 0
            · subst hb0
              rw [pathData_cons_zero, pathData_cons_zero]
            · by_cases hb1 : b = 1
              · subst hb1
                rw [pathData_cons_one, pathData_cons_one]
                exact hih.2.2.2.2 q' (fun he => hq (by rw [he]))
              · rw [pathData_cons_bad _ _ _ _ _ hb0 hb1,
                  pathData_cons_bad _ _ _ _ _ hb0 hb1]

/-- Inserting a sorted entry list into a left-packed tree: existing data
survives, every entry ends at the bit path of its claimed slot, and no
other data appears. -/
theorem insertAll_spec (es : List (ℕ × ℕ)) : ∀ lb a t,
    1 ≤ lb → TreeInv 16 a t → DepthLE lb t → DataBelow t a →
    EntriesOK lb es → 2 ^ (16 - lb) ∣ a → a + weightSum es ≤ 2 ^ 16 →
    (∀ q u, pathData t q = some u → pathData (insertAll t es) q = some u) ∧
    (∀ q u, PlacedAt es a q u → pathData (insertAll t es) q = some u) ∧
    (∀ q u, pathData (insertAll t es) q = some u →
      pathData t q = some u ∨ PlacedAt es a q u) := by
  induction es with
  | nil =>
    intro lb a t _ _ _ _ _ _ _
    exact ⟨fun q u h => h, fun q u h => h.elim, fun q u h => Or.inl h⟩
  | cons e rest ihe =>
    obtain ⟨l0, v0⟩ := e
    intro lb a t hlb hinv hdep hbelow hok hdvd hroom
    have hok' : lb ≤ l0 ∧ l0 ≤ 16 ∧ EntriesOK l0 rest := hok
    obtain ⟨hlbl, hl16, hokrest⟩ := hok'
    have hws : weightSum ((l0, v0) :: rest) = 2 ^ (16 - l0) + weightSum rest := rfl
    have hw0 : (0 : ℕ) < 2 ^ (16 - l0) := Nat.two_pow_pos _
    have hdvd0 : 2 ^ (16 - l0) ∣ a :=
      dvd_trans (pow_dvd_pow 2 (by omega)) hdvd
    have hroom0 : a + 2 ^ (16 - l0) ≤ 2 ^ 16 := by omega
    have hdep0 : DepthLE l0 t := DepthLE_mono lb l0 t hlbl hdep
    have hspec := insertCode_spec l0 16 a t v0 hinv hdep0 (by omega) hdvd0 hroom0
    obtain ⟨m, hm⟩ := hdvd0
    have h16 : (2 : ℕ) ^ 16 = 2 ^ (16 - l0) * 2 ^ l0 := by
      rw [← pow_add]; congr 1; omega
    have hmlt : m < 2 ^ l0 := by
      rw [hm, h16] at hroom0
      have h2 : 2 ^ (16 - l0) * (m + 1) ≤ 2 ^ (16 - l0) * 2 ^ l0 := by
        rw [Nat.mul_add, Nat.mul_one]; exact hroom0
      have := Nat.le_of_mul_le_mul_left h2 hw0
      omega
    have hdiv : a / 2 ^ (16 - l0) = m := by
      rw [hm]; exact Nat.mul_div_cancel_left m hw0
    rw [hdiv] at hspec
    have hstep : insertAll t ((l0, v0) :: rest) = insertAll (insertCode t l0 v0).2 rest :=
      rfl
    have hbelow' : DataBelow (insertCode t l0 v0).2 (a + 2 ^ (16 - l0)) := by
      intro q u hq
      by_cases hqp : q = natBits l0 m
      · subst hqp
        rw [natBits_length, bitsVal_natBits l0 m hmlt, hm,
          Nat.mul_comm (2 ^ (16 - l0)) m]
      · have h3 := hbelow q u (by rw [← hspec.2.2.2.2 q hqp]; exact hq)
        omega
    have hih := ihe l0 (a + 2 ^ (16 - l0)) (insertCode t l0 v0).2 (by omega)
      hspec.2.1 hspec.2.2.1 hbelow' hokrest (dvd_add ⟨m, hm⟩ dvd_rfl) (by omega)
    refine ⟨?_, ?_, ?_⟩
    · intro q u hq
      have hne : q ≠ natBits l0 m := by
        intro he
        have hb := hbelow q u hq
        rw [he, natBits_length, bitsVal_natBits l0 m hmlt, hm,
          Nat.mul_comm (2 ^ (16 - l0)) m] at hb
        omega
      rw [hstep]
      exact hih.1 q u (by rw [hspec.2.2.2.2 q hne]; exact hq)
    · intro q u hpl
      have hpl' : (q = natBits l0 (a / 2 ^ (16 - l0)) ∧ u = v0) ∨
          PlacedAt rest (a + 2 ^ (16 - l0)) q u := hpl
      rw [hdiv] at hpl'
      rcases hpl' with ⟨rfl, rfl⟩ | hpl'
      · rw [hstep]
        exact hih.1 _ _ hspec.2.2.2.1
      · rw [hstep]
        exact hih.2.1 q u hpl'
    · intro q u hq
      rw [hstep] at hq
      rcases hih.2.2 q u hq with hq' | hq'
      · by_cases hqp : q = natBits l0 m
        · subst hqp
          have hu : u = v0 := by
            have := hspec.2.2.2.1
            rw [this] at hq'
            exact (Option.some_inj.mp hq').symm
          subst hu
          refine Or.inr (Or.inl ⟨?_, rfl⟩)
          rw [hdiv]
        · rw [hspec.2.2.2.2 q hqp] at hq'
          exact Or.inl hq'
      · exact Or.inr (Or.inr hq')

/-- codePos over a cons. -/
theorem codePos_cons (s : ℕ) (rest : List ℕ) (k : ℕ) :
    codePos (s :: rest) (k + 1) = 2 ^ (16 - s) + codePos rest k := by
  simp [codePos]

/-- The canonical code generator: emitted code k, left-aligned to 16
bits, sits exactly at the sum of the widths of the earlier codes,
offset by the incoming code left-aligned at the incoming si. -/
theorem genCodesGo_spec : ∀ fuel sizes code si,
    List.Pairwise (· ≤ ·) sizes → (∀ x ∈ sizes, si ≤ x ∧ x ≤ 16) →
    sizes.length + 17 ≤ fuel + si →
    (genCodesGo fuel sizes code si).length = sizes.length ∧
    ∀ k, k < sizes.length →
      (genCodesGo fuel sizes code si).getD k 0 * 2 ^ (16 - sizes.getD k 0) =
        code * 2 ^ (16 - si) + codePos sizes k := by
  intro fuel
  induction fuel with
  | zero =>
    intro sizes code si hpw hbd hfuel
    match sizes, hbd with
    | [], _ => exact ⟨rfl, fun k hk => absurd hk (by simp)⟩
    | s :: rest, hbd =>
      have h1 := hbd s (by simp)
      have h2 : (s :: rest).length = rest.length + 1 := rfl
      omega
  | succ fuel ih =>
    intro sizes code si hpw hbd hfuel
    match sizes with
    | [] => exact ⟨rfl, fun k hk => absurd hk (by simp)⟩
    | s :: rest =>
      obtain ⟨hall, hpw'⟩ := List.pairwise_cons.mp hpw
      have hs := hbd s (by simp)
      by_cases hssi : s = si
      · subst hssi
        have hgen : genCodesGo (fuel + 1) (s :: rest) code s =
            code :: genCodesGo fuel rest (code + 1) s := by
          simp [genCodesGo]
        have hihr := ih rest (code + 1) s hpw'
          (fun x hx => ⟨hall x hx, (hbd x (by simp [hx])).2⟩)
          (by simp only [List.length_cons] at hfuel; omega)
        rw [hgen]
        refine ⟨by simp [hihr.1], ?_⟩
        intro k hk
        match k with
        | 0 => simp [codePos]
        | k + 1 =>
          have hk' : k < rest.length := by
            simp only [List.length_cons] at hk; omega
          have h3 := hihr.2 k hk'
          have h4 : (code :: genCodesGo fuel rest (code + 1) s).getD (k + 1) 0 =
              (genCodesGo fuel rest (code + 1) s).getD k 0 := rfl
          have h5 : (s :: rest).getD (k + 1) 0 = rest.getD k 0 := rfl
          rw [h4, h5, h3, codePos_cons, Nat.add_mul, Nat.one_mul]
          omega
      · have hlt : si < s := by
          have := hs.1
          omega
        have hgen : genCodesGo (fuel + 1) (s :: rest) code si =
            genCodesGo fuel (s :: rest) (code * 2) (si + 1) := by
          simp [genCodesGo, hssi]
        have hbd' : ∀ x ∈ s :: rest, si + 1 ≤ x ∧ x ≤ 16 := by
          intro x hx
          rcases List.mem_cons.mp hx with rfl | hx'
          · exact ⟨by omega, hs.2⟩
          · exact ⟨by have := hall x hx'; omega, (hbd x hx).2⟩
        have hihr := ih (s :: rest) (code * 2) (si + 1) hpw hbd' (by omega)
        rw [hgen]
        refine ⟨hihr.1, ?_⟩
        intro k hk
        have h3 := hihr.2 k hk
        have hsi16 : si < 16 := by omega
        have hpow : 2 ^ (16 - si) = 2 * 2 ^ (16 - (si + 1)) := by
          rw [← pow_succ']
          congr 1
          omega
        rw [h3, hpow]
        ring

/-- Every generated size lies in [i0, i0 + n). -/
theorem huffsizeFrom_mem (bits : ℕ → ℕ) : ∀ n i0 x, x ∈ huffsizeFrom bits n i0 →
    i0 ≤ x ∧ x < i0 + n := by
  intro n
  induction n with
  | zero => intro i0 x hx; exact absurd hx (List.not_mem_nil x)
  | succ n ih =>
    intro i0 x hx
    rcases List.mem_append.mp hx with hx' | hx'
    · have := List.eq_of_mem_replicate hx'
      omega
    · have := ih (i0 + 1) x hx'
      omega

/-- The generated sizes are nondecreasing. -/
theorem huffsizeFrom_pairwise (bits : ℕ → ℕ) : ∀ n i0,
    List.Pairwise (· ≤ ·) (huffsizeFrom bits n i0) := by
  intro n
  induction n with
  | zero => intro i0; exact List.Pairwise.nil
  | succ n ih =>
    intro i0
    refine List.pairwise_append.mpr ⟨?_, ih (i0 + 1), ?_⟩
    · exact List.pairwise_replicate.mpr (Or.inr le_rfl)
    · intro x hx y hy
      have h1 := List.eq_of_mem_replicate hx
      have h2 := (huffsizeFrom_mem bits n (i0 + 1) y hy).1
      omega

/-- The generated sizes count sumBits entries. -/
theorem huffsizeFrom_length (bits : ℕ → ℕ) : ∀ n i0,
    (huffsizeFrom bits n i0).length = sumBits bits i0 n := by
  intro n
  induction n with
  | zero => intro i0; rfl
  | succ n ih =>
    intro i0
    simp only [huffsizeFrom, List.length_append, List.length_replicate, ih (i0 + 1)]
    rfl

/-- Indices inside the group of length i0 + j read off that length. -/
theorem huffsizeFrom_getD (bits : ℕ → ℕ) : ∀ n i0 j k, j < n →
    sumBits bits i0 j ≤ k → k < sumBits bits i0 j + bits (i0 + j) →
    (huffsizeFrom bits n i0).getD k 0 = i0 + j := by
  intro n
  induction n with
  | zero => intro i0 j k hj _ _; omega
  | succ n ih =>
    intro i0 j k hj hlo hhi
    match j with
    | 0 =>
      have hk : k < bits i0 := by
        have h0 : sumBits bits i0 0 = 0 := rfl
        have h00 : i0 + 0 = i0 := rfl
        rw [h00] at hhi
        omega
      rw [huffsizeFrom, List.getD_append _ _ _ _ (by simpa using hk),
        List.getD_eq_getElem?_getD, List.getElem?_replicate, if_pos hk]
      rfl
    | j + 1 =>
      have hsum : sumBits bits i0 (j + 1) = bits i0 + sumBits bits (i0 + 1) j := rfl
      have hXX : bits (i0 + (j + 1)) = bits ((i0 + 1) + j) := by
        congr 1
        omega
      have hkge : bits i0 ≤ k := by omega
      rw [huffsizeFrom, List.getD_append_right _ _ _ _ (by simpa using hkge)]
      have h2 := ih (i0 + 1) j (k - (List.replicate (bits i0) i0).length)
        (by omega)
        (by simp only [List.length_replicate]; omega)
        (by simp only [List.length_replicate]; rw [← hXX]; omega)
      rw [h2]
      omega

/-- Every index belongs to the group of its own length. -/
theorem huffsizeFrom_index (bits : ℕ → ℕ) : ∀ n i0 k,
    k < (huffsizeFrom bits n i0).length →
    ∃ j, j < n ∧ (huffsizeFrom bits n i0).getD k 0 = i0 + j ∧
      sumBits bits i0 j ≤ k ∧ k < sumBits bits i0 j + bits (i0 + j) := by
  intro n
  induction n with
  | zero => intro i0 k hk; exact absurd hk (by simp [huffsizeFrom])
  | succ n ih =>
    intro i0 k hk
    by_cases hkb : k < bits i0
    · refine ⟨0, by omega, ?_, by simp [sumBits], by simp [sumBits]; omega⟩
      rw [huffsizeFrom, List.getD_append _ _ _ _ (by simpa using hkb),
        List.getD_eq_getElem?_getD, List.getElem?_replicate, if_pos hkb]
      rfl
    · push_neg at hkb
      have hk' : k - bits i0 < (huffsizeFrom bits n (i0 + 1)).length := by
        simp only [huffsizeFrom, List.length_append, List.length_replicate] at hk
        omega
      obtain ⟨j, hj, hgd, hlo, hhi⟩ := ih (i0 + 1) (k - bits i0) hk'
      refine ⟨j + 1, by omega, ?_, ?_, ?_⟩
      · rw [huffsizeFrom, List.getD_append_right _ _ _ _ (by simpa using hkb)]
        simp only [List.length_replicate]
        rw [hgd]
        omega
      · have hsum : sumBits bits i0 (j + 1) = bits i0 + sumBits bits (i0 + 1) j := rfl
        omega
      · have hsum : sumBits bits i0 (j + 1) = bits i0 + sumBits bits (i0 + 1) j := rfl
        have : i0 + (j + 1) = (i0 + 1) + j := by omega
        rw [this]
        omega

/-- The table-building loop: for a length i0 + jdx among the n
processed, maxcode is -1 where the histogram is empty, and otherwise
valptr/mincode/maxcode point at the group of that length inside
huffcode, offset by the j codes already consumed. -/
theorem buildTabsGo_spec (bits : ℕ → ℕ) (hc : List ℕ) : ∀ n i0 j jdx, jdx < n →
    (bits (i0 + jdx) = 0 → (buildTabsGo bits hc n i0 j).1 (i0 + jdx) = -1) ∧
    (bits (i0 + jdx) ≠ 0 →
      (buildTabsGo bits hc n i0 j).1 (i0 + jdx) =
        ((hc.getD (j + sumBits bits i0 jdx + bits (i0 + jdx) - 1) 0 : ℕ) : ℤ) ∧
      (buildTabsGo bits hc n i0 j).2.1 (i0 + jdx) =
        hc.getD (j + sumBits bits i0 jdx) 0 ∧
      (buildTabsGo bits hc n i0 j).2.2 (i0 + jdx) = j + sumBits bits i0 jdx) := by
  intro n
  induction n with
  | zero => intro i0 j jdx h; omega
  | succ n ih =>
    intro i0 j jdx hjdx
    have hunf : buildTabsGo bits hc (n + 1) i0 j =
        (if bits i0 = 0 then
          (Function.update (buildTabsGo bits hc n (i0 + 1) j).1 i0 (-1),
            (buildTabsGo bits hc n (i0 + 1) j).2.1,
            (buildTabsGo bits hc n (i0 + 1) j).2.2)
        else
          (Function.update (buildTabsGo bits hc n (i0 + 1) (j + bits i0)).1 i0
              ((hc.getD (j + bits i0 - 1) 0 : ℕ) : ℤ),
            Function.update (buildTabsGo bits hc n (i0 + 1) (j + bits i0)).2.1 i0
              (hc.getD j 0),
            Function.update (buildTabsGo bits hc n (i0 + 1) (j + bits i0)).2.2 i0
              j)) := rfl
    match jdx with
    | 0 =>
      have hs0 : sumBits bits i0 0 = 0 := rfl
      simp only [Nat.add_zero, hs0, hunf]
      by_cases hb : bits i0 = 0
      · rw [if_pos hb]
        refine ⟨fun _ => ?_, fun hne => absurd hb hne⟩
        exact Function.update_same ..
      · rw [if_neg hb]
        refine ⟨fun he => absurd he hb, fun _ => ⟨?_, ?_, ?_⟩⟩
        · exact Function.update_same ..
        · exact Function.update_same ..
        · exact Function.update_same ..
    | jdx + 1 =>
      have hne : i0 + (jdx + 1) ≠ i0 := by omega
      have hstep : i0 + (jdx + 1) = (i0 + 1) + jdx := by omega
      have hsum : sumBits bits i0 (jdx + 1) = bits i0 + sumBits bits (i0 + 1) jdx :=
        rfl
      rw [hunf]
      by_cases hb : bits i0 = 0
      · rw [if_pos hb]
        dsimp only
        have hih := ih (i0 + 1) j jdx (by omega)
        constructor
        · intro hz
          rw [Function.update_noteq hne, hstep]
          rw [hstep] at hz
          exact hih.1 hz
        · intro hnz
          rw [hstep] at hnz
          have hih2 := hih.2 hnz
          refine ⟨?_, ?_, ?_⟩
          · rw [Function.update_noteq hne, hstep, hsum, hb, Nat.zero_add]
            exact hih2.1
          · rw [hstep, hsum, hb, Nat.zero_add]
            exact hih2.2.1
          · rw [hstep, hsum, hb, Nat.zero_add]
            exact hih2.2.2
      · rw [if_neg hb]
        dsimp only
        have hih := ih (i0 + 1) (j + bits i0) jdx (by omega)
        constructor
        · intro hz
          rw [Function.update_noteq hne, hstep]
          rw [hstep] at hz
          exact hih.1 hz
        · intro hnz
          rw [hstep] at hnz
          have hih2 := hih.2 hnz
          refine ⟨?_, ?_, ?_⟩
          · rw [Function.update_noteq hne, hstep, hsum, ← Nat.add_assoc]
            exact hih2.1
          · rw [Function.update_noteq hne, hstep, hsum, ← Nat.add_assoc]
            exact hih2.2.1
          · rw [Function.update_noteq hne, hstep, hsum, ← Nat.add_assoc]
            exact hih2.2.2

/-- sumBits counted one longer, from the other end. -/
theorem sumBits_snoc (bits : ℕ → ℕ) : ∀ n i0,
    sumBits bits i0 (n + 1) = sumBits bits i0 n + bits (i0 + n) := by
  intro n
  induction n with
  | zero =>
    intro i0
    simp only [Nat.add_zero, Nat.zero_add]
    have h1 : sumBits bits i0 1 = bits i0 + sumBits bits (i0 + 1) 0 := rfl
    have h2 : sumBits bits (i0 + 1) 0 = 0 := rfl
    have h3 : sumBits bits i0 0 = 0 := rfl
    omega
  | succ n ih =>
    intro i0
    have h1 : sumBits bits i0 (n + 1 + 1) = bits i0 + sumBits bits (i0 + 1) (n + 1) :=
      rfl
    have h2 : sumBits bits i0 (n + 1) = bits i0 + sumBits bits (i0 + 1) n := rfl
    have h3 := ih (i0 + 1)
    have h4 : (i0 + 1) + n = i0 + (n + 1) := by omega
    rw [h4] at h3
    omega

/-- sumBits is monotone in the count. -/
theorem sumBits_mono (bits : ℕ → ℕ) (i0 : ℕ) : ∀ j j', j ≤ j' →
    sumBits bits i0 j ≤ sumBits bits i0 j' := by
  intro j j'
  induction j' with
  | zero =>
    intro h
    have hj : j = 0 := by omega
    subst hj
    exact le_rfl
  | succ j' ih =>
    intro h
    by_cases he : j = j' + 1
    · subst he
      exact le_rfl
    · have h1 := ih (by omega)
      have h2 := sumBits_snoc bits j' i0
      omega

/-- One more element in the prefix adds one more width. -/
theorem codePos_succ (sizes : List ℕ) (k : ℕ) (hk : k < sizes.length) :
    codePos sizes (k + 1) = codePos sizes k + 2 ^ (16 - sizes.getD k 0) := by
  unfold codePos
  rw [List.map_take, List.map_take,
    List.sum_take_succ _ k (by simpa using hk)]
  congr 1
  rw [List.getElem_map]
  rw [List.getD_eq_getElem?_getD, List.getElem?_eq_getElem hk]
  rfl

/-- codePos is monotone in the prefix length. -/
theorem codePos_mono (sizes : List ℕ) : ∀ k k', k ≤ k' → k' ≤ sizes.length →
    codePos sizes k ≤ codePos sizes k' := by
  intro k k'
  induction k' with
  | zero =>
    intro h _
    have hj : k = 0 := by omega
    subst hj
    exact le_rfl
  | succ k' ih =>
    intro h hlen
    by_cases he : k = k' + 1
    · subst he
      exact le_rfl
    · have h1 := ih (by omega) (by omega)
      have h2 := codePos_succ sizes k' (by omega)
      calc codePos sizes k ≤ codePos sizes k' := h1
        _ ≤ codePos sizes k' + 2 ^ (16 - sizes.getD k' 0) := Nat.le_add_right _ _
        _ = codePos sizes (k' + 1) := h2.symm

/-- Over a run of indices of constant length L, codePos grows
linearly. -/
theorem codePos_const_run (sizes : List ℕ) (start L : ℕ) : ∀ k, start ≤ k →
    k ≤ sizes.length → (∀ idx, start ≤ idx → idx < k → sizes.getD idx 0 = L) →
    codePos sizes k = codePos sizes start + (k - start) * 2 ^ (16 - L) := by
  intro k
  induction k with
  | zero =>
    intro h _ _
    have hs : start = 0 := by omega
    subst hs
    simp
  | succ k ih =>
    intro hstart hlen hconst
    by_cases he : start = k + 1
    · subst he
      simp
    · have h1 := ih (by omega) (by omega) (fun idx ha hb => hconst idx ha (by omega))
      have h2 := codePos_succ sizes k (by omega)
      rw [hconst k (by omega) (by omega)] at h2
      have h3 : (k + 1 - start) * 2 ^ (16 - L) =
          (k - start) * 2 ^ (16 - L) + 2 ^ (16 - L) := by
        have h4 : k + 1 - start = (k - start) + 1 := by omega
        rw [h4, Nat.add_mul, Nat.one_mul]
      omega

/-- Entry lists zipped from a sorted bounded size list are well
formed. -/
theorem EntriesOK_zip : ∀ (sizes : List ℕ) (vals : List ℕ) (lb : ℕ),
    List.Pairwise (· ≤ ·) sizes → (∀ x ∈ sizes, lb ≤ x ∧ x ≤ 16) →
    EntriesOK lb (sizes.zip vals) := by
  intro sizes
  induction sizes with
  | nil =>
    intro vals lb _ _
    simp only [List.zip_nil_left]
    exact trivial
  | cons s rest ih =>
    intro vals lb hpw hbd
    match vals with
    | [] => exact trivial
    | v :: vrest =>
      obtain ⟨hall, hpw'⟩ := List.pairwise_cons.mp hpw
      have hs := hbd s (by simp)
      refine ⟨hs.1, hs.2, ?_⟩
      exact ih vrest s hpw' (fun x hx => ⟨hall x hx, (hbd x (by simp [hx])).2⟩)

/-- weightSum of a zip is the total width of the sizes. -/
theorem weightSum_zip : ∀ (sizes vals : List ℕ), sizes.length ≤ vals.length →
    weightSum (sizes.zip vals) = codePos sizes sizes.length := by
  intro sizes
  induction sizes with
  | nil => intro vals _; rfl
  | cons s rest ih =>
    intro vals hlen
    match vals with
    | [] => simp at hlen
    | v :: vrest =>
      have h1 : (s :: rest).zip (v :: vrest) = (s, v) :: rest.zip vrest := rfl
      have h2 : weightSum ((s, v) :: rest.zip vrest) =
          2 ^ (16 - s) + weightSum (rest.zip vrest) := rfl
      rw [h1, h2, ih vrest (by simpa using hlen)]
      have h3 : (s :: rest).length = rest.length + 1 := rfl
      rw [h3, codePos_cons]

/-- Entry k of the list is placed at the slot after the widths of the
earlier entries. -/
theorem PlacedAt_of_index : ∀ (k : ℕ) (es : List (ℕ × ℕ)) (a : ℕ),
    k < es.length →
    PlacedAt es a
      (natBits (es.getD k (0, 0)).1
        ((a + weightSum (es.take k)) / 2 ^ (16 - (es.getD k (0, 0)).1)))
      (es.getD k (0, 0)).2 := by
  intro k
  induction k with
  | zero =>
    intro es a hk
    match es with
    | [] => simp at hk
    | (l, v) :: rest =>
      have h1 : ((l, v) :: rest).take 0 = [] := rfl
      have h2 : weightSum ([] : List (ℕ × ℕ)) = 0 := rfl
      have h3 : ((l, v) :: rest).getD 0 (0, 0) = (l, v) := rfl
      refine Or.inl ⟨?_, ?_⟩
      · rw [h1, h2, h3, Nat.add_zero]
      · rw [h3]
  | succ k ih =>
    intro es a hk
    match es with
    | [] => simp at hk
    | (l, v) :: rest =>
      refine Or.inr ?_
      have h1 : ((l, v) :: rest).take (k + 1) = (l, v) :: rest.take k := rfl
      have h2 : weightSum ((l, v) :: rest.take k) =
          2 ^ (16 - l) + weightSum (rest.take k) := rfl
      have h3 : ((l, v) :: rest).getD (k + 1) (0, 0) = rest.getD k (0, 0) := rfl
      rw [h1, h2, h3]
      have h4 : a + (2 ^ (16 - l) + weightSum (rest.take k)) =
          (a + 2 ^ (16 - l)) + weightSum (rest.take k) := by omega
      rw [h4]
      exact ih rest (a + 2 ^ (16 - l)) (by simp at hk; omega)

/-- Conversely, everything placed is one of the entries at its slot. -/
theorem PlacedAt_index : ∀ (es : List (ℕ × ℕ)) (a : ℕ) (q : List ℕ) (u : ℕ),
    PlacedAt es a q u →
    ∃ j, j < es.length ∧
      q = natBits (es.getD j (0, 0)).1
        ((a + weightSum (es.take j)) / 2 ^ (16 - (es.getD j (0, 0)).1)) ∧
      u = (es.getD j (0, 0)).2 := by
  intro es
  induction es with
  | nil => intro a q u h; exact h.elim
  | cons e rest ih =>
    obtain ⟨l, v⟩ := e
    intro a q u h
    have h' : (q = natBits l (a / 2 ^ (16 - l)) ∧ u = v) ∨
        PlacedAt rest (a + 2 ^ (16 - l)) q u := h
    rcases h' with ⟨rfl, hu⟩ | h'
    · subst hu
      have h1 : ((l, u) :: rest).take 0 = [] := rfl
      have h2 : weightSum ([] : List (ℕ × ℕ)) = 0 := rfl
      have h3 : ((l, u) :: rest).getD 0 (0, 0) = (l, u) := rfl
      refine ⟨0, by simp, ?_, ?_⟩
      · rw [h1, h2, h3, Nat.add_zero]
      · rw [h3]
    · obtain ⟨j, hj, hq, hu⟩ := ih (a + 2 ^ (16 - l)) q u h'
      refine ⟨j + 1, by simp only [List.length_cons]; omega, ?_, hu⟩
      have h1 : ((l, v) :: rest).take (j + 1) = (l, v) :: rest.take j := rfl
      have h2 : weightSum ((l, v) :: rest.take j) =
          2 ^ (16 - l) + weightSum (rest.take j) := rfl
      have h3 : ((l, v) :: rest).getD (j + 1) (0, 0) = rest.getD j (0, 0) := rfl
      rw [h1, h2, h3]
      have h4 : a + (2 ^ (16 - l) + weightSum (rest.take j)) =
          (a + 2 ^ (16 - l)) + weightSum (rest.take j) := by omega
      rw [h4]
      exact hq

/-- getD through a zip. -/
theorem zip_getD (sizes vals : List ℕ) (k : ℕ) (h1 : k < sizes.length)
    (h2 : k < vals.length) :
    (sizes.zip vals).getD k (0, 0) = (sizes.getD k 0, vals.getD k 0) := by
  have hz : k < (sizes.zip vals).length := by
    rw [List.length_zip]
    omega
  rw [List.getD_eq_getElem?_getD, List.getElem?_eq_getElem hz,
    List.getElem_zip, List.getD_eq_getElem?_getD, List.getElem?_eq_getElem h1,
    List.getD_eq_getElem?_getD, List.getElem?_eq_getElem h2]
  rfl

/-- In a sorted list every element is at least the head. -/
theorem sorted_headD_le (sizes : List ℕ) (h : List.Pairwise (· ≤ ·) sizes) :
    ∀ x ∈ sizes, sizes.headD 0 ≤ x := by
  match sizes with
  | [] => intro x hx; exact absurd hx (List.not_mem_nil x)
  | s :: rest =>
    intro x hx
    rcases List.mem_cons.mp hx with rfl | hx'
    · exact le_rfl
    · exact (List.pairwise_cons.mp h).1 x hx'

/-- The canonical codes of the table: as many as there are sizes, and
code k left-aligned to 16 bits sits at the sum of the earlier widths. -/
theorem huffcode_spec (bits : ℕ → ℕ) :
    (huffcodeList bits).length = (huffsizeList bits).length ∧
    ∀ k, k < (huffsizeList bits).length →
      (huffcodeList bits).getD k 0 * 2 ^ (16 - (huffsizeList bits).getD k 0) =
        codePos (huffsizeList bits) k := by
  have hpw := huffsizeFrom_pairwise bits 16 1
  have hbd : ∀ x ∈ huffsizeList bits, (huffsizeList bits).headD 0 ≤ x ∧ x ≤ 16 := by
    intro x hx
    refine ⟨sorted_headD_le _ hpw x hx, ?_⟩
    have := huffsizeFrom_mem bits 16 1 x hx
    omega
  have hspec := genCodesGo_spec ((huffsizeList bits).length + 17) (huffsizeList bits)
    0 ((huffsizeList bits).headD 0) hpw hbd (by omega)
  refine ⟨hspec.1, fun k hk => ?_⟩
  have h2 := hspec.2 k hk
  rw [Nat.zero_mul, Nat.zero_add] at h2
  exact h2

/-- Inside one group of equal code length the canonical codes are
consecutive. -/
theorem huffcode_consecutive (bits : ℕ → ℕ) (k j : ℕ)
    (hk : k < (huffsizeList bits).length) (hj : j < 16)
    (hL : (huffsizeList bits).getD k 0 = 1 + j)
    (hlo : sumBits bits 1 j ≤ k) :
    (huffcodeList bits).getD k 0 =
      (huffcodeList bits).getD (sumBits bits 1 j) 0 + (k - sumBits bits 1 j) := by
  have hw : (0 : ℕ) < 2 ^ (16 - (1 + j)) := Nat.two_pow_pos _
  have hfl : huffsizeFrom bits 16 1 = huffsizeList bits := rfl
  have hconst : ∀ idx, sumBits bits 1 j ≤ idx → idx < k + 1 →
      (huffsizeList bits).getD idx 0 = 1 + j := by
    intro idx h1 h2
    by_cases he : idx = k
    · rw [he, hL]
    · -- idx < k, and from k being in group j, idx stays in group j
      have hidx := huffsizeFrom_index bits 16 1 idx (by rw [hfl]; omega)
      obtain ⟨j', hj', hgd, hlo', hhi'⟩ := hidx
      rw [hfl] at hgd
      -- k is in group j too
      have hkk := huffsizeFrom_index bits 16 1 k (by rw [hfl]; exact hk)
      obtain ⟨jk, hjk, hgdk, hlok, hhik⟩ := hkk
      rw [hfl] at hgdk
      have hjke : jk = j := by
        rw [hgdk] at hL
        omega
      rw [hjke] at hlok hhik
      -- groups are ordered by their start sums; idx sits inside group j
      have hj'e : j' = j := by
        rcases Nat.lt_trichotomy j' j with hcmp | hcmp | hcmp
        · exfalso
          have hm := sumBits_mono bits 1 (j' + 1) j (by omega)
          have hs := sumBits_snoc bits j' 1
          omega
        · exact hcmp
        · exfalso
          have hm := sumBits_mono bits 1 (j + 1) j' (by omega)
          have hs := sumBits_snoc bits j 1
          omega
      rw [hj'e] at hgd
      rw [hgd]
  have hrun := codePos_const_run (huffsizeList bits) (sumBits bits 1 j) (1 + j)
    (k + 1) (by omega) (by omega) hconst
  have hrun' := codePos_const_run (huffsizeList bits) (sumBits bits 1 j) (1 + j)
    k (by omega) (by omega) (fun idx h1 h2 => hconst idx h1 (by omega))
  have hG := (huffcode_spec bits).2
  have hGk := hG k hk
  rw [hL] at hGk
  have hGs := hG (sumBits bits 1 j) (by omega)
  rw [hconst (sumBits bits 1 j) le_rfl (by omega)] at hGs
  have heq : (huffcodeList bits).getD k 0 * 2 ^ (16 - (1 + j)) =
      ((huffcodeList bits).getD (sumBits bits 1 j) 0 + (k - sumBits bits 1 j)) *
        2 ^ (16 - (1 + j)) := by
    rw [Nat.add_mul]
    omega
  exact Nat.eq_of_mul_eq_mul_right hw heq

/-- A longer code, truncated to the length of an earlier nonempty
group, is strictly greater than that group's last code. -/
theorem huffcode_ancestor_gt (bits : ℕ → ℕ) (k i : ℕ)
    (hk : k < (huffsizeList bits).length) (h1i : 1 ≤ i)
    (hil : i < (huffsizeList bits).getD k 0) (hbi : bits i ≠ 0) :
    (huffcodeList bits).getD (sumBits bits 1 (i - 1) + bits i - 1) 0 + 1 ≤
      (huffcodeList bits).getD k 0 /
        2 ^ ((huffsizeList bits).getD k 0 - i) := by
  have hfl : huffsizeFrom bits 16 1 = huffsizeList bits := rfl
  have hkk := huffsizeFrom_index bits 16 1 k (by rw [hfl]; exact hk)
  obtain ⟨jk, hjk, hgdk, hlok, hhik⟩ := hkk
  rw [hfl] at hgdk
  have hl16 : (huffsizeList bits).getD k 0 ≤ 16 := by omega
  have hlen : (huffsizeList bits).length = sumBits bits 1 16 :=
    huffsizeFrom_length bits 16 1
  -- the last index of group i
  have hsnoc : sumBits bits 1 ((i - 1) + 1) =
      sumBits bits 1 (i - 1) + bits (1 + (i - 1)) := sumBits_snoc bits (i - 1) 1
  have h1i' : 1 + (i - 1) = i := by omega
  rw [h1i'] at hsnoc
  have hii : (i - 1) + 1 = i := by omega
  rw [hii] at hsnoc
  have hlm : sumBits bits 1 (i - 1) + bits i - 1 < sumBits bits 1 i := by omega
  have hlmlt : sumBits bits 1 (i - 1) + bits i - 1 < (huffsizeList bits).length := by
    have := sumBits_mono bits 1 i 16 (by omega)
    omega
  have hgdlm : (huffsizeList bits).getD (sumBits bits 1 (i - 1) + bits i - 1) 0 = i := by
    have := huffsizeFrom_getD bits 16 1 (i - 1)
      (sumBits bits 1 (i - 1) + bits i - 1) (by omega)
      (by omega) (by rw [h1i']; omega)
    rw [h1i'] at this
    exact this
  -- the whole group i sits before index k
  have hlmk : sumBits bits 1 (i - 1) + bits i - 1 < k := by
    have hmono := sumBits_mono bits 1 i jk (by omega)
    omega
  have hG := (huffcode_spec bits).2
  have hGk := hG k hk
  have hGlm := hG (sumBits bits 1 (i - 1) + bits i - 1) (by omega)
  rw [hgdlm] at hGlm
  have hstep := codePos_succ (huffsizeList bits)
    (sumBits bits 1 (i - 1) + bits i - 1) (by omega)
  rw [hgdlm] at hstep
  have hmono := codePos_mono (huffsizeList bits)
    (sumBits bits 1 (i - 1) + bits i - 1 + 1) k (by omega) (by omega)
  -- put the power of the shorter length in terms of the longer one
  have hpow : 2 ^ (16 - i) =
      2 ^ ((huffsizeList bits).getD k 0 - i) *
        2 ^ (16 - (huffsizeList bits).getD k 0) := by
    rw [← pow_add]
    congr 1
    omega
  have hchain : ((huffcodeList bits).getD (sumBits bits 1 (i - 1) + bits i - 1) 0 + 1) *
      2 ^ (16 - i) ≤
      (huffcodeList bits).getD k 0 * 2 ^ (16 - (huffsizeList bits).getD k 0) := by
    rw [Nat.add_mul, Nat.one_mul]
    omega
  rw [hpow, ← Nat.mul_assoc] at hchain
  have hle := Nat.le_of_mul_le_mul_right hchain
    (Nat.two_pow_pos (16 - (huffsizeList bits).getD k 0))
  exact (Nat.le_div_iff_mul_le (Nat.two_pow_pos _)).mpr hle

/-- The DECODE loop on the bits of an l-bit code c: while i < l the
i-bit ancestor of c exceeds maxcode so one more bit is shifted in, and
at i = l the loop exits and huffval is indexed. -/
theorem decodeArrayGo_run (maxc : ℕ → ℤ) (minc vp : ℕ → ℕ) (huffval : List ℕ)
    (l c v : ℕ) (hl : l ≤ 16)
    (hpref : ∀ i', 1 ≤ i' → i' < l → ((maxc i' : ℤ) < ((c / 2 ^ (l - i') : ℕ) : ℤ)))
    (hexit : ¬ ((maxc l : ℤ) < (c : ℤ)))
    (hbound : (0 : ℤ) ≤ (vp l : ℤ) + (c : ℤ) - (minc l : ℤ) ∧
      (vp l : ℤ) + (c : ℤ) - (minc l : ℤ) < (huffval.length : ℤ))
    (hval : huffval.getD ((vp l : ℤ) + (c : ℤ) - (minc l : ℤ)).toNat 0 = v) :
    ∀ dd i, i + dd = l → 1 ≤ i →
    ∀ rest, decodeArrayGo listNext maxc minc vp huffval (17 - i) i (c / 2 ^ (l - i))
      (natBits (l - i) (c % 2 ^ (l - i)) ++ rest) = some (v, rest) := by
  intro dd
  induction dd with
  | zero =>
    intro i hi h1i rest
    have hil : i = l := by omega
    subst hil
    have hz : i - i = 0 := by omega
    rw [hz]
    have hc : c / 2 ^ 0 = c := by rw [pow_zero, Nat.div_one]
    rw [hc]
    have hnb : natBits 0 (c % 2 ^ 0) = [] := rfl
    rw [hnb, List.nil_append]
    obtain ⟨f, hf⟩ : ∃ f, 17 - i = f + 1 := ⟨16 - i, by omega⟩
    rw [hf]
    simp only [decodeArrayGo]
    rw [if_neg hexit, if_pos hbound, hval]
  | succ dd ih =>
    intro i hi h1i rest
    have hil : i < l := by omega
    obtain ⟨D, hD⟩ : ∃ D, l - i = D + 1 := ⟨l - i - 1, by omega⟩
    have hD' : l - (i + 1) = D := by omega
    rw [hD]
    have hsplit : natBits (D + 1) (c % 2 ^ (D + 1)) =
        (c / 2 ^ D) % 2 :: natBits D (c % 2 ^ D) := by
      have hpowD : (2 : ℕ) ^ (D + 1) = 2 ^ D * 2 := pow_succ 2 D
      simp only [natBits]
      congr 1
      · rw [hpowD, Nat.mod_mul_right_div_self]
        omega
      · rw [Nat.mod_mod_of_dvd c (by rw [hpowD]; exact Dvd.intro 2 rfl)]
    rw [hsplit]
    obtain ⟨f, hf⟩ : ∃ f, 17 - i = f + 1 := ⟨16 - i, by omega⟩
    rw [hf]
    have hcond := hpref i h1i hil
    rw [hD] at hcond
    simp only [decodeArrayGo, List.cons_append]
    rw [if_pos hcond]
    show decodeArrayGo listNext maxc minc vp huffval f (i + 1)
        ((c / 2 ^ (D + 1)) * 2 + (c / 2 ^ D) % 2)
        (natBits D (c % 2 ^ D) ++ rest) = some (v, rest)
    have hcode : (c / 2 ^ (D + 1)) * 2 + (c / 2 ^ D) % 2 = c / 2 ^ D := by
      have h1 : c / 2 ^ (D + 1) = c / 2 ^ D / 2 := by
        rw [Nat.div_div_eq_div_mul, pow_succ]
      rw [h1]
      exact Nat.div_add_mod' (c / 2 ^ D) 2
    rw [hcode]
    have hfuel : f = 17 - (i + 1) := by omega
    rw [hfuel]
    have hih := ih (i + 1) (by omega) (by omega) rest
    rw [hD'] at hih
    exact hih

/-- The DECODE tables for lengths 1..16, in terms of the bits histogram
partial sums. -/
theorem buildTabs_facts (bits : ℕ → ℕ) (hc : List ℕ) (i : ℕ) (h1 : 1 ≤ i)
    (h2 : i ≤ 16) :
    (bits i = 0 → (buildTabs bits hc).1 i = -1) ∧
    (bits i ≠ 0 →
      (buildTabs bits hc).1 i =
        ((hc.getD (sumBits bits 1 (i - 1) + bits i - 1) 0 : ℕ) : ℤ) ∧
      (buildTabs bits hc).2.1 i = hc.getD (sumBits bits 1 (i - 1)) 0 ∧
      (buildTabs bits hc).2.2 i = sumBits bits 1 (i - 1)) := by
  have h := buildTabsGo_spec bits hc 16 1 0 (i - 1) (by omega)
  have he : 1 + (i - 1) = i := by omega
  rw [he] at h
  simp only [Nat.zero_add] at h
  exact h

/-- The array decoder on the bit string of code k of a valid table
returns value k and consumes exactly that code. -/
theorem decodeArray_codeword (bits : ℕ → ℕ) (huffval : List ℕ) (k : ℕ)
    (hvt : ValidTable bits huffval) (hk : k < (huffsizeList bits).length) :
    ∀ rest, decodeArray listNext bits (huffcodeList bits) huffval
      (natBits ((huffsizeList bits).getD k 0) ((huffcodeList bits).getD k 0) ++ rest) =
      some (huffval.getD k 0, rest) := by
  intro rest
  have hfl : huffsizeFrom bits 16 1 = huffsizeList bits := rfl
  obtain ⟨j, hj, hLeq, hlo, hhi⟩ := huffsizeFrom_index bits 16 1 k
    (by rw [hfl]; exact hk)
  rw [hfl] at hLeq
  have hbl : bits (1 + j) ≠ 0 := by omega
  have hc2 : (huffcodeList bits).getD k 0 <
      2 ^ ((huffsizeList bits).getD k 0) := hvt.2 k hk
  -- the group of length l = 1 + j
  have hlj : (huffsizeList bits).getD k 0 - 1 = j := by omega
  have hgd_last : (huffsizeList bits).getD (sumBits bits 1 j + bits (1 + j) - 1) 0 =
      1 + j := by
    have := huffsizeFrom_getD bits 16 1 j (sumBits bits 1 j + bits (1 + j) - 1)
      (by omega) (by omega) (by omega)
    rw [hfl] at this
    exact this
  have hlast_lt : sumBits bits 1 j + bits (1 + j) - 1 < (huffsizeList bits).length := by
    have hlen : (huffsizeList bits).length = sumBits bits 1 16 := by
      rw [← hfl]
      exact huffsizeFrom_length bits 16 1
    have hs := sumBits_snoc bits j 1
    have hm := sumBits_mono bits 1 (j + 1) 16 (by omega)
    omega
  -- consecutive codes inside the group
  have hck := huffcode_consecutive bits k j hk hj hLeq hlo
  have hclast := huffcode_consecutive bits (sumBits bits 1 j + bits (1 + j) - 1) j
    hlast_lt hj hgd_last (by omega)
  -- code bounds at the exit length
  have hexitN : (huffcodeList bits).getD k 0 ≤
      (huffcodeList bits).getD (sumBits bits 1 j + bits (1 + j) - 1) 0 := by omega
  -- table facts at the exit length
  have htl := (buildTabs_facts bits (huffcodeList bits) (1 + j) (by omega)
    (by omega)).2 hbl
  have hlj1 : 1 + j - 1 = j := by omega
  rw [hlj1] at htl
  -- the value index works out to k
  have hlen_hv : huffval.length = (huffsizeList bits).length := hvt.1
  -- split the first bit off the code string
  obtain ⟨D, hD⟩ : ∃ D, (huffsizeList bits).getD k 0 = D + 1 := ⟨j, by omega⟩
  have hDj : D = j := by omega
  rw [hD]
  have hsplit : natBits (D + 1) ((huffcodeList bits).getD k 0) =
      ((huffcodeList bits).getD k 0 / 2 ^ D) % 2 ::
        natBits D ((huffcodeList bits).getD k 0 % 2 ^ D) := rfl
  rw [hsplit, List.cons_append]
  have hfirst : ((huffcodeList bits).getD k 0 / 2 ^ D) % 2 =
      (huffcodeList bits).getD k 0 / 2 ^ D := by
    apply Nat.mod_eq_of_lt
    apply (Nat.div_lt_iff_lt_mul (Nat.two_pow_pos D)).mpr
    rw [hD] at hc2
    rw [← pow_succ']
    exact hc2
  rw [hfirst]
  show decodeArrayGo listNext (buildTabs bits (huffcodeList bits)).1
      (buildTabs bits (huffcodeList bits)).2.1
      (buildTabs bits (huffcodeList bits)).2.2 huffval 16 1
      ((huffcodeList bits).getD k 0 / 2 ^ D)
      (natBits D ((huffcodeList bits).getD k 0 % 2 ^ D) ++ rest) =
    some (huffval.getD k 0, rest)
  have hrun := decodeArrayGo_run (buildTabs bits (huffcodeList bits)).1
    (buildTabs bits (huffcodeList bits)).2.1
    (buildTabs bits (huffcodeList bits)).2.2 huffval
    (D + 1) ((huffcodeList bits).getD k 0) (huffval.getD k 0)
    (by omega)
    ?_ ?_ ?_ ?_ D 1 (by omega) le_rfl rest
  · have hE1 : D + 1 - 1 = D := by omega
    rw [hE1] at hrun
    exact hrun
  · -- ancestors beat maxcode
    intro i' h1i' hi'l
    have hi'16 : i' ≤ 16 := by omega
    have htb := buildTabs_facts bits (huffcodeList bits) i' h1i' hi'16
    by_cases hbz : bits i' = 0
    · rw [htb.1 hbz]
      have : (0 : ℤ) ≤ (((huffcodeList bits).getD k 0 / 2 ^ (D + 1 - i') : ℕ) : ℤ) :=
        Int.ofNat_nonneg _
      omega
    · rw [(htb.2 hbz).1]
      have hgt := huffcode_ancestor_gt bits k i' hk h1i'
        (by omega) hbz
      rw [hD] at hgt
      omega
  · -- the exit comparison fails
    have hDj1 : D + 1 = 1 + j := by omega
    rw [hDj1, htl.1]
    omega
  · -- the huffval index is in range
    have hDj1 : D + 1 = 1 + j := by omega
    rw [hDj1, htl.2.2, htl.2.1]
    omega
  · -- and it is exactly k
    have hDj1 : D + 1 = 1 + j := by omega
    rw [hDj1, htl.2.2, htl.2.1]
    have hidx : ((sumBits bits 1 j : ℤ) + ((huffcodeList bits).getD k 0 : ℤ) -
        ((huffcodeList bits).getD (sumBits bits 1 j) 0 : ℤ)).toNat = k := by
      omega
    rw [hidx]

/-- The empty path reads the node's own data. -/
theorem pathData_nil (dat : Option ℕ) (ch : Option (HuffTree × HuffTree)) :
    pathData (.node dat ch) [] = dat := by
  rcases ch with _ | ⟨l, r⟩ <;> rfl

/-- The tree decoder follows the bit string of a code whose proper
ancestors are all data-free interior nodes, returns the data at its
end, and consumes exactly the code. -/
theorem decodeTree_run : ∀ l, 1 ≤ l → ∀ c t v, c < 2 ^ l →
    pathData t (natBits l c) = some v →
    (∀ i, 1 ≤ i → i < l → pathData t (natBits i (c / 2 ^ (l - i))) = none) →
    ∀ rest, decodeTree listNext t (natBits l c ++ rest) = some (v, rest) := by
  intro l
  induction l with
  | zero => intro h; omega
  | succ l' ih =>
    intro _ c t v hc hpath hanc rest
    by_cases hl0 : l' = 0
    · -- a single-bit code
      subst hl0
      have hc2 : c < 2 := by simpa using hc
      have hnb : natBits 1 c = [c] := by
        have h1 : natBits 1 c = [c / 2 ^ 0 % 2] := rfl
        rw [h1, pow_zero, Nat.div_one, Nat.mod_eq_of_lt hc2]
      rw [hnb] at hpath ⊢
      obtain ⟨dat, ch⟩ := t
      rcases ch with _ | ⟨lc, rc⟩
      · rw [show pathData (.node dat none) [c] = none from rfl] at hpath
        exact absurd hpath (by simp)
      · rcases (by omega : c = 0 ∨ c = 1) with rfl | rfl
        · rw [pathData_cons_zero] at hpath
          obtain ⟨d2, ch2⟩ := lc
          rw [pathData_nil] at hpath
          subst hpath
          rfl
        · rw [pathData_cons_one] at hpath
          obtain ⟨d2, ch2⟩ := rc
          rw [pathData_nil] at hpath
          subst hpath
          rfl
    · -- longer codes descend through a data-free interior node
      have hl1 : 1 ≤ l' := by omega
      have hsplit : natBits (l' + 1) c =
          (c / 2 ^ l') % 2 :: natBits l' (c % 2 ^ l') := rfl
      have hb2 : (c / 2 ^ l') % 2 < 2 := Nat.mod_lt _ (by omega)
      have hanc1 := hanc 1 le_rfl (by omega)
      have hE : l' + 1 - 1 = l' := by omega
      rw [hE] at hanc1
      have hnb1 : natBits 1 (c / 2 ^ l') = [(c / 2 ^ l') % 2] := by
        have h1 : natBits 1 (c / 2 ^ l') = [c / 2 ^ l' / 2 ^ 0 % 2] := rfl
        rw [h1, pow_zero, Nat.div_one]
      rw [hnb1] at hanc1
      rw [hsplit] at hpath ⊢
      obtain ⟨dat, ch⟩ := t
      rcases ch with _ | ⟨lc, rc⟩
      · rw [show pathData (.node dat none) ((c / 2 ^ l') % 2 ::
          natBits l' (c % 2 ^ l')) = none from rfl] at hpath
        exact absurd hpath (by simp)
      · have hmod : c % 2 ^ l' < 2 ^ l' := Nat.mod_lt _ (Nat.two_pow_pos l')
        have hancrest : ∀ i, 1 ≤ i → i < l' →
            pathData (HuffTree.node dat (some (lc, rc)))
              ((c / 2 ^ l') % 2 :: natBits i ((c % 2 ^ l') / 2 ^ (l' - i))) =
            none := by
          intro i h1i hil
          have h := hanc (i + 1) (by omega) (by omega)
          have hEi : l' + 1 - (i + 1) = l' - i := by omega
          rw [hEi, natBits_ancestor i l' c (by omega)] at h
          exact h
        rcases (by omega : (c / 2 ^ l') % 2 = 0 ∨ (c / 2 ^ l') % 2 = 1) with hb | hb
        · rw [hb] at hpath hanc1 ⊢
          rw [pathData_cons_zero] at hpath hanc1
          obtain ⟨d2, ch2⟩ := lc
          rw [pathData_nil] at hanc1
          subst hanc1
          rw [List.cons_append]
          show decodeTree listNext (.node none ch2)
            (natBits l' (c % 2 ^ l') ++ rest) = some (v, rest)
          refine ih hl1 (c % 2 ^ l') (.node none ch2) v hmod hpath ?_ rest
          intro i h1i hil
          have h := hancrest i h1i hil
          rw [hb, pathData_cons_zero] at h
          exact h
        · rw [hb] at hpath hanc1 ⊢
          rw [pathData_cons_one] at hpath hanc1
          obtain ⟨d2, ch2⟩ := rc
          rw [pathData_nil] at hanc1
          subst hanc1
          rw [List.cons_append]
          show decodeTree listNext (.node none ch2)
            (natBits l' (c % 2 ^ l') ++ rest) = some (v, rest)
          refine ih hl1 (c % 2 ^ l') (.node none ch2) v hmod hpath ?_ rest
          intro i h1i hil
          have h := hancrest i h1i hil
          rw [hb, pathData_cons_one] at h
          exact h

/-- Taking a prefix of a zip is zipping the prefixes. -/
theorem zip_take_eq : ∀ (sizes vals : List ℕ) (n : ℕ),
    (sizes.zip vals).take n = (sizes.take n).zip (vals.take n) := by
  intro sizes
  induction sizes with
  | nil => intro vals n; simp
  | cons s rest ih =>
    intro vals n
    match vals, n with
    | [], _ => simp
    | v :: vrest, 0 => rfl
    | v :: vrest, n + 1 =>
      have h1 : ((s :: rest).zip (v :: vrest)).take (n + 1) =
          (s, v) :: (rest.zip vrest).take n := rfl
      rw [h1, ih vrest n]
      rfl

/-- codePos only looks at the prefix. -/
theorem codePos_take (sizes : List ℕ) (k : ℕ) :
    codePos (sizes.take k) k = codePos sizes k := by
  unfold codePos
  rw [List.take_take]
  simp

/-- The total width of a valid table fits in the 16-bit slot space. -/
theorem codePos_total_le (bits : ℕ → ℕ) (huffval : List ℕ)
    (hvt : ValidTable bits huffval) :
    codePos (huffsizeList bits) (huffsizeList bits).length ≤ 2 ^ 16 := by
  match hn : (huffsizeList bits).length with
  | 0 =>
    have h0 : codePos (huffsizeList bits) 0 = 0 := rfl
    omega
  | n + 1 =>
    have hstep := codePos_succ (huffsizeList bits) n (by omega)
    have hG := (huffcode_spec bits).2 n (by omega)
    have hl16 : (huffsizeList bits).getD n 0 ≤ 16 := by
      have hmem : (huffsizeList bits).getD n 0 ∈ huffsizeList bits := by
        rw [List.getD_eq_getElem?_getD, List.getElem?_eq_getElem (by omega)]
        exact List.getElem_mem ..
      have := huffsizeFrom_mem bits 16 1 _ hmem
      omega
    have hcv := hvt.2 n (by omega)
    have hmul : ((huffcodeList bits).getD n 0 + 1) *
        2 ^ (16 - (huffsizeList bits).getD n 0) ≤
        2 ^ ((huffsizeList bits).getD n 0) *
          2 ^ (16 - (huffsizeList bits).getD n 0) :=
      Nat.mul_le_mul_right _ (by omega)
    rw [← pow_add] at hmul
    have hexp : (huffsizeList bits).getD n 0 +
        (16 - (huffsizeList bits).getD n 0) = 16 := by omega
    rw [hexp] at hmul
    rw [Nat.add_mul, Nat.one_mul] at hmul
    omega

/-- In the tree built from a valid table, code k leads to value k, and
every stored value is some code's value at its own path. -/
theorem buildTree_pathData (bits : ℕ → ℕ) (huffval : List ℕ)
    (hvt : ValidTable bits huffval) :
    (∀ k, k < (huffsizeList bits).length →
      pathData (buildTree bits huffval)
        (natBits ((huffsizeList bits).getD k 0) ((huffcodeList bits).getD k 0)) =
        some (huffval.getD k 0)) ∧
    (∀ q u, pathData (buildTree bits huffval) q = some u →
      ∃ k, k < (huffsizeList bits).length ∧
        q = natBits ((huffsizeList bits).getD k 0) ((huffcodeList bits).getD k 0) ∧
        u = huffval.getD k 0) := by
  have hfl : huffsizeFrom bits 16 1 = huffsizeList bits := rfl
  have hlenv : huffval.length = (huffsizeList bits).length := hvt.1
  have hziplen : ((huffsizeList bits).zip huffval).length =
      (huffsizeList bits).length := by
    rw [List.length_zip]
    omega
  have hok : EntriesOK 1 ((huffsizeList bits).zip huffval) := by
    refine EntriesOK_zip _ _ 1 (huffsizeFrom_pairwise bits 16 1) ?_
    intro x hx
    have := huffsizeFrom_mem bits 16 1 x (by rw [hfl]; exact hx)
    omega
  have hroom : 0 + weightSum ((huffsizeList bits).zip huffval) ≤ 2 ^ 16 := by
    rw [Nat.zero_add, weightSum_zip _ _ (by omega)]
    exact codePos_total_le bits huffval hvt
  have hspec := insertAll_spec ((huffsizeList bits).zip huffval) 1 0
    (.node none none) le_rfl (TreeInv_zero 16) (DepthLE_fresh 1)
    (fun q u h => absurd (by rw [pathData_fresh] at h; exact h) (by simp))
    hok (dvd_zero _) hroom
  -- the placed path of entry k is the bit string of code k
  have hplace : ∀ k, k < (huffsizeList bits).length →
      natBits (((huffsizeList bits).zip huffval).getD k (0, 0)).1
        ((0 + weightSum (((huffsizeList bits).zip huffval).take k)) /
          2 ^ (16 - (((huffsizeList bits).zip huffval).getD k (0, 0)).1)) =
        natBits ((huffsizeList bits).getD k 0) ((huffcodeList bits).getD k 0) ∧
      (((huffsizeList bits).zip huffval).getD k (0, 0)).2 = huffval.getD k 0 := by
    intro k hk
    have hgd := zip_getD (huffsizeList bits) huffval k hk (by omega)
    rw [hgd]
    have hws : weightSum (((huffsizeList bits).zip huffval).take k) =
        codePos (huffsizeList bits) k := by
      rw [zip_take_eq, weightSum_zip _ _ (by
        rw [List.length_take, List.length_take]
        omega)]
      rw [List.length_take]
      have hmin : min k (huffsizeList bits).length = k := by omega
      rw [hmin, codePos_take]
    rw [hws, Nat.zero_add]
    have hG := (huffcode_spec bits).2 k hk
    have hdiv : codePos (huffsizeList bits) k /
        2 ^ (16 - (huffsizeList bits).getD k 0) = (huffcodeList bits).getD k 0 := by
      rw [← hG]
      exact Nat.mul_div_cancel _ (Nat.two_pow_pos _)
    rw [hdiv]
    exact ⟨rfl, rfl⟩
  constructor
  · intro k hk
    have hpl := PlacedAt_of_index k ((huffsizeList bits).zip huffval) 0
      (by omega)
    have h := hspec.2.1 _ _ hpl
    rw [(hplace k hk).1, (hplace k hk).2] at h
    exact h
  · intro q u hq
    rcases hspec.2.2 q u hq with hq' | hq'
    · rw [pathData_fresh] at hq'
      exact absurd hq' (by simp)
    · obtain ⟨j, hj, hqe, hue⟩ := PlacedAt_index _ _ _ _ hq'
      rw [hziplen] at hj
      refine ⟨j, hj, ?_, ?_⟩
      · rw [hqe, (hplace j hj).1]
      · rw [hue, (hplace j hj).2]

/-- The tree decoder on the bit string of code k of a valid table
returns value k and consumes exactly that code. -/
theorem decodeTree_codeword (bits : ℕ → ℕ) (huffval : List ℕ) (k : ℕ)
    (hvt : ValidTable bits huffval) (hk : k < (huffsizeList bits).length) :
    ∀ rest, decodeTree listNext (buildTree bits huffval)
      (natBits ((huffsizeList bits).getD k 0) ((huffcodeList bits).getD k 0) ++ rest) =
      some (huffval.getD k 0, rest) := by
  intro rest
  have hfl : huffsizeFrom bits 16 1 = huffsizeList bits := rfl
  obtain ⟨j, hj, hLeq, hlo, hhi⟩ := huffsizeFrom_index bits 16 1 k
    (by rw [hfl]; exact hk)
  rw [hfl] at hLeq
  have hc2 : (huffcodeList bits).getD k 0 <
      2 ^ ((huffsizeList bits).getD k 0) := hvt.2 k hk
  refine decodeTree_run ((huffsizeList bits).getD k 0) (by omega)
    ((huffcodeList bits).getD k 0) (buildTree bits huffval) (huffval.getD k 0)
    hc2 ((buildTree_pathData bits huffval hvt).1 k hk) ?_ rest
  intro i h1i hil
  match hq : pathData (buildTree bits huffval)
      (natBits i ((huffcodeList bits).getD k 0 /
        2 ^ ((huffsizeList bits).getD k 0 - i))) with
  | none => rfl
  | some u =>
    exfalso
    obtain ⟨k', hk', hqe, _⟩ := (buildTree_pathData bits huffval hvt).2 _ u hq
    -- lengths agree, so k' has length i
    have hleni : (huffsizeList bits).getD k' 0 = i := by
      have h1 := natBits_length i
        ((huffcodeList bits).getD k 0 / 2 ^ ((huffsizeList bits).getD k 0 - i))
      have h2 := natBits_length ((huffsizeList bits).getD k' 0)
        ((huffcodeList bits).getD k' 0)
      rw [hqe] at h1
      omega
    -- k' sits in the nonempty group of length i
    obtain ⟨j', hj', hLeq', hlo', hhi'⟩ := huffsizeFrom_index bits 16 1 k'
      (by rw [hfl]; exact hk')
    rw [hfl] at hLeq'
    have hji : 1 + j' = i := by omega
    have hbne : bits (1 + j') ≠ 0 := by omega
    -- the ancestor of code k is the code of k'
    have hdivlt : (huffcodeList bits).getD k 0 /
        2 ^ ((huffsizeList bits).getD k 0 - i) < 2 ^ i := by
      apply (Nat.div_lt_iff_lt_mul (Nat.two_pow_pos _)).mpr
      calc (huffcodeList bits).getD k 0 < 2 ^ ((huffsizeList bits).getD k 0) := hc2
        _ = 2 ^ i * 2 ^ ((huffsizeList bits).getD k 0 - i) := by
            rw [← pow_add]; congr 1; omega
    rw [hleni] at hqe
    have hceq := natBits_inj i _ _ hdivlt
      (by have h := hvt.2 k' hk'; rw [hleni] at h; exact h) hqe
    -- but that ancestor beats every code of the shorter group
    have hgt := huffcode_ancestor_gt bits k i hk h1i hil (by rw [← hji]; exact hbne)
    -- and code k' is at most the last code of its group
    have hgd_last : (huffsizeList bits).getD
        (sumBits bits 1 j' + bits (1 + j') - 1) 0 = 1 + j' := by
      have := huffsizeFrom_getD bits 16 1 j'
        (sumBits bits 1 j' + bits (1 + j') - 1) (by omega) (by omega) (by omega)
      rw [hfl] at this
      exact this
    have hlast_lt : sumBits bits 1 j' + bits (1 + j') - 1 <
        (huffsizeList bits).length := by
      have hlen : (huffsizeList bits).length = sumBits bits 1 16 := by
        rw [← hfl]
        exact huffsizeFrom_length bits 16 1
      have hs := sumBits_snoc bits j' 1
      have hm := sumBits_mono bits 1 (j' + 1) 16 (by omega)
      omega
    have hck' := huffcode_consecutive bits k' j' hk' hj' hLeq' hlo'
    have hclast := huffcode_consecutive bits
      (sumBits bits 1 j' + bits (1 + j') - 1) j' hlast_lt hj' hgd_last (by omega)
    have hlastj : sumBits bits 1 (i - 1) = sumBits bits 1 j' := by
      have : i - 1 = j' := by omega
      rw [this]
    rw [hlastj] at hgt
    have hbij : bits i = bits (1 + j') := by rw [hji]
    rw [hbij] at hgt
    omega

/-- A successful decode step followed by a successful run. -/
theorem decodeSeq_cons {σ : Type} (dec : σ → Option (ℕ × σ)) (n : ℕ) (s s1 : σ)
    (v : ℕ) (vs : List ℕ) (s2 : σ) (h1 : dec s = some (v, s1))
    (h2 : decodeSeq dec n s1 = some (vs, s2)) :
    decodeSeq dec (n + 1) s = some (v :: vs, s2) := by
  simp only [decodeSeq, h1, h2]

/-- C1. The tree-based and array-based Huffman decoders agree: for
every valid table (bits histogram with its ordered value list, the
canonical codes all fitting their lengths) and every input bit stream
that is a concatenation of codewords of that table, decoding one symbol
per codeword with the HuffTree decoder (over the tree built by the
insertCode loop) and with the HuffArray decoder (per JPEG Annex C/F)
both succeed, consume the whole stream, and return the identical
sequence of decoded symbol values. -/
theorem c1_huffman_tree_array_agree (bits : ℕ → ℕ) (huffval : List ℕ)
    (ks : List ℕ) (hvt : ValidTable bits huffval)
    (hks : ∀ k ∈ ks, k < (huffsizeList bits).length) :
    decodeSeq (decodeTree listNext (buildTree bits huffval)) ks.length
        ((ks.map fun k => natBits ((huffsizeList bits).getD k 0)
          ((huffcodeList bits).getD k 0)).flatten) =
      some (ks.map fun k => huffval.getD k 0, []) ∧
    decodeSeq (fun s => decodeArray listNext bits (huffcodeList bits) huffval s)
        ks.length
        ((ks.map fun k => natBits ((huffsizeList bits).getD k 0)
          ((huffcodeList bits).getD k 0)).flatten) =
      some (ks.map fun k => huffval.getD k 0, []) := by
  induction ks with
  | nil => exact ⟨rfl, rfl⟩
  | cons k ks' ih =>
    have hk := hks k (by simp)
    obtain ⟨ih1, ih2⟩ := ih (fun x hx => hks x (by simp [hx]))
    have hmap : (((k :: ks').map fun k => natBits ((huffsizeList bits).getD k 0)
        ((huffcodeList bits).getD k 0)).flatten) =
        natBits ((huffsizeList bits).getD k 0) ((huffcodeList bits).getD k 0) ++
          ((ks'.map fun k => natBits ((huffsizeList bits).getD k 0)
            ((huffcodeList bits).getD k 0)).flatten) := by
      rw [List.map_cons, List.flatten_cons]
    have hmapv : ((k :: ks').map fun k => huffval.getD k 0) =
        huffval.getD k 0 :: (ks'.map fun k => huffval.getD k 0) := rfl
    have hlen : (k :: ks').length = ks'.length + 1 := rfl
    rw [hmap, hmapv, hlen]
    constructor
    · exact decodeSeq_cons _ ks'.length _ _ _ _ _
        (decodeTree_codeword bits huffval k hvt hk _) ih1
    · exact decodeSeq_cons _ ks'.length _ _ _ _ _
        (decodeArray_codeword bits huffval k hvt hk _) ih2

/-- Witness for C1 at a concrete table: lengths histogram 1 code of
length 1 and 2 codes of length 2 (canonical codes 0, 10, 11), values
7, 8, 9, and the symbol sequence 9, 7, 8 encoded as the bit stream
1 1 0 1 0. Both decoders return the same value sequence and end on the
empty stream. -/
theorem c1_huffman_tree_array_agree_witness :
    (ValidTable (fun i => if i = 1 then 1 else if i = 2 then 2 else 0) [7, 8, 9] ∧
      ∀ k ∈ [2, 0, 1],
        k < (huffsizeList (fun i => if i = 1 then 1 else if i = 2 then 2 else 0)).length) ∧
    decodeSeq (decodeTree listNext
        (buildTree (fun i => if i = 1 then 1 else if i = 2 then 2 else 0) [7, 8, 9]))
        3 [1, 1, 0, 1, 0] = some ([9, 7, 8], []) ∧
    decodeSeq (fun s => decodeArray listNext
        (fun i => if i = 1 then 1 else if i = 2 then 2 else 0)
        (huffcodeList (fun i => if i = 1 then 1 else if i = 2 then 2 else 0))
        [7, 8, 9] s) 3 [1, 1, 0, 1, 0] = some ([9, 7, 8], []) :=
  ⟨⟨by decide, by decide⟩,
    (c1_huffman_tree_array_agree
      (fun i => if i = 1 then 1 else if i = 2 then 2 else 0) [7, 8, 9] [2, 0, 1]
      (by decide) (by decide)).1,
    (c1_huffman_tree_array_agree
      (fun i => if i = 1 then 1 else if i = 2 then 2 else 0) [7, 8, 9] [2, 0, 1]
      (by decide) (by decide)).2⟩
